import Mathlib

/-! The WebSocket hub of chess-arena, and the match service around it.

A shallow embedding of `backend/internal/websocket/hub.go` and `client.go`, of
the match service (`services/match_service.go` over a table model of the
repository), of the notification and start handlers of
`handlers/match_handler.go` and of the role checks, followed by theorems about
them.

Modelling conventions

* A `*Client` is a `Client` value: its address together with the `userID`
  field, which is never written after `ServeWs` has built the client.
* The channel `client.send` is mutable and shared, so it lives in the hub
  state (`Hub.send`), keyed by the client.
* The two `map[int][]*Client` indices are functions `Int → Option (List Client)`:
  `none` is an absent key.  The key set of `map[*Client]bool` is a list.
* A Go panic is an `Except.error` that carries the kind of panic and the hub
  as the panic left it.
* `json.Marshal` is a parameter `marshal : Message → Option Frame`
  (`none` is a marshalling error); the other library calls (`json.Unmarshal`,
  `bytes.TrimSpace`) are parameters as well.
* The table `matches` is a function from ids to rows; a database call that
  fails is a flag of `DbFaults`.
-/

namespace ChessArena

/-! ## Data model -/

/-- A serialized frame, the `[]byte` that `json.Marshal` returns; one `Nat` per byte. -/
abbrev Frame := List Nat

/-- The struct `Message` of hub.go: a type tag and a raw JSON payload. -/
structure Message where
  type : String
  payload : List Nat
deriving DecidableEq, Repr

/-- A `*Client`: the address of the client object and its immutable `userID`
(0 for an anonymous connection). -/
structure Client where
  addr : Nat
  userID : Int
deriving DecidableEq, Repr

/-- A buffered Go channel of frames: the queued frames (head is the next one
received), the capacity given to `make`, and whether `close` was called. -/
structure Chan where
  buf : List Frame
  cap : Nat
  closed : Bool
deriving DecidableEq, Repr

/-- The two run-time panics the hub code can raise. -/
inductive Panic where
  | closeOfClosedChannel
  | sendOnClosedChannel
deriving DecidableEq, Repr

/-- A Go `map[int][]*Client`; `none` is an absent key. -/
abbrev ClientMap := Int → Option (List Client)

/-- The struct `Hub` of hub.go together with the part of the heap it works on.
`clients` is the key set of `map[*Client]bool` (every stored value is `true`),
`send c` is the channel `c.send`, and `unregister` lists the clients whose
eviction goroutine (`go client.unregister()`) has been started, or whose
inbound pump has ended, and waits to hand the client to `Run` over the hub's
`unregister` channel. -/
structure Hub where
  clients : List Client
  userClients : ClientMap
  matchSubscriptions : ClientMap
  send : Client → Chan
  unregister : List Client

/-- The result of an operation that may panic. -/
abbrev Result := Except (Panic × Hub) Hub

/-- The hub an operation leaves behind, whether it returned or panicked. -/
def hubOf : Result → Hub
  | .ok h => h
  | .error (_, h) => h

/-- The expression `m[k]` on a map of slices: the nil slice when `k` is absent. -/
def mapGet (m : ClientMap) (k : Int) : List Client := (m k).getD []

/-- The statement `m[k] = v`. -/
def mapSet (m : ClientMap) (k : Int) (v : List Client) : ClientMap :=
  Function.update m k (some v)

/-- The statement `delete(m, k)`. -/
def mapDelete (m : ClientMap) (k : Int) : ClientMap :=
  Function.update m k none

/-- The mailbox capacity `ServeWs` passes to `make(chan []byte, 256)`. -/
def mailboxCapacity : Nat := 256

/-- The channel `ServeWs` creates for a new client: open, empty, capacity 256. -/
def newMailbox : Chan := { buf := [], cap := mailboxCapacity, closed := false }

/-- `len(ch) == cap(ch)`: a non-blocking send takes the `default` branch. -/
def Chan.full (ch : Chan) : Bool := decide (ch.cap ≤ ch.buf.length)

/-- `NewHub`: three empty maps.  Every client that `ServeWs` will create starts
with the channel `newMailbox`. -/
def NewHub : Hub :=
  { clients := []
    userClients := fun _ => none
    matchSubscriptions := fun _ => none
    send := fun _ => newMailbox
    unregister := [] }

/-! ## Registry operations -/

/-- `Hub.registerClient`. -/
def registerClient (h : Hub) (client : Client) : Hub :=
  let h1 : Hub :=
    { h with clients := if client ∈ h.clients then h.clients else h.clients ++ [client] }
  if client.userID > 0 then
    { h1 with
      userClients :=
        mapSet h1.userClients client.userID (mapGet h1.userClients client.userID ++ [client]) }
  else h1

/-- The loop `for i, c := range clients { if c == client { ... append(clients[:i],
clients[i+1:]...); break } }`: the list without the first occurrence of `client`. -/
def removeClient (client : Client) : List Client → List Client
  | [] => []
  | c :: rest => if c = client then rest else c :: removeClient client rest

/-- The body of the loop over `h.matchSubscriptions` in `unregisterClient`, for
one key that is present with value `clients`: the value the key has afterwards
(`none` when the key is deleted). -/
def unsubscribeEntry (client : Client) (clients : List Client) : Option (List Client) :=
  let l := if client ∈ clients then removeClient client clients else clients
  if l.length = 0 then none else some l

/-- `Hub.unregisterClient`.  `close(client.send)` panics on a closed channel. -/
def unregisterClient (h : Hub) (client : Client) : Result :=
  if client ∈ h.clients then
    let h1 : Hub := { h with clients := h.clients.filter (fun c => c != client) }
    if (h1.send client).closed then .error (.closeOfClosedChannel, h1)
    else
      let h2 : Hub :=
        { h1 with send := Function.update h1.send client { h1.send client with closed := true } }
      let h3 : Hub :=
        if client.userID > 0 then
          let clients := mapGet h2.userClients client.userID
          let uc1 :=
            if client ∈ clients then
              mapSet h2.userClients client.userID (removeClient client clients)
            else h2.userClients
          let uc2 :=
            if (mapGet uc1 client.userID).length = 0 then mapDelete uc1 client.userID else uc1
          { h2 with userClients := uc2 }
        else h2
      .ok { h3 with
            matchSubscriptions := fun matchID =>
              match h3.matchSubscriptions matchID with
              | none => none
              | some clients => unsubscribeEntry client clients }
  else .ok h

/-- `Hub.SubscribeToMatch`. -/
def SubscribeToMatch (h : Hub) (client : Client) (matchID : Int) : Hub :=
  { h with
    matchSubscriptions :=
      mapSet h.matchSubscriptions matchID (mapGet h.matchSubscriptions matchID ++ [client]) }

/-! ## Dispatch -/

/-- The statement `select { case ch <- data: default: }`: a panic when the channel
is closed, `some` of the channel with `data` queued at the tail when there is
room, `none` when the `default` branch runs. -/
def trySend (ch : Chan) (data : Frame) : Except Panic (Option Chan) :=
  if ch.closed then .error .sendOnClosedChannel
  else if ch.buf.length < ch.cap then .ok (some { ch with buf := ch.buf ++ [data] })
  else .ok none

/-- The loop shared by the three broadcasts: for each target in turn, a
non-blocking send of `data`; on a full mailbox `go client.unregister()`. -/
def dispatch (data : Frame) : List Client → Hub → Result
  | [], h => .ok h
  | client :: rest, h =>
    match trySend (h.send client) data with
    | .error p => .error (p, h)
    | .ok (some ch) => dispatch data rest { h with send := Function.update h.send client ch }
    | .ok none => dispatch data rest { h with unregister := h.unregister ++ [client] }

/-- `Hub.broadcastMessage`. -/
def broadcastMessage (marshal : Message → Option Frame) (h : Hub) (message : Message) : Result :=
  match marshal message with
  | none => .ok h
  | some data => dispatch data h.clients h

/-- `Hub.BroadcastToUser`. -/
def BroadcastToUser (marshal : Message → Option Frame) (h : Hub) (userID : Int)
    (message : Message) : Result :=
  match marshal message with
  | none => .ok h
  | some data => dispatch data (mapGet h.userClients userID) h

/-- `Hub.BroadcastToMatch`. -/
def BroadcastToMatch (marshal : Message → Option Frame) (h : Hub) (matchID : Int)
    (message : Message) : Result :=
  match marshal message with
  | none => .ok h
  | some data => dispatch data (mapGet h.matchSubscriptions matchID) h

/-- One receive `<-c.send` by the client's outbound pump: the head of the
mailbox is taken off (nothing happens on an empty mailbox). -/
def recvFrame (h : Hub) (c : Client) : Hub :=
  { h with send := Function.update h.send c { h.send c with buf := (h.send c).buf.tail } }

/-- A run of `broadcastMessage` calls, one message after the other, stopping at
the first panic. -/
def broadcastRun (marshal : Message → Option Frame) : List Message → Hub → Result
  | [], h => .ok h
  | m :: ms, h =>
    match broadcastMessage marshal h m with
    | .ok h1 => broadcastRun marshal ms h1
    | .error e => .error e

/-! ## Reachable hub states -/

/-- The hubs the program can reach, with the list of the clients registered so
far.  `ServeWs` registers each client it creates once, so `register` asks for
a client that was not registered before.  `registerClient`, `unregisterClient`
and `broadcastMessage` run on the goroutine of `Run`, where a panic ends the
program, so only their returns are steps; `BroadcastToUser` and
`BroadcastToMatch` run in request handlers, whose panics the HTTP server
recovers, so the hub they leave behind is a step as well.  `recv` is a receive
by an outbound pump. -/
inductive Reach (marshal : Message → Option Frame) : List Client → Hub → Prop
  | init : Reach marshal [] NewHub
  | register {cs : List Client} {h : Hub} (c : Client) :
      Reach marshal cs h → c ∉ cs → Reach marshal (c :: cs) (registerClient h c)
  | subscribe {cs : List Client} {h : Hub} (c : Client) (matchID : Int) :
      Reach marshal cs h → Reach marshal cs (SubscribeToMatch h c matchID)
  | unregister {cs : List Client} {h h1 : Hub} (c : Client) :
      Reach marshal cs h → unregisterClient h c = .ok h1 → Reach marshal cs h1
  | broadcast {cs : List Client} {h h1 : Hub} (m : Message) :
      Reach marshal cs h → broadcastMessage marshal h m = .ok h1 → Reach marshal cs h1
  | toUser {cs : List Client} {h : Hub} (userID : Int) (m : Message) :
      Reach marshal cs h → Reach marshal cs (hubOf (BroadcastToUser marshal h userID m))
  | toMatch {cs : List Client} {h : Hub} (matchID : Int) (m : Message) :
      Reach marshal cs h → Reach marshal cs (hubOf (BroadcastToMatch marshal h matchID m))
  | recv {cs : List Client} {h : Hub} (c : Client) :
      Reach marshal cs h → Reach marshal cs (recvFrame h c)

/-- A hub state the program can reach. -/
def Reachable (marshal : Message → Option Frame) (h : Hub) : Prop :=
  ∃ cs, Reach marshal cs h

/-- The invariant of the reachable hubs, for the list `cs` of the clients
registered so far. -/
structure Inv (cs : List Client) (h : Hub) : Prop where
  clients_nodup : h.clients.Nodup
  clients_created : ∀ c ∈ h.clients, c ∈ cs
  clients_open : ∀ c ∈ h.clients, (h.send c).closed = false
  fresh_open : ∀ c, c ∉ cs → (h.send c).closed = false
  gone_closed : ∀ c ∈ cs, c ∉ h.clients → (h.send c).closed = true
  cap_eq : ∀ c, (h.send c).cap = mailboxCapacity
  user_nodup : ∀ k l, h.userClients k = some l → l.Nodup
  user_mem : ∀ k l, h.userClients k = some l → ∀ c ∈ l, c ∈ h.clients ∧ c.userID = k
  user_complete : ∀ c ∈ h.clients, 0 < c.userID → c ∈ mapGet h.userClients c.userID
  user_nonempty : ∀ k l, h.userClients k = some l → l ≠ []
  user_pos : ∀ k l, h.userClients k = some l → 0 < k
  match_nonempty : ∀ k l, h.matchSubscriptions k = some l → l ≠ []

/-- The three broadcasts of the hub, by the clients they address. -/
inductive Target where
  | all
  | user (userID : Int)
  | topic (matchID : Int)
deriving DecidableEq, Repr

/-- The clients a broadcast loops over: the keys of `h.clients`, the slice
`h.userClients[userID]`, or the slice `h.matchSubscriptions[matchID]`. -/
def targets (h : Hub) : Target → List Client
  | .all => h.clients
  | .user userID => mapGet h.userClients userID
  | .topic matchID => mapGet h.matchSubscriptions matchID

/-- One of `broadcastMessage`, `BroadcastToUser`, `BroadcastToMatch`. -/
def broadcastTo (marshal : Message → Option Frame) (h : Hub) (t : Target)
    (message : Message) : Result :=
  match t with
  | .all => broadcastMessage marshal h message
  | .user userID => BroadcastToUser marshal h userID message
  | .topic matchID => BroadcastToMatch marshal h matchID message

/-- One iteration of the dispatch loop on a client whose mailbox is open: the
frame is queued when there is room, otherwise an eviction is started. -/
def sendStep (data : Frame) (h : Hub) (client : Client) : Hub :=
  if (h.send client).buf.length < (h.send client).cap then
    { h with send := Function.update h.send client
               { h.send client with buf := (h.send client).buf ++ [data] } }
  else { h with unregister := h.unregister ++ [client] }

/-- The hubs reachable from `NewHub` by any sequence of hub calls with any
arguments, with no assumption on the callers: here a client may be registered
again, before or after it was unregistered.  Every `Reach` hub is one of them. -/
inductive ReachAny (marshal : Message → Option Frame) : Hub → Prop
  | init : ReachAny marshal NewHub
  | register {h : Hub} (c : Client) :
      ReachAny marshal h → ReachAny marshal (registerClient h c)
  | subscribe {h : Hub} (c : Client) (matchID : Int) :
      ReachAny marshal h → ReachAny marshal (SubscribeToMatch h c matchID)
  | unregister {h h1 : Hub} (c : Client) :
      ReachAny marshal h → unregisterClient h c = .ok h1 → ReachAny marshal h1
  | broadcast {h h1 : Hub} (m : Message) :
      ReachAny marshal h → broadcastMessage marshal h m = .ok h1 → ReachAny marshal h1
  | toUser {h : Hub} (userID : Int) (m : Message) :
      ReachAny marshal h → ReachAny marshal (hubOf (BroadcastToUser marshal h userID m))
  | toMatch {h : Hub} (matchID : Int) (m : Message) :
      ReachAny marshal h → ReachAny marshal (hubOf (BroadcastToMatch marshal h matchID m))
  | recv {h : Hub} (c : Client) :
      ReachAny marshal h → ReachAny marshal (recvFrame h c)

/-- One call of `Run` on the registry: `registerClient` or `unregisterClient`. -/
inductive RegCall where
  | register (c : Client)
  | unregister (c : Client)
deriving DecidableEq, Repr

/-- The client a call is about. -/
def RegCall.client : RegCall → Client
  | .register c => c
  | .unregister c => c

/-- What `Run` does with one request. -/
def applyCall (h : Hub) : RegCall → Result
  | .register c => .ok (registerClient h c)
  | .unregister c => unregisterClient h c

/-- A sequence of `registerClient` and `unregisterClient` calls, in order,
stopping at the first panic. -/
def runCalls : List RegCall → Hub → Result
  | [], h => .ok h
  | call :: rest, h =>
    match applyCall h call with
    | .ok h1 => runCalls rest h1
    | .error e => .error e

/-- The most recent call on client `c` in a sequence of calls, in the words of
the specification; `none` when no call is about `c`. -/
def lastCall (calls : List RegCall) (c : Client) : Option RegCall :=
  (calls.filter (fun call => call.client = c)).getLast?

/-- The distinct clients whose most recent call in the sequence is a register,
in the words of the specification. -/
def liveClients (calls : List RegCall) : List Client :=
  ((calls.map RegCall.client).dedup).filter
    (fun c => lastCall calls c = some (RegCall.register c))

/-- The clients a sequence of calls registers, one entry per register call. -/
def registrations (calls : List RegCall) : List Client :=
  calls.filterMap (fun call =>
    match call with
    | .register c => some c
    | .unregister _ => none)

/-! ## The inbound pump -/

/-- The library calls of `readPump`, as parameters.  `trimSpace` is
`bytes.TrimSpace`; `unmarshalMessage` is `json.Unmarshal` into a `Message`
(`none` on an error); `unmarshalMatchID` is `json.Unmarshal` of the payload into
the struct with the single field `MatchID int` tagged `matchId`: `none` on an
error, otherwise the value of the field, which is 0 when the payload has no such
key. -/
structure Decoder where
  trimSpace : Frame → Frame
  unmarshalMessage : Frame → Option Message
  unmarshalMatchID : List Nat → Option Int

/-- The byte `'\n'` of the variable `newline`. -/
def newline : Nat := 10

/-- The byte `' '` of the variable `space`. -/
def space : Nat := 32

/-- The expression `bytes.TrimSpace(bytes.Replace(message, newline, space, -1))`. -/
def normalize (d : Decoder) (raw : Frame) : Frame :=
  d.trimSpace (raw.map (fun b => if b = newline then space else b))

/-- The body of the loop of `readPump` after a successful read: decode the
envelope, and on a `subscribe_match` envelope with a payload that decodes to a
positive match id call `SubscribeToMatch`.  In every other case the frame is
dropped and the loop goes on. -/
def readStep (d : Decoder) (h : Hub) (c : Client) (raw : Frame) : Hub :=
  match d.unmarshalMessage (normalize d raw) with
  | none => h
  | some clientMessage =>
    if clientMessage.type = "subscribe_match" then
      match d.unmarshalMatchID clientMessage.payload with
      | some matchID => if matchID > 0 then SubscribeToMatch h c matchID else h
      | none => h
    else h

/-- What `conn.ReadMessage()` returns: a frame, or an error (transport error,
close, frame over the read limit, read deadline). -/
inductive ReadResult where
  | message (raw : Frame)
  | error
deriving DecidableEq, Repr

/-- The loop of `readPump` over the results of its reads.  On a read error the
loop ends and the deferred `c.unregister()` hands the client to `Run`; when the
results run out the pump is waiting in `ReadMessage`. -/
def readPump (d : Decoder) (c : Client) : List ReadResult → Hub → Hub
  | [], h => h
  | .error :: _, h => { h with unregister := h.unregister ++ [c] }
  | .message raw :: rest, h => readPump d c rest (readStep d h c raw)

/-! ## The outbound pump -/

/-- What one pass through the `select` of `writePump` on the mailbox does. -/
inductive PumpStep where
  /-- The mailbox is empty and open: the `select` waits. -/
  | waiting
  /-- The mailbox is closed and drained (`!ok`): a close message is written and
  the pump returns. -/
  | closed
  /-- The first frame was received and `conn.NextWriter` failed: the pump returns. -/
  | noWriter (ch : Chan)
  /-- One transport message `out` was written, after `dequeued` receives in the
  loop that follows the first receive; `ch` is the mailbox afterwards. -/
  | wrote (out : Frame) (dequeued : Nat) (ch : Chan)
deriving DecidableEq, Repr

/-- The loop `for i := 0; i < n; i++ { w.Write(newline); w.Write(<-c.send) }`:
`w` is what was written so far and `k` the number of receives so far.  The pump
is the only receiver of the mailbox, so the `n` frames counted by `len` are
still queued when the loop asks for them; on an empty mailbox, which cannot
occur, the model ends the loop after the newline. -/
def drainQueued : Nat → Frame → Nat → Chan → Frame × Nat × Chan
  | 0, w, k, ch => (w, k, ch)
  | n + 1, w, k, ch =>
    match ch.buf with
    | f :: rest => drainQueued n (w ++ [newline] ++ f) (k + 1) { ch with buf := rest }
    | [] => (w ++ [newline], k, ch)

/-- The case `message, ok := <-c.send` of the `select` in `writePump`;
`nextWriterOk` tells whether `conn.NextWriter` returns a writer. -/
def writePumpStep (nextWriterOk : Bool) (ch : Chan) : PumpStep :=
  match ch.buf with
  | [] => if ch.closed then .closed else .waiting
  | message :: rest =>
    let ch1 : Chan := { ch with buf := rest }
    if nextWriterOk then
      let n := ch1.buf.length
      let r := drainQueued n message 0 ch1
      .wrote r.1 r.2.1 r.2.2
    else .noWriter ch1

/-! ## Match notifications -/

/-- `MatchStatusPending`; the type `MatchStatus` is a string type. -/
def MatchStatusPending : String := "pending"

/-- `MatchStatusInProgress`. -/
def MatchStatusInProgress : String := "in_progress"

/-- `MatchStatusWhiteWon`. -/
def MatchStatusWhiteWon : String := "white_won"

/-- `MatchStatusBlackWon`. -/
def MatchStatusBlackWon : String := "black_won"

/-- `MatchStatusDraw`. -/
def MatchStatusDraw : String := "draw"

/-- `MatchStatusAborted`. -/
def MatchStatusAborted : String := "aborted"

/-- The struct `Match` of models/match.go, without the player records and the
two time stamps, which no operation modelled here reads. -/
structure Match where
  ID : Int
  WhiteID : Int
  BlackID : Int
  Moves : String
  FEN : String
  Status : String
deriving DecidableEq, Repr

/-- `MatchHandler.notifyMatchCreated`.  `marshalMatch` is
`json.Marshal(match.ToResponse())` with its error dropped, as the code does. -/
def notifyMatchCreated (marshal : Message → Option Frame) (marshalMatch : Match → List Nat)
    (h : Hub) (m : Match) : Result :=
  let whiteMessage : Message := { type := "match_created", payload := marshalMatch m }
  match BroadcastToUser marshal h m.WhiteID whiteMessage with
  | .error e => .error e
  | .ok h1 =>
    let blackMessage : Message := { type := "match_created", payload := marshalMatch m }
    BroadcastToUser marshal h1 m.BlackID blackMessage

/-- `MatchHandler.notifyMatchStarted`. -/
def notifyMatchStarted (marshal : Message → Option Frame) (marshalMatch : Match → List Nat)
    (h : Hub) (m : Match) : Result :=
  BroadcastToMatch marshal h m.ID { type := "match_started", payload := marshalMatch m }

/-- `MatchHandler.notifyMatchUpdated`; `fmt.Sprintf("match_%s", match.Status)` is
the concatenation. -/
def notifyMatchUpdated (marshal : Message → Option Frame) (marshalMatch : Match → List Nat)
    (h : Hub) (m : Match) : Result :=
  let payload := marshalMatch m
  let message : Message := { type := "match_updated", payload := payload }
  match BroadcastToMatch marshal h m.ID message with
  | .error e => .error e
  | .ok h1 =>
    if m.Status ≠ MatchStatusPending ∧ m.Status ≠ MatchStatusInProgress then
      let finishMessage : Message := { type := "match_" ++ m.Status, payload := payload }
      BroadcastToMatch marshal h1 m.ID finishMessage
    else .ok h1

/-- The messages in the list sent to one topic with `BroadcastToMatch`, one after
the other, stopping at the first panic. -/
def broadcastSeq (marshal : Message → Option Frame) (matchID : Int) :
    List Message → Hub → Result
  | [], h => .ok h
  | m :: ms, h =>
    match BroadcastToMatch marshal h matchID m with
    | .ok h1 => broadcastSeq marshal matchID ms h1
    | .error e => .error e

/-! ## Keepalive constants -/

/-- `time.Second`, in nanoseconds (the unit of `time.Duration`). -/
def second : Nat := 1000000000

/-- `writeWait = 10 * time.Second`. -/
def writeWait : Nat := 10 * second

/-- `pongWait = 60 * time.Second`. -/
def pongWait : Nat := 60 * second

/-- `pingPeriod = (pongWait * 9) / 10`, with the integer division of Go. -/
def pingPeriod : Nat := (pongWait * 9) / 10

/-- `maxMessageSize = 512`, the read limit set on the connection. -/
def maxMessageSize : Nat := 512

/-! ## The match service -/

/-- `InitialFenPosition`. -/
def InitialFenPosition : String := "rnbqkbnr/pppppppp/8/8/8/8/PPPPPPPP/RNBQKBNR w KQkq - 0 1"

/-- The table `matches`: the row stored under each id, `none` when there is no
such row. -/
abbrev MatchTable := Int → Option Match

/-- Which database statements of a service call fail: the query of `FindByID`,
the statement of `Update`, the queries of `FindWithPlayers`. -/
structure DbFaults where
  find : Bool
  update : Bool
  players : Bool
deriving DecidableEq, Repr

/-- A database without faults. -/
def noFaults : DbFaults := { find := false, update := false, players := false }

/-- `MatchRepository.FindByID`: the row with that id, or an error. -/
def FindByID (f : DbFaults) (t : MatchTable) (id : Int) : Except String Match :=
  if f.find then .error "error querying match"
  else
    match t id with
    | none => .error "match not found"
    | some m => .ok { m with ID := id }

/-- `MatchRepository.Update`: the row with the id of the match is overwritten;
without such a row the statement changes nothing and is no error. -/
def Update (f : DbFaults) (t : MatchTable) (m : Match) : Except String MatchTable :=
  if f.update then .error "error updating match"
  else .ok (if (t m.ID).isSome then Function.update t m.ID (some m) else t)

/-- `MatchRepository.FindWithPlayers`: the row with that id (the player records it
loads are not part of `Match` here), or an error. -/
def FindWithPlayers (f : DbFaults) (t : MatchTable) (id : Int) : Except String Match :=
  if f.players then .error "error querying player"
  else
    match t id with
    | none => .error "match not found"
    | some m => .ok { m with ID := id }

/-- `strings.Split(s, " ")` on the characters of `s`: the pieces between the
spaces; the empty string gives one empty piece. -/
def splitSpaces : List Char → List (List Char)
  | [] => [[]]
  | c :: cs =>
    if c = ' ' then [] :: splitSpaces cs
    else
      match splitSpaces cs with
      | [] => [[c]]
      | w :: ws => (c :: w) :: ws

/-- The expression `len(strings.Split(match.Moves, " "))`. -/
def moveCountOf (moves : String) : Nat := (splitSpaces moves.toList).length

/-- `MatchService.StartMatch`: the result and the table afterwards. -/
def StartMatch (f : DbFaults) (t : MatchTable) (id : Int) : Except String Match × MatchTable :=
  match FindByID f t id with
  | .error e => (.error e, t)
  | .ok m =>
    if m.Status ≠ MatchStatusPending then (.error "match is not in pending status", t)
    else
      let m1 : Match := { m with Status := MatchStatusInProgress }
      match Update f t m1 with
      | .error e => (.error e, t)
      | .ok t1 => (FindWithPlayers f t1 m1.ID, t1)

/-- `MatchService.MakeMove`: the result and the table afterwards. -/
def MakeMove (f : DbFaults) (t : MatchTable) (id : Int) (move : String) :
    Except String Match × MatchTable :=
  match FindByID f t id with
  | .error e => (.error e, t)
  | .ok m =>
    if m.Status ≠ MatchStatusInProgress then (.error "match is not in progress", t)
    else
      let moves := if m.Moves = "" then move else m.Moves ++ " " ++ move
      let moveCount := moveCountOf moves
      let fen := InitialFenPosition ++ " (after move " ++ toString moveCount ++ ")"
      let status :=
        if moveCount ≥ 10 then
          (if moveCount % 2 = 0 then MatchStatusWhiteWon else MatchStatusBlackWon)
        else m.Status
      let m1 : Match := { m with Moves := moves, FEN := fen, Status := status }
      match Update f t m1 with
      | .error e => (.error e, t)
      | .ok t1 => (FindWithPlayers f t1 m1.ID, t1)

/-- `MatchService.AbortMatch`: the error, if any, and the table afterwards. -/
def AbortMatch (f : DbFaults) (t : MatchTable) (id : Int) : Except String Unit × MatchTable :=
  match FindByID f t id with
  | .error e => (.error e, t)
  | .ok m =>
    if m.Status ≠ MatchStatusPending ∧ m.Status ≠ MatchStatusInProgress then
      (.error "match cannot be aborted", t)
    else
      let m1 : Match := { m with Status := MatchStatusAborted }
      match Update f t m1 with
      | .error e => (.error e, t)
      | .ok t1 => (.ok (), t1)

/-! ## The match and user handlers -/

/-- The struct `Claims` of auth/jwt.go, without the registered JWT claims. -/
structure Claims where
  UserID : Int
  Username : String
  Roles : List String
deriving DecidableEq, Repr

/-- `MatchHandler.startMatch`: the HTTP status of the response, the table
afterwards and what became of the hub.  `claims` is `none` when the request
carries no authenticated user. -/
def startMatch (marshal : Message → Option Frame) (marshalMatch : Match → List Nat)
    (f : DbFaults) (t : MatchTable) (h : Hub) (method : String) (claims : Option Claims)
    (id : Int) : Nat × MatchTable × Result :=
  if method ≠ "POST" then (405, t, .ok h)
  else
    match claims with
    | none => (401, t, .ok h)
    | some claims =>
      match StartMatch f t id with
      | (.error _, t1) => (400, t1, .ok h)
      | (.ok m, t1) =>
        if m.WhiteID ≠ claims.UserID ∧ m.BlackID ≠ claims.UserID then (403, t1, .ok h)
        else (200, t1, notifyMatchStarted marshal marshalMatch h m)

/-- The condition of the branch "It's not your turn" of `MatchHandler.makeMove`,
for the match just read and the user of the request. -/
def notYourTurn (m : Match) (userID : Int) : Bool :=
  let moveCount := moveCountOf m.Moves
  (moveCount % 2 == 0 && m.WhiteID != userID) || (moveCount % 2 == 1 && m.BlackID != userID)

/-- `auth.HasRole`. -/
def HasRole : List String → String → Bool
  | [], _ => false
  | r :: roles, role => if r = role then true else HasRole roles role

/-- `strings.Join(elems, sep)`. -/
def strJoin : List String → String → String
  | [], _ => ""
  | [a], _ => a
  | a :: b :: rest, sep => a ++ sep ++ strJoin (b :: rest) sep

/-- Whether the characters `sub` occur in a row somewhere in a list of characters. -/
def containsChars (sub : List Char) : List Char → Bool
  | [] => sub.isEmpty
  | c :: cs => sub.isPrefixOf (c :: cs) || containsChars sub cs

/-- `strings.Contains(s, substr)`. -/
def strContains (s substr : String) : Bool := containsChars substr.toList s.toList

/-- The admin check of `UserHandler.listUsers` and `UserHandler.deleteUser`:
`strings.Contains(strings.Join(claims.Roles, ","), "admin")`. -/
def adminCheck (roles : List String) : Bool := strContains (strJoin roles ",") "admin"

/-- The admin check of `MatchHandler.abortMatch`: the loop that sets `isAdmin`. -/
def isAdmin : List String → Bool
  | [] => false
  | role :: roles => if role = "admin" then true else isAdmin roles

/-- A run of calls of one broadcast (`broadcastMessage`, `BroadcastToUser` for one
user or `BroadcastToMatch` for one topic), one message after the other,
stopping at the first panic. -/
def broadcastToRun (marshal : Message → Option Frame) (t : Target) :
    List Message → Hub → Result
  | [], h => .ok h
  | m :: ms, h =>
    match broadcastTo marshal h t m with
    | .ok h1 => broadcastToRun marshal t ms h1
    | .error e => .error e

/-! ## Sample data -/

/-- A marshaller for the examples: the frame is the payload. -/
def sampleMarshal (m : Message) : Option Frame := some m.payload

/-- An identified client (user 7). -/
def clientA : Client := { addr := 1, userID := 7 }

/-- An anonymous client. -/
def clientB : Client := { addr := 2, userID := 0 }

/-- A sample message. -/
def msg1 : Message := { type := "match_started", payload := [1] }

/-- Client A registered. -/
def hubA : Hub := registerClient NewHub clientA

/-- Client A registered and subscribed to match 42 once. -/
def hubOnce : Hub := SubscribeToMatch hubA clientA 42

/-- Client A registered and subscribed to match 42 twice. -/
def hubTwice : Hub := SubscribeToMatch hubOnce clientA 42

/-- Client A registered, then unregistered. -/
def hubGone : Hub := hubOf (unregisterClient hubA clientA)

/-- Client A registered, subscribed to match 42 twice, then unregistered. -/
def hubStale : Hub := hubOf (unregisterClient hubTwice clientA)

/-- Client A registered, then unregistered, then subscribed to match 42 (its
inbound pump handles a `subscribe_match` frame after the eviction). -/
def hubLate : Hub := SubscribeToMatch hubGone clientA 42

/-- Clients A (user 7) and B (anonymous) registered. -/
def hubAB : Hub := registerClient hubA clientB

/-- The hub `hubAB` after 256 frames were queued for client A and none drained:
the mailbox of A is full. -/
def hubABFull : Hub :=
  { hubAB with
    send := Function.update hubAB.send clientA
      { buf := List.replicate mailboxCapacity [0], cap := mailboxCapacity, closed := false } }

/-- Client A registered, unregistered, and registered again. -/
def hubBack : Hub := registerClient hubGone clientA

/-- Client A registered twice, then unregistered. -/
def hubDouble : Hub := hubOf (unregisterClient (registerClient hubA clientA) clientA)

/-- A sample sequence of calls: register A, register B, unregister A. -/
def sampleCalls : List RegCall :=
  [RegCall.register clientA, RegCall.register clientB, RegCall.unregister clientA]

/-- The bytes of the payload `{"topicId":5}`. -/
def payloadTopic5 : List Nat := [123, 34, 116, 111, 112, 105, 99, 73, 100, 34, 58, 53, 125]

/-- The bytes of the payload `{"matchId":5}`. -/
def payloadMatch5 : List Nat := [123, 34, 109, 97, 116, 99, 104, 73, 100, 34, 58, 53, 125]

/-- The bytes of the envelope `{"type":"subscribe_topic","payload":{"topicId":5}}`. -/
def frameTopic5 : Frame :=
  [123, 34, 116, 121, 112, 101, 34, 58, 34, 115, 117, 98, 115, 99, 114, 105, 98, 101, 95, 116,
   111, 112, 105, 99, 34, 44, 34, 112, 97, 121, 108, 111, 97, 100, 34, 58, 123, 34, 116, 111,
   112, 105, 99, 73, 100, 34, 58, 53, 125, 125]

/-- The bytes of the envelope `{"type":"subscribe_match","payload":{"matchId":5}}`. -/
def frameMatch5 : Frame :=
  [123, 34, 116, 121, 112, 101, 34, 58, 34, 115, 117, 98, 115, 99, 114, 105, 98, 101, 95, 109,
   97, 116, 99, 104, 34, 44, 34, 112, 97, 121, 108, 111, 97, 100, 34, 58, 123, 34, 109, 97,
   116, 99, 104, 73, 100, 34, 58, 53, 125, 125]

/-- The bytes of `not json`, a frame that is not JSON. -/
def frameGarbage : Frame := [110, 111, 116, 32, 106, 115, 111, 110]

/-- A decoder for the examples, given by what `json.Unmarshal` returns on the
sample frames and payloads: the key `topicId` is unknown to the payload struct,
so its field `MatchID` stays 0. -/
def sampleDecoder : Decoder :=
  { trimSpace := fun f => f
    unmarshalMessage := fun f =>
      if f = frameTopic5 then some { type := "subscribe_topic", payload := payloadTopic5 }
      else if f = frameMatch5 then some { type := "subscribe_match", payload := payloadMatch5 }
      else none
    unmarshalMatchID := fun p =>
      if p = payloadMatch5 then some 5
      else if p = payloadTopic5 then some 0
      else none }

/-- A match that white has won. -/
def matchWon : Match :=
  { ID := 42, WhiteID := 7, BlackID := 8, Moves := "e4 e5", FEN := "", Status := "white_won" }

/-- A marshaller of matches for the examples. -/
def sampleMarshalMatch (m : Match) : List Nat := [m.ID.toNat]

/-- A marshaller of messages for the examples that keeps the type apart: the
frame is the length of the type followed by the payload. -/
def sampleMarshalTyped (m : Message) : Option Frame := some (m.type.length :: m.payload)

/-- A mailbox that holds three frames. -/
def mailbox3 : Chan := { buf := [[1, 2], [3], [4, 5]], cap := mailboxCapacity, closed := false }

/-- A second identified client (user 8). -/
def clientC : Client := { addr := 3, userID := 8 }

/-- Clients A (user 7), B (anonymous) and C (user 8) registered, and B
subscribed to match 42. -/
def hubABC : Hub := SubscribeToMatch (registerClient hubAB clientC) clientB 42

/-- A fresh match between users 7 (white) and 8 (black), as `CreateMatch` stores it. -/
def matchFresh : Match :=
  { ID := 42, WhiteID := 7, BlackID := 8, Moves := "", FEN := InitialFenPosition,
    Status := MatchStatusPending }

/-- The match of users 7 and 8 in progress, with the moves given. -/
def matchRunning (moves : String) : Match :=
  { ID := 42, WhiteID := 7, BlackID := 8, Moves := moves, FEN := InitialFenPosition,
    Status := MatchStatusInProgress }

/-- A table with one row, stored under id 42. -/
def tableOf (m : Match) : MatchTable := fun id => if id = 42 then some m else none

/-- The claims of user 9, who plays in no match. -/
def claimsOther : Claims := { UserID := 9, Username := "eve", Roles := ["user"] }

/-! ## The dispatch loop -/

theorem dispatch_cons_closed (data : Frame) (c : Client) (rest : List Client) (h : Hub)
    (hc : (h.send c).closed = true) :
    dispatch data (c :: rest) h = .error (.sendOnClosedChannel, h) := by
  simp [dispatch, trySend, hc]

theorem dispatch_cons_room (data : Frame) (c : Client) (rest : List Client) (h : Hub)
    (hc : (h.send c).closed = false) (hr : (h.send c).buf.length < (h.send c).cap) :
    dispatch data (c :: rest) h =
      dispatch data rest
        { h with send := Function.update h.send c
                   { h.send c with buf := (h.send c).buf ++ [data] } } := by
  simp [dispatch, trySend, hc, hr]

theorem dispatch_cons_full (data : Frame) (c : Client) (rest : List Client) (h : Hub)
    (hc : (h.send c).closed = false) (hr : (h.send c).cap ≤ (h.send c).buf.length) :
    dispatch data (c :: rest) h =
      dispatch data rest { h with unregister := h.unregister ++ [c] } := by
  simp [dispatch, trySend, hc, Nat.not_lt.mpr hr]

/-- The three ways one iteration of the loop can go. -/
theorem dispatch_cons_cases (data : Frame) (c : Client) (rest : List Client) (h : Hub) :
    ((h.send c).closed = true ∧
        dispatch data (c :: rest) h = .error (.sendOnClosedChannel, h)) ∨
    ((h.send c).closed = false ∧ (h.send c).buf.length < (h.send c).cap ∧
        dispatch data (c :: rest) h =
          dispatch data rest
            { h with send := Function.update h.send c
                       { h.send c with buf := (h.send c).buf ++ [data] } }) ∨
    ((h.send c).closed = false ∧ (h.send c).cap ≤ (h.send c).buf.length ∧
        dispatch data (c :: rest) h =
          dispatch data rest { h with unregister := h.unregister ++ [c] }) := by
  cases hc : (h.send c).closed
  · right
    rcases Nat.lt_or_ge (h.send c).buf.length (h.send c).cap with hr | hr
    · exact Or.inl ⟨rfl, hr, dispatch_cons_room data c rest h hc hr⟩
    · exact Or.inr ⟨rfl, hr, dispatch_cons_full data c rest h hc hr⟩
  · exact Or.inl ⟨rfl, dispatch_cons_closed data c rest h hc⟩

/-- Dispatch never touches the registry, and never opens, closes or resizes a
mailbox, whether it returns or panics. -/
theorem dispatch_frame (data : Frame) (l : List Client) (h : Hub) :
    (hubOf (dispatch data l h)).clients = h.clients ∧
    (hubOf (dispatch data l h)).userClients = h.userClients ∧
    (hubOf (dispatch data l h)).matchSubscriptions = h.matchSubscriptions ∧
    ∀ c, ((hubOf (dispatch data l h)).send c).closed = (h.send c).closed ∧
         ((hubOf (dispatch data l h)).send c).cap = (h.send c).cap := by
  induction l generalizing h with
  | nil => simp [dispatch, hubOf]
  | cons x rest ih =>
    rcases dispatch_cons_cases data x rest h with ⟨_, he⟩ | ⟨_, _, he⟩ | ⟨_, _, he⟩
    · rw [he]; simp [hubOf]
    · rw [he]
      obtain ⟨h1, h2, h3, h4⟩ := ih
        { h with send := Function.update h.send x
                   { h.send x with buf := (h.send x).buf ++ [data] } }
      refine ⟨h1, h2, h3, fun c => ?_⟩
      rw [(h4 c).1, (h4 c).2]
      by_cases hcx : c = x
      · subst hcx; simp
      · simp [Function.update_noteq hcx]
    · rw [he]
      obtain ⟨h1, h2, h3, h4⟩ := ih { h with unregister := h.unregister ++ [x] }
      exact ⟨h1, h2, h3, h4⟩

/-- Dispatch returns when every target has an open mailbox. -/
theorem dispatch_ok (data : Frame) (l : List Client) (h : Hub)
    (hopen : ∀ c ∈ l, (h.send c).closed = false) :
    ∃ h1, dispatch data l h = .ok h1 := by
  induction l generalizing h with
  | nil => exact ⟨h, rfl⟩
  | cons x rest ih =>
    rcases dispatch_cons_cases data x rest h with ⟨hc, _⟩ | ⟨_, _, he⟩ | ⟨_, _, he⟩
    · rw [hopen x (List.mem_cons_self x rest)] at hc; cases hc
    · rw [he]
      apply ih
      intro c hc
      have := hopen c (List.mem_cons_of_mem x hc)
      by_cases hcx : c = x
      · subst hcx; simpa using this
      · simpa [Function.update_noteq hcx] using this
    · rw [he]
      apply ih
      intro c hc
      exact hopen c (List.mem_cons_of_mem x hc)

/-- Dispatch panics when some target has a closed mailbox, and the panic is
the send on a closed channel. -/
theorem dispatch_error (data : Frame) (l : List Client) (h : Hub) (c : Client)
    (hc : c ∈ l) (hclosed : (h.send c).closed = true) :
    ∃ h1, dispatch data l h = .error (.sendOnClosedChannel, h1) := by
  induction l generalizing h with
  | nil => cases hc
  | cons x rest ih =>
    rcases dispatch_cons_cases data x rest h with ⟨_, he⟩ | ⟨hx, _, he⟩ | ⟨hx, _, he⟩
    · exact ⟨h, he⟩
    · rw [he]
      have hcx : c ≠ x := by
        rintro rfl; rw [hx] at hclosed; cases hclosed
      have hc1 : c ∈ rest := by
        rcases List.mem_cons.mp hc with h0 | h0
        · exact absurd h0 hcx
        · exact h0
      apply ih _ hc1
      simpa [Function.update_noteq hcx] using hclosed
    · rw [he]
      have hcx : c ≠ x := by
        rintro rfl; rw [hx] at hclosed; cases hclosed
      have hc1 : c ∈ rest := by
        rcases List.mem_cons.mp hc with h0 | h0
        · exact absurd h0 hcx
        · exact h0
      exact ih _ hc1 hclosed

/-- What a dispatch that returns has done: every client got as many copies of
the frame, at the tail of its mailbox, as it has entries among the targets,
up to the room its mailbox had; every entry beyond that room started one
eviction. -/
theorem dispatch_spec (data : Frame) (l : List Client) (h h1 : Hub)
    (hd : dispatch data l h = .ok h1) :
    (∀ c, (h1.send c).buf =
        (h.send c).buf ++
          List.replicate (min (l.count c) ((h.send c).cap - (h.send c).buf.length)) data) ∧
    ∃ ev, h1.unregister = h.unregister ++ ev ∧
      ∀ c, ev.count c = l.count c - ((h.send c).cap - (h.send c).buf.length) := by
  induction l generalizing h with
  | nil =>
    simp only [dispatch, Except.ok.injEq] at hd
    subst hd
    exact ⟨fun c => by simp, [], by simp, fun c => by simp⟩
  | cons x rest ih =>
    rcases dispatch_cons_cases data x rest h with ⟨_, he⟩ | ⟨_, hr, he⟩ | ⟨_, hr, he⟩
    · rw [he] at hd; cases hd
    · rw [he] at hd
      obtain ⟨hb, ev, hev, hcount⟩ := ih _ hd
      refine ⟨fun c => ?_, ev, hev, fun c => ?_⟩
      · rw [hb c]
        by_cases hcx : c = x
        · subst hcx
          simp only [Function.update_same, List.length_append, List.length_singleton,
            List.count_cons_self, List.append_assoc]
          congr 1
          have : min (List.count c rest + 1) ((h.send c).cap - (h.send c).buf.length)
              = min (List.count c rest) ((h.send c).cap - ((h.send c).buf.length + 1)) + 1 := by
            omega
          rw [this, List.replicate_succ]
          simp
        · simp [Function.update_noteq hcx, List.count_cons_of_ne hcx]
      · rw [hcount c]
        by_cases hcx : c = x
        · subst hcx
          simp only [Function.update_same, List.length_append, List.length_singleton,
            List.count_cons_self]
          omega
        · simp [Function.update_noteq hcx, List.count_cons_of_ne hcx]
    · rw [he] at hd
      obtain ⟨hb, ev, hev, hcount⟩ := ih _ hd
      refine ⟨fun c => ?_, x :: ev, ?_, fun c => ?_⟩
      · rw [hb c]
        by_cases hcx : c = x
        · subst hcx
          simp only [List.count_cons_self]
          congr 2
          omega
        · simp [List.count_cons_of_ne hcx]
      · rw [hev]; exact List.append_assoc h.unregister [x] ev
      · by_cases hcx : c = x
        · subst hcx
          simp only [List.count_cons_self, hcount c]
          omega
        · simp only [List.count_cons_of_ne hcx, hcount c]

/-! ## The registry operations -/

theorem removeClient_eq_erase (c : Client) (l : List Client) :
    removeClient c l = l.erase c := by
  induction l with
  | nil => rfl
  | cons x rest ih =>
    by_cases hx : x = c
    · simp [removeClient, hx]
    · simp [removeClient, hx, List.erase_cons, ih]

theorem unsubscribeEntry_eq (c : Client) (l : List Client) :
    unsubscribeEntry c l = if l.erase c = [] then none else some (l.erase c) := by
  have key : (if c ∈ l then removeClient c l else l) = l.erase c := by
    by_cases hc : c ∈ l
    · rw [if_pos hc, removeClient_eq_erase]
    · rw [if_neg hc, List.erase_of_not_mem hc]
  unfold unsubscribeEntry
  simp only [key, List.length_eq_zero]

/-- The identity-index part of `unregisterClient`, key by key. -/
theorem unregister_userClients (uc : ClientMap) (c : Client) (k k1 : Int) :
    (if (mapGet (if c ∈ mapGet uc k then mapSet uc k (removeClient c (mapGet uc k)) else uc)
          k).length = 0
      then mapDelete (if c ∈ mapGet uc k then mapSet uc k (removeClient c (mapGet uc k)) else uc) k
      else (if c ∈ mapGet uc k then mapSet uc k (removeClient c (mapGet uc k)) else uc)) k1 =
    if k1 = k then
      (if (mapGet uc k).erase c = [] then none else some ((mapGet uc k).erase c))
    else uc k1 := by
  by_cases hm : c ∈ mapGet uc k
  · simp only [if_pos hm, removeClient_eq_erase, List.length_eq_zero]
    have hg : mapGet (mapSet uc k ((mapGet uc k).erase c)) k = (mapGet uc k).erase c := by
      simp [mapGet, mapSet]
    rw [hg]
    by_cases he : (mapGet uc k).erase c = []
    · rw [if_pos he, if_pos he]
      by_cases hk : k1 = k
      · subst hk; simp [mapDelete]
      · simp [mapDelete, mapSet, Function.update_noteq hk, hk]
    · rw [if_neg he, if_neg he]
      by_cases hk : k1 = k
      · subst hk; simp [mapSet]
      · simp [mapSet, Function.update_noteq hk, hk]
  · simp only [if_neg hm, List.erase_of_not_mem hm, List.length_eq_zero]
    by_cases he : mapGet uc k = []
    · rw [if_pos he, if_pos he]
      by_cases hk : k1 = k
      · subst hk; simp [mapDelete]
      · simp [mapDelete, Function.update_noteq hk, hk]
    · rw [if_neg he, if_neg he]
      by_cases hk : k1 = k
      · subst hk
        rw [if_pos rfl]
        cases hv : uc k1 with
        | none => exact absurd (by simp [mapGet, hv]) he
        | some l => simp [mapGet, hv]
      · rw [if_neg hk]

theorem unregisterClient_of_not_mem (h : Hub) (c : Client) (hc : c ∉ h.clients) :
    unregisterClient h c = .ok h := by
  simp [unregisterClient, hc]

theorem unregisterClient_of_mem_closed (h : Hub) (c : Client) (hc : c ∈ h.clients)
    (hcl : (h.send c).closed = true) :
    unregisterClient h c =
      .error (.closeOfClosedChannel,
        { h with clients := h.clients.filter (fun x => x != c) }) := by
  simp [unregisterClient, hc, hcl]

/-- What `unregisterClient` does to a registered client with an open mailbox. -/
theorem unregisterClient_of_mem_open (h : Hub) (c : Client) (hc : c ∈ h.clients)
    (ho : (h.send c).closed = false) :
    ∃ h1, unregisterClient h c = .ok h1 ∧
      h1.clients = h.clients.filter (fun x => x != c) ∧
      h1.send = Function.update h.send c { h.send c with closed := true } ∧
      h1.unregister = h.unregister ∧
      (∀ k, h1.userClients k =
        if 0 < c.userID ∧ k = c.userID then
          (if (mapGet h.userClients c.userID).erase c = [] then none
           else some ((mapGet h.userClients c.userID).erase c))
        else h.userClients k) ∧
      (∀ k, h1.matchSubscriptions k =
        (h.matchSubscriptions k).bind
          (fun l => if l.erase c = [] then none else some (l.erase c))) := by
  refine ⟨_, by simp only [unregisterClient, hc, ho, if_true]; rfl, ?_, ?_, ?_, ?_, ?_⟩
  · split_ifs <;> rfl
  · split_ifs <;> rfl
  · split_ifs <;> rfl
  · intro k
    by_cases hu : 0 < c.userID
    · simp only [gt_iff_lt, hu, if_true, true_and]
      exact unregister_userClients h.userClients c c.userID k
    · simp [hu]
  · intro k
    have hms : ∀ (h3 : Hub), h3.matchSubscriptions = h.matchSubscriptions →
        (match h3.matchSubscriptions k with
          | none => none
          | some clients => unsubscribeEntry c clients) =
        (h.matchSubscriptions k).bind
          (fun l => if l.erase c = [] then none else some (l.erase c)) := by
      intro h3 e
      rw [e]
      cases h.matchSubscriptions k with
      | none => rfl
      | some l => simp [unsubscribeEntry_eq]
    split_ifs <;> exact hms _ rfl

theorem registerClient_clients (h : Hub) (c : Client) :
    (registerClient h c).clients = if c ∈ h.clients then h.clients else h.clients ++ [c] := by
  unfold registerClient
  by_cases hu : c.userID > 0 <;> simp [hu]

theorem registerClient_userClients (h : Hub) (c : Client) :
    (registerClient h c).userClients =
      if 0 < c.userID then
        mapSet h.userClients c.userID (mapGet h.userClients c.userID ++ [c])
      else h.userClients := by
  unfold registerClient
  by_cases hu : c.userID > 0 <;> simp [hu]

theorem registerClient_rest (h : Hub) (c : Client) :
    (registerClient h c).matchSubscriptions = h.matchSubscriptions ∧
    (registerClient h c).send = h.send ∧
    (registerClient h c).unregister = h.unregister := by
  unfold registerClient
  by_cases hu : c.userID > 0 <;> simp [hu]

/-! ## The invariant of the reachable hubs -/

theorem inv_NewHub : Inv [] NewHub where
  clients_nodup := List.nodup_nil
  clients_created := by intro c hc; cases hc
  clients_open := by intro c hc; cases hc
  fresh_open := by intro c _; rfl
  gone_closed := by intro c hc; cases hc
  cap_eq := by intro c; rfl
  user_nodup := by intro k l hl; cases hl
  user_mem := by intro k l hl; cases hl
  user_complete := by intro c hc; cases hc
  user_nonempty := by intro k l hl; cases hl
  user_pos := by intro k l hl; cases hl
  match_nonempty := by intro k l hl; cases hl

theorem inv_register {cs : List Client} {h : Hub} (c : Client) (hi : Inv cs h) (hc : c ∉ cs) :
    Inv (c :: cs) (registerClient h c) := by
  have hnc : c ∉ h.clients := fun hm => hc (hi.clients_created c hm)
  have hcl : (registerClient h c).clients = h.clients ++ [c] := by
    rw [registerClient_clients, if_neg hnc]
  obtain ⟨hms, hsend, _⟩ := registerClient_rest h c
  have huc := registerClient_userClients h c
  have hnl : ∀ k l, h.userClients k = some l → c ∉ l := fun k l hl hm =>
    hnc (hi.user_mem k l hl c hm).1
  have hng : c ∉ mapGet h.userClients c.userID := by
    unfold mapGet
    cases hv : h.userClients c.userID with
    | none => simp
    | some l => simpa using hnl _ l hv
  have hgn : (mapGet h.userClients c.userID).Nodup := by
    unfold mapGet
    cases hv : h.userClients c.userID with
    | none => simp
    | some l => simpa using hi.user_nodup _ l hv
  have hgm : ∀ d ∈ mapGet h.userClients c.userID, d ∈ h.clients ∧ d.userID = c.userID := by
    unfold mapGet
    cases hv : h.userClients c.userID with
    | none => simp
    | some l => simpa using hi.user_mem _ l hv
  constructor
  · rw [hcl]
    exact List.nodup_append.mpr ⟨hi.clients_nodup, List.nodup_singleton c, by
      intro x hx hx1
      rw [List.mem_singleton] at hx1
      exact hnc (hx1 ▸ hx)⟩
  · intro d hd
    rw [hcl, List.mem_append, List.mem_singleton] at hd
    rcases hd with hd | hd
    · exact List.mem_cons_of_mem _ (hi.clients_created d hd)
    · exact hd ▸ List.mem_cons_self _ _
  · intro d hd
    rw [hcl, List.mem_append, List.mem_singleton] at hd
    rw [hsend]
    rcases hd with hd | hd
    · exact hi.clients_open d hd
    · exact hd ▸ hi.fresh_open c hc
  · intro d hd
    rw [hsend]
    exact hi.fresh_open d (fun hm => hd (List.mem_cons_of_mem _ hm))
  · intro d hd hdn
    rw [hcl, List.mem_append, List.mem_singleton] at hdn
    rw [hsend]
    rcases List.mem_cons.mp hd with hd | hd
    · exact absurd (Or.inr hd) hdn
    · exact hi.gone_closed d hd (fun hm => hdn (Or.inl hm))
  · intro d
    rw [hsend]
    exact hi.cap_eq d
  · intro k l hl
    rw [huc] at hl
    by_cases hu : 0 < c.userID
    · rw [if_pos hu] at hl
      by_cases hk : k = c.userID
      · subst hk
        simp only [mapSet, Function.update_same, Option.some.injEq] at hl
        subst hl
        exact List.nodup_append.mpr ⟨hgn, List.nodup_singleton c, by
          intro x hx hx1
          rw [List.mem_singleton] at hx1
          exact hng (hx1 ▸ hx)⟩
      · simp only [mapSet, Function.update_noteq hk] at hl
        exact hi.user_nodup k l hl
    · rw [if_neg hu] at hl
      exact hi.user_nodup k l hl
  · intro k l hl d hd
    rw [huc] at hl
    rw [hcl, List.mem_append, List.mem_singleton]
    by_cases hu : 0 < c.userID
    · rw [if_pos hu] at hl
      by_cases hk : k = c.userID
      · subst hk
        simp only [mapSet, Function.update_same, Option.some.injEq] at hl
        subst hl
        rw [List.mem_append, List.mem_singleton] at hd
        rcases hd with hd | hd
        · exact ⟨Or.inl (hgm d hd).1, (hgm d hd).2⟩
        · exact ⟨Or.inr hd, by rw [hd]⟩
      · simp only [mapSet, Function.update_noteq hk] at hl
        exact ⟨Or.inl (hi.user_mem k l hl d hd).1, (hi.user_mem k l hl d hd).2⟩
    · rw [if_neg hu] at hl
      exact ⟨Or.inl (hi.user_mem k l hl d hd).1, (hi.user_mem k l hl d hd).2⟩
  · intro d hd hdu
    rw [hcl, List.mem_append, List.mem_singleton] at hd
    rw [huc]
    by_cases hu : 0 < c.userID
    · rw [if_pos hu]
      by_cases hk : d.userID = c.userID
      · rw [hk]
        simp only [mapGet, mapSet, Function.update_same, Option.getD_some, List.mem_append,
          List.mem_singleton]
        rcases hd with hd | hd
        · left
          have := hi.user_complete d hd hdu
          rw [hk] at this
          exact this
        · exact Or.inr hd
      · rcases hd with hd | hd
        · have := hi.user_complete d hd hdu
          simpa [mapGet, mapSet, Function.update_noteq hk] using this
        · exact absurd (by rw [hd]) hk
    · rw [if_neg hu]
      rcases hd with hd | hd
      · exact hi.user_complete d hd hdu
      · exact absurd (hd ▸ hdu) hu
  · intro k l hl
    rw [huc] at hl
    by_cases hu : 0 < c.userID
    · rw [if_pos hu] at hl
      by_cases hk : k = c.userID
      · subst hk
        simp only [mapSet, Function.update_same, Option.some.injEq] at hl
        subst hl
        simp
      · simp only [mapSet, Function.update_noteq hk] at hl
        exact hi.user_nonempty k l hl
    · rw [if_neg hu] at hl
      exact hi.user_nonempty k l hl
  · intro k l hl
    rw [huc] at hl
    by_cases hu : 0 < c.userID
    · rw [if_pos hu] at hl
      by_cases hk : k = c.userID
      · rw [hk]; exact hu
      · simp only [mapSet, Function.update_noteq hk] at hl
        exact hi.user_pos k l hl
    · rw [if_neg hu] at hl
      exact hi.user_pos k l hl
  · intro k l hl
    rw [hms] at hl
    exact hi.match_nonempty k l hl

theorem inv_subscribe {cs : List Client} {h : Hub} (c : Client) (matchID : Int)
    (hi : Inv cs h) : Inv cs (SubscribeToMatch h c matchID) where
  clients_nodup := hi.clients_nodup
  clients_created := hi.clients_created
  clients_open := hi.clients_open
  fresh_open := hi.fresh_open
  gone_closed := hi.gone_closed
  cap_eq := hi.cap_eq
  user_nodup := hi.user_nodup
  user_mem := hi.user_mem
  user_complete := hi.user_complete
  user_nonempty := hi.user_nonempty
  user_pos := hi.user_pos
  match_nonempty := by
    intro k l hl
    by_cases hk : k = matchID
    · subst hk
      simp only [SubscribeToMatch, mapSet, Function.update_same, Option.some.injEq] at hl
      subst hl
      simp
    · simp only [SubscribeToMatch, mapSet, Function.update_noteq hk] at hl
      exact hi.match_nonempty k l hl

/-- A step that leaves the registry alone and neither closes, reopens nor
resizes a mailbox keeps the invariant. -/
theorem inv_of_frame {cs : List Client} {h h1 : Hub} (hi : Inv cs h)
    (e1 : h1.clients = h.clients) (e2 : h1.userClients = h.userClients)
    (e3 : h1.matchSubscriptions = h.matchSubscriptions)
    (e4 : ∀ c, (h1.send c).closed = (h.send c).closed ∧ (h1.send c).cap = (h.send c).cap) :
    Inv cs h1 where
  clients_nodup := e1 ▸ hi.clients_nodup
  clients_created := by rw [e1]; exact hi.clients_created
  clients_open := by
    intro c hc
    rw [e1] at hc
    rw [(e4 c).1]
    exact hi.clients_open c hc
  fresh_open := by
    intro c hc
    rw [(e4 c).1]
    exact hi.fresh_open c hc
  gone_closed := by
    intro c hc hn
    rw [e1] at hn
    rw [(e4 c).1]
    exact hi.gone_closed c hc hn
  cap_eq := by
    intro c
    rw [(e4 c).2]
    exact hi.cap_eq c
  user_nodup := by rw [e2]; exact hi.user_nodup
  user_mem := by rw [e1, e2]; exact hi.user_mem
  user_complete := by rw [e1, e2]; exact hi.user_complete
  user_nonempty := by rw [e2]; exact hi.user_nonempty
  user_pos := by rw [e2]; exact hi.user_pos
  match_nonempty := by rw [e3]; exact hi.match_nonempty

theorem inv_unregister {cs : List Client} {h h1 : Hub} (c : Client) (hi : Inv cs h)
    (hu : unregisterClient h c = .ok h1) : Inv cs h1 := by
  by_cases hc : c ∈ h.clients
  · obtain ⟨h2, he, hcl, hsend, _, huc, hms⟩ :=
      unregisterClient_of_mem_open h c hc (hi.clients_open c hc)
    rw [he] at hu
    have e21 : h2 = h1 := by simpa using hu
    rw [← e21]
    have hmem : ∀ d, d ∈ h2.clients ↔ d ∈ h.clients ∧ d ≠ c := by
      intro d
      rw [hcl, List.mem_filter]
      simp
    have hsd : ∀ d, d ≠ c → h2.send d = h.send d := by
      intro d hd
      rw [hsend, Function.update_noteq hd]
    have hsc : (h2.send c).closed = true := by
      rw [hsend, Function.update_same]
    have hcap : ∀ d, (h2.send d).cap = (h.send d).cap := by
      intro d
      by_cases hd : d = c
      · subst hd; rw [hsend, Function.update_same]
      · rw [hsd d hd]
    have hgn : (mapGet h.userClients c.userID).Nodup := by
      unfold mapGet
      cases hv : h.userClients c.userID with
      | none => simp
      | some l => simpa using hi.user_nodup _ l hv
    have hgm : ∀ d ∈ mapGet h.userClients c.userID, d ∈ h.clients ∧ d.userID = c.userID := by
      unfold mapGet
      cases hv : h.userClients c.userID with
      | none => simp
      | some l => simpa using hi.user_mem _ l hv
    constructor
    · rw [hcl]
      exact hi.clients_nodup.filter _
    · intro d hd
      exact hi.clients_created d ((hmem d).mp hd).1
    · intro d hd
      obtain ⟨hd1, hd2⟩ := (hmem d).mp hd
      rw [hsd d hd2]
      exact hi.clients_open d hd1
    · intro d hd
      have hdc : d ≠ c := fun e => hd (e ▸ hi.clients_created c hc)
      rw [hsd d hdc]
      exact hi.fresh_open d hd
    · intro d hd hdn
      by_cases hdc : d = c
      · rw [hdc]; exact hsc
      · rw [hsd d hdc]
        exact hi.gone_closed d hd (fun hm => hdn ((hmem d).mpr ⟨hm, hdc⟩))
    · intro d
      rw [hcap d]
      exact hi.cap_eq d
    · intro k l hl
      rw [huc k] at hl
      by_cases hk : 0 < c.userID ∧ k = c.userID
      · rw [if_pos hk] at hl
        by_cases he : (mapGet h.userClients c.userID).erase c = []
        · rw [if_pos he] at hl; cases hl
        · rw [if_neg he] at hl
          cases hl
          exact hgn.erase c
      · rw [if_neg hk] at hl
        exact hi.user_nodup k l hl
    · intro k l hl d hd
      rw [huc k] at hl
      rw [hmem d]
      by_cases hk : 0 < c.userID ∧ k = c.userID
      · rw [if_pos hk] at hl
        by_cases he : (mapGet h.userClients c.userID).erase c = []
        · rw [if_pos he] at hl; cases hl
        · rw [if_neg he] at hl
          cases hl
          obtain ⟨hdc, hdl⟩ := (hgn.mem_erase_iff).mp hd
          exact ⟨⟨(hgm d hdl).1, hdc⟩, by rw [(hgm d hdl).2, hk.2]⟩
      · rw [if_neg hk] at hl
        have hdm := hi.user_mem k l hl d hd
        refine ⟨⟨hdm.1, ?_⟩, hdm.2⟩
        intro hdc
        subst hdc
        have hpos : 0 < d.userID := by
          rw [hdm.2]; exact hi.user_pos k l hl
        exact hk ⟨hpos, hdm.2.symm⟩
    · intro d hd hdu
      obtain ⟨hd1, hd2⟩ := (hmem d).mp hd
      have hold := hi.user_complete d hd1 hdu
      unfold mapGet
      rw [huc d.userID]
      by_cases hk : 0 < c.userID ∧ d.userID = c.userID
      · rw [if_pos hk]
        rw [hk.2] at hold
        have hin : d ∈ (mapGet h.userClients c.userID).erase c :=
          (List.mem_erase_of_ne hd2).mpr hold
        by_cases he : (mapGet h.userClients c.userID).erase c = []
        · rw [he] at hin; cases hin
        · rw [if_neg he]; simpa using hin
      · rw [if_neg hk]
        exact hold
    · intro k l hl
      rw [huc k] at hl
      by_cases hk : 0 < c.userID ∧ k = c.userID
      · rw [if_pos hk] at hl
        by_cases he : (mapGet h.userClients c.userID).erase c = []
        · rw [if_pos he] at hl; cases hl
        · rw [if_neg he] at hl
          cases hl
          exact he
      · rw [if_neg hk] at hl
        exact hi.user_nonempty k l hl
    · intro k l hl
      rw [huc k] at hl
      by_cases hk : 0 < c.userID ∧ k = c.userID
      · rw [hk.2]; exact hk.1
      · rw [if_neg hk] at hl
        exact hi.user_pos k l hl
    · intro k l hl
      rw [hms k] at hl
      cases hv : h.matchSubscriptions k with
      | none => rw [hv] at hl; cases hl
      | some l0 =>
        rw [hv] at hl
        simp only [Option.some_bind] at hl
        by_cases he : l0.erase c = []
        · rw [if_pos he] at hl; cases hl
        · rw [if_neg he] at hl
          cases hl
          exact he
  · rw [unregisterClient_of_not_mem h c hc] at hu
    cases hu
    exact hi

theorem broadcastTo_eq (marshal : Message → Option Frame) (h : Hub) (t : Target)
    (m : Message) :
    broadcastTo marshal h t m =
      match marshal m with
      | none => .ok h
      | some data => dispatch data (targets h t) h := by
  cases t <;> rfl

/-- No broadcast touches the registry or opens, closes or resizes a mailbox. -/
theorem broadcastTo_frame (marshal : Message → Option Frame) (h : Hub) (t : Target)
    (m : Message) :
    (hubOf (broadcastTo marshal h t m)).clients = h.clients ∧
    (hubOf (broadcastTo marshal h t m)).userClients = h.userClients ∧
    (hubOf (broadcastTo marshal h t m)).matchSubscriptions = h.matchSubscriptions ∧
    ∀ c, ((hubOf (broadcastTo marshal h t m)).send c).closed = (h.send c).closed ∧
         ((hubOf (broadcastTo marshal h t m)).send c).cap = (h.send c).cap := by
  rw [broadcastTo_eq]
  cases marshal m with
  | none => simp [hubOf]
  | some data => exact dispatch_frame data (targets h t) h

theorem inv_broadcastTo {cs : List Client} {h : Hub} (marshal : Message → Option Frame)
    (t : Target) (m : Message) (hi : Inv cs h) :
    Inv cs (hubOf (broadcastTo marshal h t m)) := by
  obtain ⟨e1, e2, e3, e4⟩ := broadcastTo_frame marshal h t m
  exact inv_of_frame hi e1 e2 e3 e4

theorem inv_recvFrame {cs : List Client} {h : Hub} (c : Client) (hi : Inv cs h) :
    Inv cs (recvFrame h c) := by
  refine inv_of_frame hi rfl rfl rfl (fun d => ?_)
  by_cases hd : d = c
  · subst hd; simp [recvFrame]
  · simp [recvFrame, Function.update_noteq hd]

/-- Every reachable hub satisfies the invariant. -/
theorem reach_inv {marshal : Message → Option Frame} {cs : List Client} {h : Hub}
    (hr : Reach marshal cs h) : Inv cs h := by
  induction hr with
  | init => exact inv_NewHub
  | register c _ hc ih => exact inv_register c ih hc
  | subscribe c matchID _ ih => exact inv_subscribe c matchID ih
  | unregister c _ hu ih => exact inv_unregister c ih hu
  | broadcast m _ hb ih =>
    have := inv_broadcastTo marshal Target.all m ih
    simp only [broadcastTo] at this
    rw [hb] at this
    exact this
  | toUser userID m _ ih => exact inv_broadcastTo marshal (Target.user userID) m ih
  | toMatch matchID m _ ih => exact inv_broadcastTo marshal (Target.topic matchID) m ih
  | recv c _ ih => exact inv_recvFrame c ih

theorem chan_ext (a b : Chan) (h1 : a.buf = b.buf) (h2 : a.cap = b.cap)
    (h3 : a.closed = b.closed) : a = b := by
  cases a; cases b; simp_all

theorem reach_hubA (marshal : Message → Option Frame) : Reach marshal [clientA] hubA :=
  Reach.register clientA Reach.init (by simp)

theorem reach_hubTwice (marshal : Message → Option Frame) : Reach marshal [clientA] hubTwice :=
  Reach.subscribe clientA 42 (Reach.subscribe clientA 42 (reach_hubA marshal))

theorem reach_hubStale (marshal : Message → Option Frame) : Reach marshal [clientA] hubStale :=
  Reach.unregister clientA (reach_hubTwice marshal) rfl

/-! ## Unregister and subscribe -/

/-- C1, evaluated at the failing input: client A registers, subscribes to match 42
twice and is unregistered.  The hub is reachable, the call returns, A has left
the global set and its mailbox is closed, yet A is still listed under topic 42. -/
theorem unregisterClient_leaves_second_subscription :
    Reachable sampleMarshal hubTwice ∧
    unregisterClient hubTwice clientA = .ok hubStale ∧
    clientA ∉ hubStale.clients ∧
    (hubStale.send clientA).closed = true ∧
    hubStale.matchSubscriptions 42 = some [clientA] :=
  ⟨⟨[clientA], reach_hubTwice sampleMarshal⟩, rfl, by decide, by decide, by decide⟩

/-- C2: `unregisterClient` is idempotent.  On a client that is not in the global
set it returns the hub unchanged (registry and mailboxes alike); running it
twice in a row is the same as running it once, panics included; and on a
registered client with an open mailbox the first call returns, closes the
mailbox and removes the client, so the second call is the no-op: the mailbox is
closed once. -/
theorem unregisterClient_idempotent (h : Hub) (c : Client) :
    (c ∉ h.clients → unregisterClient h c = .ok h) ∧
    (match unregisterClient h c with
      | .ok h1 => unregisterClient h1 c
      | .error e => .error e) = unregisterClient h c ∧
    (c ∈ h.clients → (h.send c).closed = false →
      ∃ h1, unregisterClient h c = .ok h1 ∧ c ∉ h1.clients ∧
        (h1.send c).closed = true ∧ unregisterClient h1 c = .ok h1) := by
  have hopen : c ∈ h.clients → (h.send c).closed = false →
      ∃ h1, unregisterClient h c = .ok h1 ∧ c ∉ h1.clients ∧
        (h1.send c).closed = true ∧ unregisterClient h1 c = .ok h1 := by
    intro hc ho
    obtain ⟨h1, he, hcl, hsend, _⟩ := unregisterClient_of_mem_open h c hc ho
    have hn : c ∉ h1.clients := by
      rw [hcl, List.mem_filter]
      simp
    refine ⟨h1, he, hn, ?_, unregisterClient_of_not_mem h1 c hn⟩
    rw [hsend, Function.update_same]
  refine ⟨unregisterClient_of_not_mem h c, ?_, hopen⟩
  by_cases hc : c ∈ h.clients
  · cases ho : (h.send c).closed
    · obtain ⟨h1, he, _, _, h2⟩ := hopen hc ho
      rw [he]
      exact h2
    · rw [unregisterClient_of_mem_closed h c hc ho]
  · rw [unregisterClient_of_not_mem h c hc]
    exact unregisterClient_of_not_mem h c hc

/-- C2 at a concrete hub: client A, registered with an open mailbox. -/
theorem unregisterClient_idempotent_witness :
    ∃ h1, unregisterClient hubA clientA = .ok h1 ∧ clientA ∉ h1.clients ∧
      (h1.send clientA).closed = true ∧ unregisterClient h1 clientA = .ok h1 :=
  (unregisterClient_idempotent hubA clientA).2.2 (by decide) (by decide)

/-- C3 fails on the code: client A is listed under topic 42, and subscribing it
to 42 again changes the topic index; A is then listed twice. -/
theorem SubscribeToMatch_again_changes_index :
    clientA ∈ mapGet hubOnce.matchSubscriptions 42 ∧
    hubOnce.matchSubscriptions 42 = some [clientA] ∧
    (SubscribeToMatch hubOnce clientA 42).matchSubscriptions 42 = some [clientA, clientA] ∧
    (SubscribeToMatch hubOnce clientA 42).matchSubscriptions ≠ hubOnce.matchSubscriptions ∧
    (mapGet (SubscribeToMatch hubOnce clientA 42).matchSubscriptions 42).count clientA = 2 := by
  refine ⟨by decide, by decide, by decide, ?_, by decide⟩
  intro e
  have e42 := congrFun e 42
  revert e42
  decide

/-- C3 as amended: `SubscribeToMatch` appends the client to the list of the
topic also when the client is already listed there, so the client has one more
entry than before (at least two); the lists of the other topics, the global
set, the identity index and every mailbox stay as they were. -/
theorem SubscribeToMatch_already_subscribed (h : Hub) (c : Client) (t : Int)
    (hc : c ∈ mapGet h.matchSubscriptions t) :
    (SubscribeToMatch h c t).matchSubscriptions t =
      some (mapGet h.matchSubscriptions t ++ [c]) ∧
    (mapGet (SubscribeToMatch h c t).matchSubscriptions t).count c =
      (mapGet h.matchSubscriptions t).count c + 1 ∧
    2 ≤ (mapGet (SubscribeToMatch h c t).matchSubscriptions t).count c ∧
    (∀ k, k ≠ t → (SubscribeToMatch h c t).matchSubscriptions k = h.matchSubscriptions k) ∧
    (SubscribeToMatch h c t).clients = h.clients ∧
    (SubscribeToMatch h c t).userClients = h.userClients ∧
    (SubscribeToMatch h c t).send = h.send := by
  have hval : (SubscribeToMatch h c t).matchSubscriptions t =
      some (mapGet h.matchSubscriptions t ++ [c]) := by
    simp [SubscribeToMatch, mapSet]
  have hcount : (mapGet (SubscribeToMatch h c t).matchSubscriptions t).count c =
      (mapGet h.matchSubscriptions t).count c + 1 := by
    have : mapGet (SubscribeToMatch h c t).matchSubscriptions t =
        mapGet h.matchSubscriptions t ++ [c] := by
      rw [mapGet, hval]; rfl
    rw [this, List.count_append]
    simp
  refine ⟨hval, hcount, ?_, ?_, rfl, rfl, rfl⟩
  · rw [hcount]
    have := List.count_pos_iff.mpr hc
    omega
  · intro k hk
    simp [SubscribeToMatch, mapSet, Function.update_noteq hk]

/-- C3 as amended, at client A already subscribed to topic 42. -/
theorem SubscribeToMatch_already_subscribed_witness :
    (SubscribeToMatch hubOnce clientA 42).matchSubscriptions 42 =
      some (mapGet hubOnce.matchSubscriptions 42 ++ [clientA]) ∧
    (mapGet (SubscribeToMatch hubOnce clientA 42).matchSubscriptions 42).count clientA =
      (mapGet hubOnce.matchSubscriptions 42).count clientA + 1 ∧
    2 ≤ (mapGet (SubscribeToMatch hubOnce clientA 42).matchSubscriptions 42).count clientA ∧
    (∀ k, k ≠ 42 →
      (SubscribeToMatch hubOnce clientA 42).matchSubscriptions k = hubOnce.matchSubscriptions k) ∧
    (SubscribeToMatch hubOnce clientA 42).clients = hubOnce.clients ∧
    (SubscribeToMatch hubOnce clientA 42).userClients = hubOnce.userClients ∧
    (SubscribeToMatch hubOnce clientA 42).send = hubOnce.send :=
  SubscribeToMatch_already_subscribed hubOnce clientA 42 (by decide)

/-- C4 fails on the code.  Client A was registered and then unregistered (evicted),
so in the reachable hub `hubGone` it is not in the global set and its mailbox
is closed.  `SubscribeToMatch(A, 42)` still creates the list of topic 42 with A
in it, so the topic index changes.  The entry cannot be cleared afterwards:
`unregisterClient(A)` returns the hub as it is, because A is not in the global
set; and a `BroadcastToMatch` to topic 42 sends on the closed mailbox of A and
panics. -/
theorem SubscribeToMatch_unregistered_changes_index :
    Reachable sampleMarshal hubGone ∧
    clientA ∉ hubGone.clients ∧
    (hubGone.send clientA).closed = true ∧
    hubGone.matchSubscriptions 42 = none ∧
    hubLate = SubscribeToMatch hubGone clientA 42 ∧
    hubLate.matchSubscriptions 42 = some [clientA] ∧
    hubLate.matchSubscriptions ≠ hubGone.matchSubscriptions ∧
    Reachable sampleMarshal hubLate ∧
    unregisterClient hubLate clientA = .ok hubLate ∧
    BroadcastToMatch sampleMarshal hubLate 42 msg1 =
      .error (Panic.sendOnClosedChannel, hubLate) := by
  have hg : Reach sampleMarshal [clientA] hubGone :=
    Reach.unregister clientA (reach_hubA sampleMarshal) rfl
  refine ⟨⟨[clientA], hg⟩, by decide, by decide, by decide, rfl, by decide, ?_,
    ⟨[clientA], Reach.subscribe clientA 42 hg⟩, rfl, rfl⟩
  intro e
  have e42 := congrFun e 42
  revert e42
  decide

/-- What `SubscribeToMatch` does on a client that is not in the global set: it
leaves the global set, the identity index and every mailbox as they are and
does not register the client, and it appends the client to the list of the
topic; the lists of the other topics are unchanged. -/
theorem SubscribeToMatch_unregistered (h : Hub) (c : Client) (t : Int)
    (hc : c ∉ h.clients) :
    (SubscribeToMatch h c t).clients = h.clients ∧
    (SubscribeToMatch h c t).userClients = h.userClients ∧
    (SubscribeToMatch h c t).send = h.send ∧
    c ∉ (SubscribeToMatch h c t).clients ∧
    (SubscribeToMatch h c t).matchSubscriptions t =
      some (mapGet h.matchSubscriptions t ++ [c]) ∧
    c ∈ mapGet (SubscribeToMatch h c t).matchSubscriptions t ∧
    (∀ k, k ≠ t → (SubscribeToMatch h c t).matchSubscriptions k = h.matchSubscriptions k) := by
  refine ⟨rfl, rfl, rfl, hc, ?_, ?_, ?_⟩
  · simp [SubscribeToMatch, mapSet]
  · simp [SubscribeToMatch, mapSet, mapGet]
  · intro k hk
    simp [SubscribeToMatch, mapSet, Function.update_noteq hk]

/-- The effect of `SubscribeToMatch` on client A after it was unregistered. -/
theorem SubscribeToMatch_unregistered_witness :
    (SubscribeToMatch hubGone clientA 42).clients = hubGone.clients ∧
    (SubscribeToMatch hubGone clientA 42).userClients = hubGone.userClients ∧
    (SubscribeToMatch hubGone clientA 42).send = hubGone.send ∧
    clientA ∉ (SubscribeToMatch hubGone clientA 42).clients ∧
    (SubscribeToMatch hubGone clientA 42).matchSubscriptions 42 =
      some (mapGet hubGone.matchSubscriptions 42 ++ [clientA]) ∧
    clientA ∈ mapGet (SubscribeToMatch hubGone clientA 42).matchSubscriptions 42 ∧
    (∀ k, k ≠ 42 →
      (SubscribeToMatch hubGone clientA 42).matchSubscriptions k = hubGone.matchSubscriptions k) :=
  SubscribeToMatch_unregistered hubGone clientA 42 (by decide)

/-! ## Broadcasts -/

/-- What a broadcast does when its message marshals and every target has an
open mailbox: it returns; the registry is untouched; every client gets, at the
tail of its mailbox, one copy of the frame per entry it has among the targets,
up to the room in its mailbox; every entry beyond that room starts an eviction. -/
theorem broadcastTo_spec (marshal : Message → Option Frame) (h : Hub) (t : Target)
    (m : Message) (data : Frame) (hm : marshal m = some data)
    (hopen : ∀ c ∈ targets h t, (h.send c).closed = false) :
    ∃ h1, broadcastTo marshal h t m = .ok h1 ∧
      h1.clients = h.clients ∧ h1.userClients = h.userClients ∧
      h1.matchSubscriptions = h.matchSubscriptions ∧
      (∀ c, (h1.send c).closed = (h.send c).closed ∧ (h1.send c).cap = (h.send c).cap) ∧
      (∀ c, (h1.send c).buf =
        (h.send c).buf ++
          List.replicate
            (min ((targets h t).count c) ((h.send c).cap - (h.send c).buf.length)) data) ∧
      ∃ ev, h1.unregister = h.unregister ++ ev ∧
        ∀ c, ev.count c = (targets h t).count c - ((h.send c).cap - (h.send c).buf.length) := by
  obtain ⟨h1, hd⟩ := dispatch_ok data (targets h t) h hopen
  have hb : broadcastTo marshal h t m = .ok h1 := by
    rw [broadcastTo_eq, hm]; exact hd
  have hf := broadcastTo_frame marshal h t m
  rw [hb] at hf
  obtain ⟨hbuf, hev⟩ := dispatch_spec data (targets h t) h h1 hd
  exact ⟨h1, hb, hf.1, hf.2.1, hf.2.2.1, hf.2.2.2, hbuf, hev⟩

/-- C5 fails on the code: the reachable hub in which client A is registered and
has subscribed to topic 42 twice has no full mailbox, and one `BroadcastToMatch`
to 42 queues two frames for A, not one. -/
theorem BroadcastToMatch_duplicate_delivery :
    Reachable sampleMarshal hubTwice ∧
    (∀ c, (hubTwice.send c).full = false) ∧
    clientA ∈ hubTwice.clients ∧
    clientA ∈ mapGet hubTwice.matchSubscriptions 42 ∧
    (hubTwice.send clientA).buf = [] ∧
    ∃ h1, BroadcastToMatch sampleMarshal hubTwice 42 msg1 = .ok h1 ∧
      (h1.send clientA).buf = [[1], [1]] :=
  ⟨⟨[clientA], reach_hubTwice sampleMarshal⟩, fun _ => rfl, by decide, by decide, by decide,
    _, rfl, by decide⟩

/-- C5 as amended: when the message marshals to `data` and every client listed
under topic `t` has an open mailbox with room for one frame per entry it has in
that list, `BroadcastToMatch` returns and appends to every mailbox one copy of
`data` per entry of its client in the list of `t`: exactly one frame for a
client listed once, nothing for a client that is not listed.  No eviction is
started and the registry is unchanged. -/
theorem BroadcastToMatch_delivers (marshal : Message → Option Frame) (h : Hub) (t : Int)
    (m : Message) (data : Frame) (hm : marshal m = some data)
    (hopen : ∀ c ∈ mapGet h.matchSubscriptions t, (h.send c).closed = false)
    (hroom : ∀ c ∈ mapGet h.matchSubscriptions t,
      (h.send c).buf.length + (mapGet h.matchSubscriptions t).count c ≤ (h.send c).cap) :
    ∃ h1, BroadcastToMatch marshal h t m = .ok h1 ∧
      (∀ c, (h1.send c).buf =
        (h.send c).buf ++ List.replicate ((mapGet h.matchSubscriptions t).count c) data) ∧
      (∀ c, (mapGet h.matchSubscriptions t).count c = 1 →
        (h1.send c).buf = (h.send c).buf ++ [data]) ∧
      (∀ c, c ∉ mapGet h.matchSubscriptions t → h1.send c = h.send c) ∧
      h1.unregister = h.unregister ∧
      h1.clients = h.clients ∧ h1.userClients = h.userClients ∧
      h1.matchSubscriptions = h.matchSubscriptions := by
  obtain ⟨h1, hb, e1, e2, e3, e4, hbuf, ev, hev, hcount⟩ :=
    broadcastTo_spec marshal h (Target.topic t) m data hm hopen
  simp only [targets] at hbuf hcount
  have hmin : ∀ c, min ((mapGet h.matchSubscriptions t).count c)
      ((h.send c).cap - (h.send c).buf.length) = (mapGet h.matchSubscriptions t).count c := by
    intro c
    by_cases hc : c ∈ mapGet h.matchSubscriptions t
    · have := hroom c hc
      omega
    · rw [List.count_eq_zero.mpr hc]; simp
  have hbuf1 : ∀ c, (h1.send c).buf =
      (h.send c).buf ++ List.replicate ((mapGet h.matchSubscriptions t).count c) data := by
    intro c
    rw [hbuf c, hmin c]
  have hevnil : ev = [] := by
    apply List.eq_nil_iff_forall_not_mem.mpr
    intro c hc
    have h0 : ev.count c = 0 := by
      rw [hcount c]
      by_cases hc1 : c ∈ mapGet h.matchSubscriptions t
      · have := hroom c hc1
        omega
      · rw [List.count_eq_zero.mpr hc1]; simp
    exact (List.count_eq_zero.mp h0) hc
  refine ⟨h1, hb, hbuf1, ?_, ?_, ?_, e1, e2, e3⟩
  · intro c hc
    rw [hbuf1 c, hc]
    rfl
  · intro c hc
    apply chan_ext _ _ _ (e4 c).2 (e4 c).1
    rw [hbuf1 c, List.count_eq_zero.mpr hc]
    simp
  · rw [hev, hevnil, List.append_nil]

/-- C5 as amended, at client A subscribed twice to topic 42: two frames. -/
theorem BroadcastToMatch_delivers_witness :
    ∃ h1, BroadcastToMatch sampleMarshal hubTwice 42 msg1 = .ok h1 ∧
      (∀ c, (h1.send c).buf =
        (hubTwice.send c).buf ++
          List.replicate ((mapGet hubTwice.matchSubscriptions 42).count c) [1]) ∧
      (∀ c, (mapGet hubTwice.matchSubscriptions 42).count c = 1 →
        (h1.send c).buf = (hubTwice.send c).buf ++ [[1]]) ∧
      (∀ c, c ∉ mapGet hubTwice.matchSubscriptions 42 → h1.send c = hubTwice.send c) ∧
      h1.unregister = hubTwice.unregister ∧
      h1.clients = hubTwice.clients ∧ h1.userClients = hubTwice.userClients ∧
      h1.matchSubscriptions = hubTwice.matchSubscriptions :=
  BroadcastToMatch_delivers sampleMarshal hubTwice 42 msg1 [1] rfl
    (by
      intro c hc
      have hcA : c = clientA := by
        have hl : mapGet hubTwice.matchSubscriptions 42 = [clientA, clientA] := by decide
        rw [hl] at hc
        simpa using hc
      subst hcA
      decide)
    (by
      intro c hc
      have hcA : c = clientA := by
        have hl : mapGet hubTwice.matchSubscriptions 42 = [clientA, clientA] := by decide
        rw [hl] at hc
        simpa using hc
      subst hcA
      decide)

/-- C6: in a reachable hub whose registered clients have no full mailbox, for an
identity `userID > 0` and a message that marshals to `data`, `BroadcastToUser`
returns and appends `data`, once, to the mailbox of every registered client
with that identity; the mailbox of a client with another identity, or with
none, and the mailbox of a client that is not registered, stay as they were. -/
theorem BroadcastToUser_delivers (marshal : Message → Option Frame) (h : Hub)
    (hr : Reachable marshal h) (hfull : ∀ c ∈ h.clients, (h.send c).full = false)
    (userID : Int) (hid : 0 < userID) (m : Message) (data : Frame)
    (hm : marshal m = some data) :
    ∃ h1, BroadcastToUser marshal h userID m = .ok h1 ∧
      (∀ c ∈ h.clients, c.userID = userID → (h1.send c).buf = (h.send c).buf ++ [data]) ∧
      (∀ c, c.userID ≠ userID → h1.send c = h.send c) ∧
      (∀ c, c ∉ h.clients → h1.send c = h.send c) := by
  obtain ⟨cs, hreach⟩ := hr
  have hi := reach_inv hreach
  have hmem : ∀ c ∈ mapGet h.userClients userID, c ∈ h.clients ∧ c.userID = userID := by
    unfold mapGet
    cases hv : h.userClients userID with
    | none => simp
    | some l => simpa using hi.user_mem _ l hv
  have hnd : (mapGet h.userClients userID).Nodup := by
    unfold mapGet
    cases hv : h.userClients userID with
    | none => simp
    | some l => simpa using hi.user_nodup _ l hv
  have hopen : ∀ c ∈ targets h (Target.user userID), (h.send c).closed = false :=
    fun c hc => hi.clients_open c (hmem c hc).1
  obtain ⟨h1, hb, _, _, _, e4, hbuf, _⟩ :=
    broadcastTo_spec marshal h (Target.user userID) m data hm hopen
  simp only [targets] at hbuf
  have hout : ∀ c, c ∉ mapGet h.userClients userID → h1.send c = h.send c := by
    intro c hc
    apply chan_ext _ _ _ (e4 c).2 (e4 c).1
    rw [hbuf c, List.count_eq_zero.mpr hc]
    simp
  refine ⟨h1, hb, ?_, ?_, ?_⟩
  · intro c hc hcu
    have hin : c ∈ mapGet h.userClients userID := by
      have := hi.user_complete c hc (hcu ▸ hid)
      rw [hcu] at this
      exact this
    have hroom : (h.send c).buf.length < (h.send c).cap := by
      have := hfull c hc
      simpa [Chan.full] using this
    rw [hbuf c, List.count_eq_one_of_mem hnd hin]
    have : min 1 ((h.send c).cap - (h.send c).buf.length) = 1 := by omega
    rw [this]
    rfl
  · intro c hcu
    exact hout c (fun hin => hcu (hmem c hin).2)
  · intro c hc
    exact hout c (fun hin => hc (hmem c hin).1)

/-- C6 at the hub in which client A (user 7) is registered. -/
theorem BroadcastToUser_delivers_witness :
    ∃ h1, BroadcastToUser sampleMarshal hubA 7 msg1 = .ok h1 ∧
      (∀ c ∈ hubA.clients, c.userID = 7 → (h1.send c).buf = (hubA.send c).buf ++ [[1]]) ∧
      (∀ c, c.userID ≠ 7 → h1.send c = hubA.send c) ∧
      (∀ c, c ∉ hubA.clients → h1.send c = hubA.send c) :=
  BroadcastToUser_delivers sampleMarshal hubA ⟨[clientA], reach_hubA sampleMarshal⟩
    (fun _ _ => rfl) 7 (by decide) msg1 [1] rfl

/-- The dispatch loop only ever adds copies of the frame at the tail of a
mailbox, also when it ends in a panic. -/
theorem dispatch_appends (data : Frame) (l : List Client) (h : Hub) (c : Client) :
    ∃ k, ((hubOf (dispatch data l h)).send c).buf = (h.send c).buf ++ List.replicate k data := by
  induction l generalizing h with
  | nil => exact ⟨0, by simp [dispatch, hubOf]⟩
  | cons x rest ih =>
    rcases dispatch_cons_cases data x rest h with ⟨_, he⟩ | ⟨_, _, he⟩ | ⟨_, _, he⟩
    · exact ⟨0, by rw [he]; simp [hubOf]⟩
    · rw [he]
      obtain ⟨k, hk⟩ := ih
        { h with send := Function.update h.send x
                   { h.send x with buf := (h.send x).buf ++ [data] } }
      by_cases hcx : c = x
      · subst hcx
        refine ⟨k + 1, ?_⟩
        rw [hk]
        simp only [Function.update_same, List.append_assoc, List.replicate_succ]
        rfl
      · exact ⟨k, by rw [hk]; simp [Function.update_noteq hcx]⟩
    · rw [he]
      exact ih { h with unregister := h.unregister ++ [x] }

theorem broadcastTo_appends (marshal : Message → Option Frame) (h : Hub) (t : Target)
    (m : Message) (data : Frame) (hm : marshal m = some data) (c : Client) :
    ∃ k, ((hubOf (broadcastTo marshal h t m)).send c).buf =
      (h.send c).buf ++ List.replicate k data := by
  rw [broadcastTo_eq, hm]
  exact dispatch_appends data (targets h t) h c

/-- C7: per-topic FIFO order, for two `BroadcastToMatch` calls to topic `t` in a
row whose messages marshal to `d1` and `d2`.  (1) In every case, a recovered
panic included, every mailbox ends as its old content, then copies of `d1`,
then copies of `d2`: frames are only added at the tail, and no frame of the
second message comes before a frame of the first.  (2) When every client
listed under `t` has an open mailbox both calls return; a client listed once
with room for two frames ends with its old content followed by `d1` and then
`d2`, and in general a client with room for both broadcasts gets one copy per
entry it has in the list, those of the first message first. -/
theorem BroadcastToMatch_fifo (marshal : Message → Option Frame) (h : Hub) (t : Int)
    (m1 m2 : Message) (d1 d2 : Frame) (hm1 : marshal m1 = some d1)
    (hm2 : marshal m2 = some d2) :
    (∀ c, ∃ k1 k2,
      ((hubOf (BroadcastToMatch marshal h t m1)).send c).buf =
        (h.send c).buf ++ List.replicate k1 d1 ∧
      ((hubOf (BroadcastToMatch marshal (hubOf (BroadcastToMatch marshal h t m1)) t m2)).send
          c).buf =
        (h.send c).buf ++ List.replicate k1 d1 ++ List.replicate k2 d2) ∧
    ((∀ c ∈ mapGet h.matchSubscriptions t, (h.send c).closed = false) →
      ∃ h1 h2, BroadcastToMatch marshal h t m1 = .ok h1 ∧
        BroadcastToMatch marshal h1 t m2 = .ok h2 ∧
        (∀ c, (mapGet h.matchSubscriptions t).count c = 1 →
          (h.send c).buf.length + 2 ≤ (h.send c).cap →
          (h2.send c).buf = (h.send c).buf ++ [d1, d2]) ∧
        (∀ c, (h.send c).buf.length + 2 * (mapGet h.matchSubscriptions t).count c
            ≤ (h.send c).cap →
          (h2.send c).buf =
            (h.send c).buf ++ List.replicate ((mapGet h.matchSubscriptions t).count c) d1 ++
              List.replicate ((mapGet h.matchSubscriptions t).count c) d2)) := by
  constructor
  · intro c
    obtain ⟨k1, hk1⟩ := broadcastTo_appends marshal h (Target.topic t) m1 d1 hm1 c
    obtain ⟨k2, hk2⟩ := broadcastTo_appends marshal
      (hubOf (broadcastTo marshal h (Target.topic t) m1)) (Target.topic t) m2 d2 hm2 c
    exact ⟨k1, k2, hk1, by rw [← hk1]; exact hk2⟩
  intro hopen
  obtain ⟨h1, hb1, _, _, e3, e4, hbuf1, _⟩ :=
    broadcastTo_spec marshal h (Target.topic t) m1 d1 hm1 hopen
  have hopen1 : ∀ c ∈ targets h1 (Target.topic t), (h1.send c).closed = false := by
    intro c hc
    simp only [targets, e3] at hc
    rw [(e4 c).1]
    exact hopen c hc
  obtain ⟨h2, hb2, _, _, _, _, hbuf2, _⟩ :=
    broadcastTo_spec marshal h1 (Target.topic t) m2 d2 hm2 hopen1
  simp only [targets, e3] at hbuf1 hbuf2
  have hgen : ∀ c, (h.send c).buf.length + 2 * (mapGet h.matchSubscriptions t).count c
      ≤ (h.send c).cap →
      (h2.send c).buf =
        (h.send c).buf ++ List.replicate ((mapGet h.matchSubscriptions t).count c) d1 ++
          List.replicate ((mapGet h.matchSubscriptions t).count c) d2 := by
    intro c hroom
    have hk1 : min ((mapGet h.matchSubscriptions t).count c)
        ((h.send c).cap - (h.send c).buf.length) = (mapGet h.matchSubscriptions t).count c := by
      omega
    have hb1c : (h1.send c).buf =
        (h.send c).buf ++ List.replicate ((mapGet h.matchSubscriptions t).count c) d1 := by
      rw [hbuf1 c, hk1]
    have hlen : (h1.send c).buf.length =
        (h.send c).buf.length + (mapGet h.matchSubscriptions t).count c := by
      rw [hb1c]; simp
    have hk2 : min ((mapGet h.matchSubscriptions t).count c)
        ((h1.send c).cap - (h1.send c).buf.length) = (mapGet h.matchSubscriptions t).count c := by
      rw [(e4 c).2, hlen]
      omega
    rw [hbuf2 c, hk2, hb1c]
  refine ⟨h1, h2, hb1, hb2, ?_, hgen⟩
  intro c hcount hroom
  have := hgen c (by rw [hcount]; omega)
  rw [this, hcount]
  simp

/-- C7 at client A subscribed once to topic 42, with an empty mailbox. -/
theorem BroadcastToMatch_fifo_witness :
    ∃ h2, (∃ h1, BroadcastToMatch sampleMarshal hubOnce 42 msg1 = .ok h1 ∧
        BroadcastToMatch sampleMarshal h1 42 { type := "match_updated", payload := [2] }
          = .ok h2) ∧
      (h2.send clientA).buf = (hubOnce.send clientA).buf ++ [[1], [2]] := by
  obtain ⟨h1, h2, hb1, hb2, hone, _⟩ :=
    (BroadcastToMatch_fifo sampleMarshal hubOnce 42 msg1
      { type := "match_updated", payload := [2] } [1] [2] rfl rfl).2
      (by
        intro c hc
        have hcA : c = clientA := by
          have hl : mapGet hubOnce.matchSubscriptions 42 = [clientA] := by decide
          rw [hl] at hc
          simpa using hc
        subst hcA
        decide)
  exact ⟨h2, ⟨h1, hb1, hb2⟩, hone clientA (by decide) (by decide)⟩

/-! ## Failure isolation -/

theorem dispatch_cons_open (data : Frame) (x : Client) (rest : List Client) (h : Hub)
    (hx : (h.send x).closed = false) :
    dispatch data (x :: rest) h = dispatch data rest (sendStep data h x) := by
  unfold sendStep
  rcases Nat.lt_or_ge (h.send x).buf.length (h.send x).cap with hr | hr
  · rw [if_pos hr]; exact dispatch_cons_room data x rest h hx hr
  · rw [if_neg (Nat.not_lt.mpr hr)]; exact dispatch_cons_full data x rest h hx hr

theorem sendStep_send_of_ne (data : Frame) (h : Hub) (x c : Client) (hc : c ≠ x) :
    (sendStep data h x).send c = h.send c := by
  unfold sendStep
  split_ifs
  · simp [Function.update_noteq hc]
  · rfl

theorem sendStep_closed (data : Frame) (h : Hub) (x c : Client) :
    ((sendStep data h x).send c).closed = (h.send c).closed := by
  by_cases hc : c = x
  · subst hc
    unfold sendStep
    split_ifs
    · simp
    · rfl
  · rw [sendStep_send_of_ne data h x c hc]

theorem sendStep_unregister_self (data : Frame) (h : Hub) (x : Client) :
    (sendStep data h x).unregister.filter (fun c => c != x) =
      h.unregister.filter (fun c => c != x) := by
  unfold sendStep
  split_ifs
  · rfl
  · simp

/-- Two hubs with the same mailbox for `x` take the same step on `x`. -/
theorem sendStep_congr (data : Frame) (h h' : Hub) (x : Client) (hx : h'.send x = h.send x) :
    (sendStep data h' x).send x = (sendStep data h x).send x ∧
    ∃ ev, (sendStep data h' x).unregister = h'.unregister ++ ev ∧
      (sendStep data h x).unregister = h.unregister ++ ev := by
  unfold sendStep
  rw [hx]
  split_ifs
  · exact ⟨by simp [hx], [], by simp, by simp⟩
  · exact ⟨hx, [x], rfl, rfl⟩

/-- The dispatch loop on two hubs that agree on every mailbox but that of `A`,
whose mailbox is open in both or closed in both: the loop returns on both or
panics on both, leaves the same mailbox to every other client, and starts the
same evictions for the other clients. -/
theorem dispatch_isolation (data : Frame) (A : Client) (l : List Client) (h h' : Hub)
    (hsend : ∀ c, c ≠ A → h'.send c = h.send c)
    (hA : (h'.send A).closed = (h.send A).closed)
    (hev : h'.unregister.filter (fun c => c != A) = h.unregister.filter (fun c => c != A)) :
    ((∃ h1, dispatch data l h = .ok h1) ↔ (∃ h1, dispatch data l h' = .ok h1)) ∧
    (∀ B, B ≠ A → (hubOf (dispatch data l h')).send B = (hubOf (dispatch data l h)).send B) ∧
    (hubOf (dispatch data l h')).unregister.filter (fun c => c != A) =
      (hubOf (dispatch data l h)).unregister.filter (fun c => c != A) := by
  induction l generalizing h h' with
  | nil =>
    refine ⟨⟨fun _ => ⟨h', rfl⟩, fun _ => ⟨h, rfl⟩⟩, ?_, ?_⟩
    · intro B hB; exact hsend B hB
    · exact hev
  | cons x rest ih =>
    have hcx : (h'.send x).closed = (h.send x).closed := by
      by_cases hx : x = A
      · rw [hx]; exact hA
      · rw [hsend x hx]
    cases hc : (h.send x).closed
    · have hc' : (h'.send x).closed = false := by rw [hcx, hc]
      rw [dispatch_cons_open data x rest h hc, dispatch_cons_open data x rest h' hc']
      apply ih
      · intro c hcA
        by_cases hcx1 : c = x
        · subst hcx1
          exact (sendStep_congr data h h' c (hsend c hcA)).1
        · rw [sendStep_send_of_ne data h' x c hcx1, sendStep_send_of_ne data h x c hcx1]
          exact hsend c hcA
      · rw [sendStep_closed, sendStep_closed]; exact hA
      · by_cases hx : x = A
        · subst hx
          rw [sendStep_unregister_self, sendStep_unregister_self]
          exact hev
        · obtain ⟨_, ev, e1, e2⟩ := sendStep_congr data h h' x (hsend x hx)
          rw [e1, e2, List.filter_append, List.filter_append, hev]
    · have hc' : (h'.send x).closed = true := by rw [hcx, hc]
      rw [dispatch_cons_closed data x rest h hc, dispatch_cons_closed data x rest h' hc']
      refine ⟨⟨fun hx => ?_, fun hx => ?_⟩, ?_, ?_⟩
      · obtain ⟨_, e⟩ := hx; cases e
      · obtain ⟨_, e⟩ := hx; cases e
      · intro B hB; exact hsend B hB
      · exact hev

/-- C9: failure isolation in dispatch.  Take any of the three broadcasts and two
hubs with the same registry and the same pending evictions that differ only in
the content (and size) of the mailbox of one client `A`.  Then (1) the
broadcast returns on both or panics on both; (2) every other client ends with
the same mailbox in both runs; (3) the same evictions are started for the other
clients; and (4) when the broadcast returns, the evictions it starts are
exactly those of the targets found full: a client is evicted if and only if it
has more entries among the targets than room in its mailbox, which for a client
with a single entry means that its mailbox was full. -/
theorem broadcast_isolation (marshal : Message → Option Frame) (h h' : Hub) (A : Client)
    (t : Target) (m : Message)
    (hcl : h'.clients = h.clients) (hu : h'.userClients = h.userClients)
    (hms : h'.matchSubscriptions = h.matchSubscriptions)
    (hev : h'.unregister = h.unregister)
    (hsend : ∀ c, c ≠ A → h'.send c = h.send c)
    (hA : (h'.send A).closed = (h.send A).closed) :
    ((∃ h1, broadcastTo marshal h t m = .ok h1) ↔
      (∃ h1, broadcastTo marshal h' t m = .ok h1)) ∧
    (∀ B, B ≠ A →
      (hubOf (broadcastTo marshal h' t m)).send B = (hubOf (broadcastTo marshal h t m)).send B) ∧
    (hubOf (broadcastTo marshal h' t m)).unregister.filter (fun c => c != A) =
      (hubOf (broadcastTo marshal h t m)).unregister.filter (fun c => c != A) ∧
    (∀ h1 data, marshal m = some data → broadcastTo marshal h t m = .ok h1 →
      ∃ ev, h1.unregister = h.unregister ++ ev ∧
        ∀ c, (c ∈ ev ↔ (h.send c).cap - (h.send c).buf.length < (targets h t).count c) ∧
          ((targets h t).count c ≤ 1 →
            (c ∈ ev ↔ c ∈ targets h t ∧ (h.send c).full = true))) := by
  have htg : targets h' t = targets h t := by
    cases t <;> simp [targets, hcl, hu, hms]
  have hfour : ∀ h1 data, marshal m = some data → broadcastTo marshal h t m = .ok h1 →
      ∃ ev, h1.unregister = h.unregister ++ ev ∧
        ∀ c, (c ∈ ev ↔ (h.send c).cap - (h.send c).buf.length < (targets h t).count c) ∧
          ((targets h t).count c ≤ 1 →
            (c ∈ ev ↔ c ∈ targets h t ∧ (h.send c).full = true)) := by
    intro h1 data hm hb
    rw [broadcastTo_eq, hm] at hb
    obtain ⟨_, ev, e1, hcount⟩ := dispatch_spec data (targets h t) h h1 hb
    refine ⟨ev, e1, fun c => ?_⟩
    have hmem : c ∈ ev ↔ (h.send c).cap - (h.send c).buf.length < (targets h t).count c := by
      rw [← List.count_pos_iff, hcount c]
      omega
    refine ⟨hmem, fun hone => ?_⟩
    rw [hmem, ← List.count_pos_iff]
    simp only [Chan.full, decide_eq_true_eq]
    omega
  rw [broadcastTo_eq, broadcastTo_eq]
  cases hm : marshal m with
  | none =>
    refine ⟨⟨fun _ => ⟨h', rfl⟩, fun _ => ⟨h, rfl⟩⟩, ?_, ?_, ?_⟩
    · intro B hB; exact hsend B hB
    · simp only [hubOf, hev]
    · intro h1 data hd; cases hd
  | some data =>
    simp only [htg]
    obtain ⟨r1, r2, r3⟩ :=
      dispatch_isolation data A (targets h t) h h' hsend hA (by rw [hev])
    refine ⟨r1, r2, r3, ?_⟩
    intro h1 d hd hb
    exact hfour h1 d (hm.trans hd) (by rw [broadcastTo_eq, hm]; exact hb)

/-- C9 at two hubs with clients A and B registered, the mailbox of A empty in
one and full in the other: B ends with the same mailbox in both runs of
`broadcastMessage`. -/
theorem broadcast_isolation_witness :
    ((hubOf (broadcastTo sampleMarshal hubABFull Target.all msg1)).send clientB =
      (hubOf (broadcastTo sampleMarshal hubAB Target.all msg1)).send clientB) ∧
    (hubAB.send clientA).full = false ∧ (hubABFull.send clientA).full = true :=
  ⟨(broadcast_isolation sampleMarshal hubAB hubABFull clientA Target.all msg1 rfl rfl rfl rfl
      (fun c hc => Function.update_noteq hc _ _) rfl).2.1 clientB (by decide),
    by decide, by
      have hs : hubABFull.send clientA =
          { buf := List.replicate mailboxCapacity [0], cap := mailboxCapacity,
            closed := false } := by
        unfold hubABFull
        exact Function.update_same clientA _ hubAB.send
      rw [hs, Chan.full, List.length_replicate]
      exact decide_eq_true (Nat.le_refl _)⟩

/-! ## Sends on closed mailboxes -/

/-- In a reachable hub the two broadcasts that loop over the global set and over
the identity index never panic: their targets are registered, so their
mailboxes are open.  Only the loop over a topic list can meet a closed mailbox. -/
theorem broadcast_registered_no_panic (marshal : Message → Option Frame) (h : Hub)
    (hr : Reachable marshal h) (userID : Int) (m : Message) :
    (∃ h1, broadcastMessage marshal h m = .ok h1) ∧
    (∃ h1, BroadcastToUser marshal h userID m = .ok h1) := by
  obtain ⟨cs, hreach⟩ := hr
  have hi := reach_inv hreach
  have huser : ∀ c ∈ mapGet h.userClients userID, (h.send c).closed = false := by
    unfold mapGet
    cases hv : h.userClients userID with
    | none => simp
    | some l =>
      intro c hc
      exact hi.clients_open c (hi.user_mem _ l hv c (by simpa using hc)).1
  unfold broadcastMessage BroadcastToUser
  cases marshal m with
  | none => exact ⟨⟨h, rfl⟩, ⟨h, rfl⟩⟩
  | some data =>
    exact ⟨dispatch_ok data h.clients h (fun c hc => hi.clients_open c hc),
      dispatch_ok data (mapGet h.userClients userID) h huser⟩

/-- C10, evaluated at the failing input: client A registers, subscribes to match
42 twice and is unregistered (its mailbox is closed); the hub is reachable, A is
still a target of `BroadcastToMatch` for 42, and that broadcast panics with a
send on a closed channel. -/
theorem BroadcastToMatch_send_on_closed :
    Reachable sampleMarshal hubStale ∧
    clientA ∈ targets hubStale (Target.topic 42) ∧
    (hubStale.send clientA).closed = true ∧
    BroadcastToMatch sampleMarshal hubStale 42 msg1 =
      .error (Panic.sendOnClosedChannel, hubStale) :=
  ⟨⟨[clientA], reach_hubStale sampleMarshal⟩, by decide, by decide, rfl⟩

/-! ## Slow consumers -/

/-- A run of `broadcastMessage` calls from a hub that satisfies the invariant:
the run returns; every registered client gets the frames in order, as many as
its mailbox had room for, and one eviction is started for it per frame beyond
that; the clients that are not registered are not touched. -/
theorem broadcastRun_spec (marshal : Message → Option Frame) {cs : List Client}
    (msgs : List Message) :
    ∀ (frames : List Frame) (h : Hub), msgs.map marshal = frames.map some → Inv cs h →
      ∃ h1, broadcastRun marshal msgs h = .ok h1 ∧ Inv cs h1 ∧
        h1.clients = h.clients ∧ h1.userClients = h.userClients ∧
        h1.matchSubscriptions = h.matchSubscriptions ∧
        (∀ c, (h1.send c).closed = (h.send c).closed ∧ (h1.send c).cap = (h.send c).cap) ∧
        (∀ c ∈ h.clients,
          (h1.send c).buf =
            (h.send c).buf ++ frames.take ((h.send c).cap - (h.send c).buf.length) ∧
          h1.unregister.count c =
            h.unregister.count c +
              (frames.length - ((h.send c).cap - (h.send c).buf.length))) ∧
        (∀ c, c ∉ h.clients →
          h1.send c = h.send c ∧ h1.unregister.count c = h.unregister.count c) := by
  induction msgs with
  | nil =>
    intro frames h hmf hi
    have hf : frames = [] := by
      cases frames with
      | nil => rfl
      | cons d fs => simp at hmf
    subst hf
    exact ⟨h, rfl, hi, rfl, rfl, rfl, fun c => ⟨rfl, rfl⟩, fun c _ => by simp,
      fun c _ => ⟨rfl, rfl⟩⟩
  | cons m ms ih =>
    intro frames h hmf hi
    cases frames with
    | nil => simp at hmf
    | cons d fs =>
      simp only [List.map_cons, List.cons.injEq] at hmf
      obtain ⟨hm, hrest⟩ := hmf
      obtain ⟨h1, hb, e1, e2, e3, e4, hbuf, ev, hev, hcount⟩ :=
        broadcastTo_spec marshal h Target.all m d hm (fun c hc => hi.clients_open c hc)
      have hb1 : broadcastMessage marshal h m = .ok h1 := hb
      have hi1 : Inv cs h1 := by
        have := inv_broadcastTo marshal Target.all m hi
        rw [hb] at this
        exact this
      obtain ⟨h2, hrun, hi2, f1, f2, f3, f4, hin, hout⟩ := ih fs h1 hrest hi1
      simp only [targets] at hbuf hcount
      refine ⟨h2, ?_, hi2, f1.trans e1, f2.trans e2, f3.trans e3, ?_, ?_, ?_⟩
      · simp only [broadcastRun, hb1]
        exact hrun
      · intro c
        exact ⟨(f4 c).1.trans (e4 c).1, (f4 c).2.trans (e4 c).2⟩
      · intro c hc
        have hc1 : c ∈ h1.clients := by rw [e1]; exact hc
        have hone : h.clients.count c = 1 := List.count_eq_one_of_mem hi.clients_nodup hc
        obtain ⟨hb2, hc2⟩ := hin c hc1
        have hlen1 : (h1.send c).buf.length =
            (h.send c).buf.length + min 1 ((h.send c).cap - (h.send c).buf.length) := by
          rw [hbuf c, hone]; simp
        constructor
        · rw [hb2, (e4 c).2, hlen1, hbuf c, hone]
          rcases Nat.eq_zero_or_pos ((h.send c).cap - (h.send c).buf.length) with h0 | h0
          · rw [h0]
            have : (h.send c).cap - ((h.send c).buf.length + min 1 0) = 0 := by omega
            rw [this]
            simp
          · obtain ⟨r, hr⟩ : ∃ r, (h.send c).cap - (h.send c).buf.length = r + 1 :=
              ⟨(h.send c).cap - (h.send c).buf.length - 1, by omega⟩
            have h1' : min 1 (r + 1) = 1 := by omega
            have h2' : (h.send c).cap - ((h.send c).buf.length + 1) = r := by omega
            rw [hr, h1', h2', List.take_succ_cons]
            simp
        · rw [hc2, hev, List.count_append, hcount c, hone, (e4 c).2, hlen1]
          simp only [List.length_cons]
          omega
      · intro c hc
        have hc1 : c ∉ h1.clients := by rw [e1]; exact hc
        obtain ⟨hs2, hc2⟩ := hout c hc1
        have hzero : h.clients.count c = 0 := List.count_eq_zero.mpr hc
        constructor
        · rw [hs2]
          apply chan_ext _ _ _ (e4 c).2 (e4 c).1
          rw [hbuf c, hzero]
          simp
        · rw [hc2, hev, List.count_append, hcount c, hzero]
          simp

/-- The slow-consumer scenario in every reachable hub.  Take a registered client
`c` with an empty mailbox (its capacity is 256) that never drains, and 300
messages that marshal to `frames`, sent with `broadcastMessage` one after the
other.  (1) After `k ≤ 256` broadcasts the mailbox holds exactly the first `k`
frames and no eviction of `c` was started.  (2) After `n` broadcasts,
`257 ≤ n ≤ 300`, with the eviction not yet applied, every broadcast has
returned, the mailbox still holds exactly the first 256 frames, and `n - 256`
evictions of `c` were started, the first by broadcast 257.  (3) When the
eviction is applied after `j` broadcasts, `257 ≤ j ≤ 300`, `unregisterClient`
returns, `c` is gone from the global set and from the identity index, its
mailbox is closed, every topic list has lost one entry of `c` (so `c` is gone
from the lists in which it had at most one entry, and from no other), and the
remaining broadcasts return without adding a frame to the mailbox and without
touching the topic index. -/
theorem slow_consumer_eviction (marshal : Message → Option Frame) (h : Hub)
    (hr : Reachable marshal h) (c : Client) (hc : c ∈ h.clients)
    (hempty : (h.send c).buf = []) (msgs : List Message) (frames : List Frame)
    (hmf : msgs.map marshal = frames.map some) (hlen : msgs.length = 300) :
    (h.send c).cap = 256 ∧
    (∀ k, k ≤ 256 →
      ∃ hk, broadcastRun marshal (msgs.take k) h = .ok hk ∧
        (hk.send c).buf = frames.take k ∧
        hk.unregister.count c = h.unregister.count c) ∧
    (∀ n, 257 ≤ n → n ≤ 300 →
      ∃ hn, broadcastRun marshal (msgs.take n) h = .ok hn ∧
        (hn.send c).buf = frames.take 256 ∧
        hn.unregister.count c = h.unregister.count c + (n - 256) ∧
        c ∈ hn.unregister) ∧
    (∀ j, 257 ≤ j → j ≤ 300 →
      ∃ hj he hz, broadcastRun marshal (msgs.take j) h = .ok hj ∧
        unregisterClient hj c = .ok he ∧
        c ∉ he.clients ∧ (he.send c).closed = true ∧
        (∀ k l, he.userClients k = some l → c ∉ l) ∧
        (∀ k l, he.matchSubscriptions k = some l →
          (mapGet h.matchSubscriptions k).count c ≤ 1 → c ∉ l) ∧
        broadcastRun marshal (msgs.drop j) he = .ok hz ∧
        (hz.send c).buf = frames.take 256 ∧ c ∉ hz.clients ∧
        (hz.send c).closed = true ∧
        hz.matchSubscriptions = he.matchSubscriptions ∧
        (∀ k, he.matchSubscriptions k =
          (h.matchSubscriptions k).bind
            (fun l => if l.erase c = [] then none else some (l.erase c))) ∧
        (hj.send c).buf = frames.take 256 ∧ c ∈ hj.unregister) := by
  obtain ⟨cs, hreach⟩ := hr
  have hi := reach_inv hreach
  have hcap : (h.send c).cap = 256 := hi.cap_eq c
  have hflen : frames.length = 300 := by
    have := congrArg List.length hmf
    simp only [List.length_map] at this
    omega
  have htake : ∀ n, (msgs.take n).map marshal = (frames.take n).map some := by
    intro n
    rw [List.map_take, List.map_take, hmf]
  have hdrop : ∀ n, (msgs.drop n).map marshal = (frames.drop n).map some := by
    intro n
    rw [List.map_drop, List.map_drop, hmf]
  have hprefix : ∀ n, ∃ hn, broadcastRun marshal (msgs.take n) h = .ok hn ∧ Inv cs hn ∧
      hn.clients = h.clients ∧ hn.matchSubscriptions = h.matchSubscriptions ∧
      (hn.send c).closed = false ∧
      (hn.send c).buf = frames.take (min 256 n) ∧
      hn.unregister.count c = h.unregister.count c + (min n 300 - 256) := by
    intro n
    obtain ⟨hn, hrun, hin, e1, _, e3, e4, hmemb, _⟩ :=
      broadcastRun_spec marshal (msgs.take n) (frames.take n) h (htake n) hi
    obtain ⟨hb, hcnt⟩ := hmemb c hc
    refine ⟨hn, hrun, hin, e1, e3, ?_, ?_, ?_⟩
    · rw [(e4 c).1]; exact hi.clients_open c hc
    · rw [hb, hempty, hcap, List.length_nil, Nat.sub_zero, List.take_take, List.nil_append]
    · rw [hcnt, hempty, hcap, List.length_nil, Nat.sub_zero, List.length_take, hflen]
  refine ⟨hcap, ?_, ?_, ?_⟩
  · intro k hk
    obtain ⟨hn, hrun, _, _, _, _, hb, hcnt⟩ := hprefix k
    refine ⟨hn, hrun, ?_, ?_⟩
    · rw [hb, Nat.min_eq_right hk]
    · rw [hcnt]; omega
  · intro n hn1 hn2
    obtain ⟨hn, hrun, _, _, _, _, hb, hcnt⟩ := hprefix n
    have hcnt1 : hn.unregister.count c = h.unregister.count c + (n - 256) := by
      rw [hcnt, Nat.min_eq_left hn2]
    refine ⟨hn, hrun, ?_, hcnt1, ?_⟩
    · rw [hb, Nat.min_eq_left (by omega)]
    · apply List.count_pos_iff.mp
      rw [hcnt1]; omega
  · intro j hj1 hj2
    obtain ⟨hj, hrun, hij, e1, e3, hopen, hb, hcntj⟩ := hprefix j
    have hcj : c ∈ hj.clients := by rw [e1]; exact hc
    obtain ⟨he, hun, hcl, hsend, _, _, hms⟩ := unregisterClient_of_mem_open hj c hcj hopen
    have hie : Inv cs he := inv_unregister c hij hun
    have hne : c ∉ he.clients := by
      rw [hcl, List.mem_filter]; simp
    obtain ⟨hz, hrunz, _, z1, _, z3, z4, _, hout⟩ :=
      broadcastRun_spec marshal (msgs.drop j) (frames.drop j) he (hdrop j) hie
    refine ⟨hj, he, hz, hrun, hun, hne, ?_, ?_, ?_, hrunz, ?_, ?_, ?_, z3, ?_, ?_, ?_⟩
    · rw [hsend, Function.update_same]
    · intro k l hl hcl1
      exact hne (hie.user_mem k l hl c hcl1).1
    · intro k l hl hone hcl1
      rw [hms k, e3] at hl
      cases hv : h.matchSubscriptions k with
      | none => rw [hv] at hl; cases hl
      | some l0 =>
        rw [hv] at hl
        simp only [Option.some_bind] at hl
        have hone0 : l0.count c ≤ 1 := by
          simpa [mapGet, hv] using hone
        by_cases hemp : l0.erase c = []
        · rw [if_pos hemp] at hl; cases hl
        · rw [if_neg hemp] at hl
          cases hl
          have h0 : (l0.erase c).count c = 0 := by
            rw [List.count_erase_self]; omega
          exact (List.count_eq_zero.mp h0) hcl1
    · rw [(hout c hne).1, hsend, Function.update_same]
      show (hj.send c).buf = _
      rw [hb, Nat.min_eq_left (by omega)]
    · rw [z1]; exact hne
    · rw [(z4 c).1, hsend, Function.update_same]
    · intro k
      rw [hms k, e3]
    · rw [hb, Nat.min_eq_left (by omega)]
    · apply List.count_pos_iff.mp
      rw [hcntj]; omega

/-- The slow-consumer scenario at the hub in which only client A is registered,
with 300 copies of one message: broadcast 257 starts the eviction of A. -/
theorem slow_consumer_eviction_witness :
    ∃ hn, broadcastRun sampleMarshal ((List.replicate 300 msg1).take 257) hubA = .ok hn ∧
      (hn.send clientA).buf = (List.replicate 300 [1]).take 256 ∧
      hn.unregister.count clientA = hubA.unregister.count clientA + (257 - 256) ∧
      clientA ∈ hn.unregister :=
  (slow_consumer_eviction sampleMarshal hubA ⟨[clientA], reach_hubA sampleMarshal⟩ clientA
    (by decide) (by decide) (List.replicate 300 msg1) (List.replicate 300 [1])
    (by rw [List.map_replicate, List.map_replicate]; rfl)
    (List.length_replicate 300 msg1)).2.2.1 257 (by decide) (by decide)

/-- A run of calls of one broadcast whose targets all have an open mailbox: the
run returns and leaves the registry alone, and a client listed once among the
targets gets the frames in order, as many as its mailbox had room for, and one
eviction is started for it per frame beyond that. -/
theorem broadcastToRun_spec (marshal : Message → Option Frame) (t : Target)
    (msgs : List Message) :
    ∀ (frames : List Frame) (h : Hub), msgs.map marshal = frames.map some →
      (∀ c ∈ targets h t, (h.send c).closed = false) →
      ∃ h1, broadcastToRun marshal t msgs h = .ok h1 ∧
        h1.clients = h.clients ∧ h1.userClients = h.userClients ∧
        h1.matchSubscriptions = h.matchSubscriptions ∧
        (∀ c, (h1.send c).closed = (h.send c).closed ∧ (h1.send c).cap = (h.send c).cap) ∧
        (∀ c, (targets h t).count c = 1 →
          (h1.send c).buf =
            (h.send c).buf ++ frames.take ((h.send c).cap - (h.send c).buf.length) ∧
          h1.unregister.count c =
            h.unregister.count c +
              (frames.length - ((h.send c).cap - (h.send c).buf.length))) := by
  induction msgs with
  | nil =>
    intro frames h hmf _
    have hf : frames = [] := by
      cases frames with
      | nil => rfl
      | cons d fs => simp at hmf
    subst hf
    exact ⟨h, rfl, rfl, rfl, rfl, fun c => ⟨rfl, rfl⟩, fun c _ => by simp⟩
  | cons m ms ih =>
    intro frames h hmf hopen
    cases frames with
    | nil => simp at hmf
    | cons d fs =>
      simp only [List.map_cons, List.cons.injEq] at hmf
      obtain ⟨hm, hrest⟩ := hmf
      obtain ⟨h1, hb, e1, e2, e3, e4, hbuf, ev, hev, hcount⟩ :=
        broadcastTo_spec marshal h t m d hm hopen
      have ht : targets h1 t = targets h t := by
        cases t <;> simp only [targets, e1, e2, e3]
      have hopen1 : ∀ c ∈ targets h1 t, (h1.send c).closed = false := by
        intro c hc
        rw [(e4 c).1]
        exact hopen c (ht ▸ hc)
      obtain ⟨h2, hrun, f1, f2, f3, f4, hin⟩ := ih fs h1 hrest hopen1
      refine ⟨h2, ?_, f1.trans e1, f2.trans e2, f3.trans e3, ?_, ?_⟩
      · simp only [broadcastToRun, hb]
        exact hrun
      · intro c
        exact ⟨(f4 c).1.trans (e4 c).1, (f4 c).2.trans (e4 c).2⟩
      · intro c hone
        obtain ⟨hb2, hc2⟩ := hin c (by rw [ht]; exact hone)
        have hlen1 : (h1.send c).buf.length =
            (h.send c).buf.length + min 1 ((h.send c).cap - (h.send c).buf.length) := by
          rw [hbuf c, hone]; simp
        constructor
        · rw [hb2, (e4 c).2, hlen1, hbuf c, hone]
          rcases Nat.eq_zero_or_pos ((h.send c).cap - (h.send c).buf.length) with h0 | h0
          · rw [h0]
            have : (h.send c).cap - ((h.send c).buf.length + min 1 0) = 0 := by omega
            rw [this]
            simp
          · obtain ⟨r, hr⟩ : ∃ r, (h.send c).cap - (h.send c).buf.length = r + 1 :=
              ⟨(h.send c).cap - (h.send c).buf.length - 1, by omega⟩
            have h1' : min 1 (r + 1) = 1 := by omega
            have h2' : (h.send c).cap - ((h.send c).buf.length + 1) = r := by omega
            rw [hr, h1', h2', List.take_succ_cons]
            simp
        · rw [hc2, hev, List.count_append, hcount c, hone, (e4 c).2, hlen1]
          simp only [List.length_cons]
          omega

/-- C8 fails on the code.  In the reachable hub `hubTwice` client A (user 7) is
registered with an empty mailbox of capacity 256 and is listed twice under
topic 42 (it sent the same `subscribe_match` frame twice).  Of 300 broadcasts
the first 256 are queued and broadcast 257 starts the eviction of A, as the
claim says; but once `unregisterClient(A)` has run, A is out of the global set
with a closed mailbox and still listed under topic 42.  This is so for a run
of `broadcastMessage` calls (first part; there broadcasts 258 to 300 return
and leave the entry in place, and a `BroadcastToMatch` to topic 42 then sends
on the closed mailbox and panics) and for a run of `BroadcastToUser(7, m)`
calls, the broadcast of `notifyMatchCreated` (second part). -/
theorem slow_consumer_eviction_leaves_subscription :
    Reachable sampleMarshal hubTwice ∧
    clientA ∈ hubTwice.clients ∧
    (hubTwice.send clientA).buf = [] ∧ (hubTwice.send clientA).cap = 256 ∧
    (∃ hj he hz,
      broadcastRun sampleMarshal ((List.replicate 300 msg1).take 257) hubTwice = .ok hj ∧
      (hj.send clientA).buf = (List.replicate 300 [1]).take 256 ∧
      clientA ∈ hj.unregister ∧
      unregisterClient hj clientA = .ok he ∧
      clientA ∉ he.clients ∧ (he.send clientA).closed = true ∧
      he.matchSubscriptions 42 = some [clientA] ∧
      broadcastRun sampleMarshal ((List.replicate 300 msg1).drop 257) he = .ok hz ∧
      (hz.send clientA).buf = (List.replicate 300 [1]).take 256 ∧
      clientA ∉ hz.clients ∧ (hz.send clientA).closed = true ∧
      hz.matchSubscriptions 42 = some [clientA] ∧
      BroadcastToMatch sampleMarshal hz 42 msg1 = .error (Panic.sendOnClosedChannel, hz)) ∧
    (∃ uj ue,
      broadcastToRun sampleMarshal (Target.user 7) ((List.replicate 300 msg1).take 257)
        hubTwice = .ok uj ∧
      (uj.send clientA).buf = (List.replicate 300 [1]).take 256 ∧
      clientA ∈ uj.unregister ∧
      unregisterClient uj clientA = .ok ue ∧
      clientA ∉ ue.clients ∧ (ue.send clientA).closed = true ∧
      ue.userClients 7 = none ∧
      ue.matchSubscriptions 42 = some [clientA] ∧
      BroadcastToMatch sampleMarshal ue 42 msg1 = .error (Panic.sendOnClosedChannel, ue)) := by
  obtain ⟨hcap, _, _, h3⟩ :=
    slow_consumer_eviction sampleMarshal hubTwice ⟨[clientA], reach_hubTwice sampleMarshal⟩
      clientA (by decide) (by decide) (List.replicate 300 msg1) (List.replicate 300 [1])
      (by rw [List.map_replicate, List.map_replicate]; rfl)
      (List.length_replicate 300 msg1)
  obtain ⟨hj, he, hz, hrun, hun, hne, hcl, _, _, hrunz, hzb, hzc, hzcl, hzm, hem, hjb, hju⟩ :=
    h3 257 (by decide) (by decide)
  have he42 : he.matchSubscriptions 42 = some [clientA] := by
    rw [hem 42]
    decide
  have hz42 : hz.matchSubscriptions 42 = some [clientA] := by
    rw [hzm, he42]
  have hbuf0 : (hubTwice.send clientA).buf = [] := by decide
  obtain ⟨uj, urun, u1, u2, u3, u4, uin⟩ :=
    broadcastToRun_spec sampleMarshal (Target.user 7) ((List.replicate 300 msg1).take 257)
      ((List.replicate 300 [1]).take 257) hubTwice
      (by rw [List.map_take, List.map_take, List.map_replicate, List.map_replicate]; rfl)
      (by decide)
  obtain ⟨ujb, ujc⟩ := uin clientA (by decide)
  have ujb1 : (uj.send clientA).buf = (List.replicate 300 [1]).take 256 := by
    rw [ujb, hbuf0, hcap, List.nil_append, List.length_nil, Nat.sub_zero, List.take_take]
    rfl
  have ujc1 : uj.unregister.count clientA = 1 := by
    rw [ujc, hbuf0, hcap, List.length_nil, Nat.sub_zero, List.length_take,
      List.length_replicate]
    decide
  have uju : clientA ∈ uj.unregister := by
    apply List.count_pos_iff.mp
    rw [ujc1]; exact Nat.one_pos
  have ujm : clientA ∈ uj.clients := by rw [u1]; decide
  have ujo : (uj.send clientA).closed = false := by rw [(u4 clientA).1]; decide
  obtain ⟨ue, uun, ucl, usend, _, uuc, ums⟩ := unregisterClient_of_mem_open uj clientA ujm ujo
  have uene : clientA ∉ ue.clients := by
    rw [ucl, List.mem_filter]; simp
  have uecl : (ue.send clientA).closed = true := by
    rw [usend, Function.update_same]
  have ue7 : ue.userClients 7 = none := by
    rw [uuc 7, u2]
    decide
  have ue42 : ue.matchSubscriptions 42 = some [clientA] := by
    rw [ums 42, u3]
    decide
  refine ⟨⟨[clientA], reach_hubTwice sampleMarshal⟩, by decide, hbuf0, hcap,
    ⟨hj, he, hz, hrun, hjb, hju, hun, hne, hcl, he42, hrunz, hzb, hzc, hzcl, hz42, ?_⟩,
    ⟨uj, ue, urun, ujb1, uju, uun, uene, uecl, ue7, ue42, ?_⟩⟩
  · simp only [BroadcastToMatch, sampleMarshal, mapGet, hz42, Option.getD_some, dispatch,
      trySend, hzcl, if_true]
  · simp only [BroadcastToMatch, sampleMarshal, mapGet, ue42, Option.getD_some, dispatch,
      trySend, uecl, if_true]

/-! ## Registry invariants -/

theorem reach_reachAny {marshal : Message → Option Frame} {cs : List Client} {h : Hub}
    (hr : Reach marshal cs h) : ReachAny marshal h := by
  induction hr with
  | init => exact ReachAny.init
  | register c _ _ ih => exact ReachAny.register c ih
  | subscribe c matchID _ ih => exact ReachAny.subscribe c matchID ih
  | unregister c _ hu ih => exact ReachAny.unregister c ih hu
  | broadcast m _ hb ih => exact ReachAny.broadcast m ih hb
  | toUser userID m _ ih => exact ReachAny.toUser userID m ih
  | toMatch matchID m _ ih => exact ReachAny.toMatch matchID m ih
  | recv c _ ih => exact ReachAny.recv c ih

theorem reach_hubGone (marshal : Message → Option Frame) : Reach marshal [clientA] hubGone :=
  Reach.unregister clientA (reach_hubA marshal) rfl

/-- C11 fails on the code for a client that is registered again: after
register, unregister, register of client A, all of which return, A is in the
global set and its mailbox is closed. -/
theorem registerClient_readmits_closed :
    ReachAny sampleMarshal hubGone ∧
    clientA ∉ hubGone.clients ∧ (hubGone.send clientA).closed = true ∧
    ReachAny sampleMarshal hubBack ∧
    clientA ∈ hubBack.clients ∧ (hubBack.send clientA).closed = true :=
  ⟨reach_reachAny (reach_hubGone sampleMarshal), by decide, by decide,
    ReachAny.register clientA (reach_reachAny (reach_hubGone sampleMarshal)),
    by decide, by decide⟩

/-- C11 as amended: in every hub reached by steps in which each client is
registered at most once (what `ServeWs` does), a client that has been
registered is in the global set if and only if its mailbox is open, and no
client of the global set has a closed mailbox. -/
theorem registered_iff_open (marshal : Message → Option Frame) (cs : List Client) (h : Hub)
    (hr : Reach marshal cs h) (c : Client) (hc : c ∈ cs) :
    (c ∈ h.clients ↔ (h.send c).closed = false) ∧
    (∀ d ∈ h.clients, (h.send d).closed = false) := by
  have hi := reach_inv hr
  refine ⟨⟨hi.clients_open c, fun ho => ?_⟩, hi.clients_open⟩
  by_contra hn
  rw [hi.gone_closed c hc hn] at ho
  cases ho

/-- C11 as amended, at client A after it was registered and unregistered: A is
out of the global set and its mailbox is closed. -/
theorem registered_iff_open_witness :
    (clientA ∈ hubGone.clients ↔ (hubGone.send clientA).closed = false) ∧
    (∀ d ∈ hubGone.clients, (hubGone.send d).closed = false) :=
  registered_iff_open sampleMarshal [clientA] hubGone (reach_hubGone sampleMarshal) clientA
    (by decide)

/-- C12 fails on the code for a client that is registered twice: after register,
register, unregister of client A, all of which return, A is still listed under
key 7 of the identity index and is not in the global set. -/
theorem identity_index_keeps_second_entry :
    ReachAny sampleMarshal hubDouble ∧
    hubDouble.userClients 7 = some [clientA] ∧
    clientA ∉ hubDouble.clients :=
  ⟨ReachAny.unregister clientA
      (ReachAny.register clientA (reach_reachAny (reach_hubA sampleMarshal))) rfl,
    by decide, by decide⟩

/-- C12 as amended: in every hub reached by steps in which each client is
registered at most once, every client listed under key `k` of the identity
index is in the global set and has identity exactly `k`. -/
theorem identity_index_invariant (marshal : Message → Option Frame) (cs : List Client)
    (h : Hub) (hr : Reach marshal cs h) (k : Int) (l : List Client)
    (hl : h.userClients k = some l) (c : Client) (hc : c ∈ l) :
    c ∈ h.clients ∧ c.userID = k :=
  (reach_inv hr).user_mem k l hl c hc

/-- C12 as amended, at client A registered under identity 7. -/
theorem identity_index_invariant_witness :
    clientA ∈ hubA.clients ∧ clientA.userID = 7 :=
  identity_index_invariant sampleMarshal [clientA] hubA (reach_hubA sampleMarshal) 7 [clientA]
    (by decide) clientA (by decide)

/-- C13: `registerClient` is a total function (it has no failing branch), and
afterwards the client is in the global set; an identified client is in the
list of its identity, at the end; for an anonymous client the identity index
is unchanged; the topic index and the mailboxes are unchanged. -/
theorem registerClient_post (h : Hub) (c : Client) :
    c ∈ (registerClient h c).clients ∧
    (∀ d, d ∈ (registerClient h c).clients ↔ d = c ∨ d ∈ h.clients) ∧
    (0 < c.userID →
      c ∈ mapGet (registerClient h c).userClients c.userID ∧
      (registerClient h c).userClients c.userID =
        some (mapGet h.userClients c.userID ++ [c]) ∧
      ∀ k, k ≠ c.userID → (registerClient h c).userClients k = h.userClients k) ∧
    (c.userID ≤ 0 → (registerClient h c).userClients = h.userClients) ∧
    (registerClient h c).matchSubscriptions = h.matchSubscriptions ∧
    (registerClient h c).send = h.send := by
  have hmem : ∀ d, d ∈ (registerClient h c).clients ↔ d = c ∨ d ∈ h.clients := by
    intro d
    rw [registerClient_clients]
    by_cases hc : c ∈ h.clients
    · rw [if_pos hc]
      constructor
      · exact Or.inr
      · rintro (rfl | hd)
        · exact hc
        · exact hd
    · rw [if_neg hc, List.mem_append, List.mem_singleton]
      exact Or.comm
  obtain ⟨hms, hsend, _⟩ := registerClient_rest h c
  refine ⟨(hmem c).mpr (Or.inl rfl), hmem, ?_, ?_, hms, hsend⟩
  · intro hu
    rw [registerClient_userClients, if_pos hu]
    refine ⟨by simp [mapGet, mapSet], by simp [mapSet], ?_⟩
    intro k hk
    simp [mapSet, Function.update_noteq hk]
  · intro hu
    rw [registerClient_userClients, if_neg (not_lt.mpr hu)]

/-- C13 at the empty hub, for the identified client A and the anonymous
client B. -/
theorem registerClient_post_witness :
    (clientA ∈ mapGet (registerClient NewHub clientA).userClients clientA.userID ∧
      (registerClient NewHub clientA).userClients clientA.userID =
        some (mapGet NewHub.userClients clientA.userID ++ [clientA]) ∧
      ∀ k, k ≠ clientA.userID →
        (registerClient NewHub clientA).userClients k = NewHub.userClients k) ∧
    (registerClient NewHub clientB).userClients = NewHub.userClients :=
  ⟨(registerClient_post NewHub clientA).2.2.1 (by decide),
    (registerClient_post NewHub clientB).2.2.2.1 (by decide)⟩

/-! ## The size of the global set -/

theorem unregisterClient_ok_clients (h h1 : Hub) (c : Client)
    (hu : unregisterClient h c = .ok h1) :
    h1.clients = h.clients.filter (fun x => x != c) := by
  by_cases hc : c ∈ h.clients
  · cases ho : (h.send c).closed
    · obtain ⟨h2, he, hcl, _⟩ := unregisterClient_of_mem_open h c hc ho
      rw [he] at hu
      have e21 : h2 = h1 := by simpa using hu
      rw [← e21]
      exact hcl
    · rw [unregisterClient_of_mem_closed h c hc ho] at hu
      cases hu
  · rw [unregisterClient_of_not_mem h c hc] at hu
    have e : h = h1 := by simpa using hu
    rw [← e]
    symm
    rw [List.filter_eq_self]
    intro a ha
    have : a ≠ c := fun e1 => hc (e1 ▸ ha)
    simpa using this

theorem lastCall_cons (call : RegCall) (rest : List RegCall) (c : Client) :
    lastCall (call :: rest) c =
      if call.client = c then some ((lastCall rest c).getD call) else lastCall rest c := by
  unfold lastCall
  by_cases hc : call.client = c
  · simp [List.filter_cons, hc, List.getLast?_cons]
  · simp [List.filter_cons, hc]

/-- After a sequence of calls that returns, the global set holds, without
repetition, the clients whose most recent call is a register, and the clients
of the starting hub that no call was about. -/
theorem runCalls_clients (calls : List RegCall) :
    ∀ (h0 h : Hub), h0.clients.Nodup → runCalls calls h0 = .ok h →
      h.clients.Nodup ∧
      ∀ c, c ∈ h.clients ↔
        lastCall calls c = some (RegCall.register c) ∨
          (lastCall calls c = none ∧ c ∈ h0.clients) := by
  induction calls with
  | nil =>
    intro h0 h hn hr
    simp only [runCalls, Except.ok.injEq] at hr
    subst hr
    exact ⟨hn, fun c => by simp [lastCall]⟩
  | cons call rest ih =>
    intro h0 h hn hr
    simp only [runCalls] at hr
    cases call with
    | register c0 =>
      simp only [applyCall] at hr
      have hn1 : (registerClient h0 c0).clients.Nodup := by
        rw [registerClient_clients]
        by_cases hc : c0 ∈ h0.clients
        · rw [if_pos hc]; exact hn
        · rw [if_neg hc]
          exact List.nodup_append.mpr ⟨hn, List.nodup_singleton c0, by
            intro x hx hx1
            rw [List.mem_singleton] at hx1
            exact hc (hx1 ▸ hx)⟩
      obtain ⟨hnd, hmem⟩ := ih (registerClient h0 c0) h hn1 hr
      refine ⟨hnd, fun c => ?_⟩
      rw [hmem c, lastCall_cons, (registerClient_post h0 c0).2.1 c]
      by_cases hc : c0 = c
      · subst hc
        simp only [RegCall.client, if_true]
        cases hl : lastCall rest c0 with
        | none => simp
        | some x => simp
      · have hc' : c ≠ c0 := fun e => hc e.symm
        simp [RegCall.client, hc, hc']
    | unregister c0 =>
      simp only [applyCall] at hr
      cases hu : unregisterClient h0 c0 with
      | error e => rw [hu] at hr; cases hr
      | ok h1 =>
        rw [hu] at hr
        have hcl := unregisterClient_ok_clients h0 h1 c0 hu
        have hn1 : h1.clients.Nodup := by rw [hcl]; exact hn.filter _
        obtain ⟨hnd, hmem⟩ := ih h1 h hn1 hr
        refine ⟨hnd, fun c => ?_⟩
        rw [hmem c, lastCall_cons, hcl, List.mem_filter]
        by_cases hc : c0 = c
        · subst hc
          simp only [RegCall.client, if_true]
          cases hl : lastCall rest c0 with
          | none => simp
          | some x => simp
        · have hc' : c ≠ c0 := fun e => hc e.symm
          simp [RegCall.client, hc, hc']

/-- A sequence of calls that registers each client at most once, and none of
the clients registered before, returns from a hub that satisfies the
invariant. -/
theorem runCalls_ok (calls : List RegCall) :
    ∀ (cs : List Client) (h0 : Hub), Inv cs h0 → (registrations calls).Nodup →
      (∀ c ∈ registrations calls, c ∉ cs) → ∃ h, runCalls calls h0 = .ok h := by
  induction calls with
  | nil => intro cs h0 _ _ _; exact ⟨h0, rfl⟩
  | cons call rest ih =>
    intro cs h0 hi hnd hfresh
    cases call with
    | register c0 =>
      simp only [registrations, List.filterMap_cons, List.nodup_cons] at hnd
      have hc0 : c0 ∉ cs := hfresh c0 (by simp [registrations])
      have hi1 := inv_register c0 hi hc0
      obtain ⟨h, hr⟩ := ih (c0 :: cs) (registerClient h0 c0) hi1 hnd.2 (by
        intro c hc hcs
        rcases List.mem_cons.mp hcs with e | hcs1
        · exact hnd.1 (e ▸ hc)
        · exact hfresh c (by simp only [registrations, List.filterMap_cons]
                             exact List.mem_cons_of_mem _ hc) hcs1)
      exact ⟨h, by simp only [runCalls, applyCall]; exact hr⟩
    | unregister c0 =>
      have hreg : registrations (RegCall.unregister c0 :: rest) = registrations rest := by
        simp [registrations]
      rw [hreg] at hnd hfresh
      have hok : ∃ h1, unregisterClient h0 c0 = .ok h1 := by
        by_cases hc : c0 ∈ h0.clients
        · obtain ⟨h1, he, _⟩ := unregisterClient_of_mem_open h0 c0 hc (hi.clients_open c0 hc)
          exact ⟨h1, he⟩
        · exact ⟨h0, unregisterClient_of_not_mem h0 c0 hc⟩
      obtain ⟨h1, hu⟩ := hok
      obtain ⟨h, hr⟩ := ih cs h1 (inv_unregister c0 hi hu) hnd hfresh
      exact ⟨h, by simp only [runCalls, applyCall, hu]; exact hr⟩

/-- C14: for every sequence of `registerClient` and `unregisterClient` calls
from `NewHub` that returns, the global set has no repetition, holds exactly
the clients whose most recent call is a register, and its size is the number
of those clients.  Every sequence that registers no client twice returns;
otherwise an `unregisterClient` can panic on closing a closed mailbox, which
ends the program. -/
theorem global_set_size (calls : List RegCall) :
    (∀ h, runCalls calls NewHub = .ok h →
      h.clients.Nodup ∧
      (∀ c, c ∈ h.clients ↔ lastCall calls c = some (RegCall.register c)) ∧
      h.clients.length = (liveClients calls).length) ∧
    ((registrations calls).Nodup → ∃ h, runCalls calls NewHub = .ok h) := by
  constructor
  · intro h hr
    obtain ⟨hnd, hmem⟩ := runCalls_clients calls NewHub h List.nodup_nil hr
    have hmem1 : ∀ c, c ∈ h.clients ↔ lastCall calls c = some (RegCall.register c) := by
      intro c
      rw [hmem c]
      constructor
      · rintro (h1 | ⟨_, h2⟩)
        · exact h1
        · cases h2
      · exact Or.inl
    refine ⟨hnd, hmem1, ?_⟩
    apply List.Perm.length_eq
    unfold liveClients
    rw [List.perm_ext_iff_of_nodup hnd ((List.nodup_dedup _).filter _)]
    intro c
    rw [hmem1 c, List.mem_filter, List.mem_dedup]
    constructor
    · intro hl
      refine ⟨?_, by simpa using hl⟩
      have hne : (calls.filter (fun call => call.client = c)).getLast? ≠ none := by
        unfold lastCall at hl
        rw [hl]; simp
      rw [Ne, List.getLast?_eq_none_iff, List.filter_eq_nil_iff] at hne
      push_neg at hne
      obtain ⟨call, hcall, hcc⟩ := hne
      rw [List.mem_map]
      exact ⟨call, hcall, by simpa using hcc⟩
    · rintro ⟨_, hl⟩
      simpa using hl
  · intro hnd
    exact runCalls_ok calls [] NewHub inv_NewHub hnd (fun c _ hc => by cases hc)

/-- C14 at the calls register A, register B, unregister A: the sequence
returns, and the global set has as many clients as have a register as their
most recent call, namely B alone. -/
theorem global_set_size_witness :
    (∃ h, runCalls sampleCalls NewHub = .ok h) ∧
    (hubOf (runCalls sampleCalls NewHub)).clients.length = (liveClients sampleCalls).length ∧
    liveClients sampleCalls = [clientB] :=
  ⟨(global_set_size sampleCalls).2 (by decide),
    ((global_set_size sampleCalls).1 (hubOf (runCalls sampleCalls NewHub)) rfl).2.2,
    by decide⟩

/-! ## Anonymous clients -/

/-- The dispatch loop leaves the mailbox of a client that is not a target as it
was, also when the loop ends in a panic. -/
theorem dispatch_send_of_not_mem (data : Frame) (l : List Client) (h : Hub) (c : Client)
    (hc : c ∉ l) : (hubOf (dispatch data l h)).send c = h.send c := by
  induction l generalizing h with
  | nil => simp [dispatch, hubOf]
  | cons x rest ih =>
    have hcx : c ≠ x := fun e => hc (e ▸ List.mem_cons_self x rest)
    have hcr : c ∉ rest := fun hm => hc (List.mem_cons_of_mem x hm)
    rcases dispatch_cons_cases data x rest h with ⟨_, he⟩ | ⟨_, _, he⟩ | ⟨_, _, he⟩
    · rw [he]; simp [hubOf]
    · rw [he, ih _ hcr]
      simp [Function.update_noteq hcx]
    · rw [he, ih _ hcr]

/-- In every hub reachable by any sequence of calls, every key of the identity
index is positive and every client listed under it has that identity. -/
theorem reachAny_identity_keys {marshal : Message → Option Frame} {h : Hub}
    (hr : ReachAny marshal h) :
    ∀ k l, h.userClients k = some l → 0 < k ∧ ∀ c ∈ l, c.userID = k := by
  induction hr with
  | init => intro k l hl; cases hl
  | @register h0 c _ ih =>
    intro k l hl
    rw [registerClient_userClients] at hl
    by_cases hu : 0 < c.userID
    · rw [if_pos hu] at hl
      by_cases hk : k = c.userID
      · subst hk
        simp only [mapSet, Function.update_same, Option.some.injEq] at hl
        subst hl
        refine ⟨hu, fun d hd => ?_⟩
        rw [List.mem_append, List.mem_singleton] at hd
        rcases hd with hd | hd
        · cases hv : h0.userClients c.userID with
          | none => simp [mapGet, hv] at hd
          | some l0 =>
            have hd0 : d ∈ l0 := by simpa [mapGet, hv] using hd
            exact (ih _ l0 hv).2 d hd0
        · rw [hd]
      · simp only [mapSet, Function.update_noteq hk] at hl
        exact ih k l hl
    · rw [if_neg hu] at hl
      exact ih k l hl
  | subscribe c matchID _ ih => exact ih
  | @unregister h0 h1 c _ hu ih =>
    intro k l hl
    by_cases hc : c ∈ h0.clients
    · cases ho : (h0.send c).closed
      · obtain ⟨h2, he, _, _, _, huc, _⟩ := unregisterClient_of_mem_open h0 c hc ho
        rw [he] at hu
        have e21 : h2 = h1 := by simpa using hu
        rw [← e21, huc k] at hl
        by_cases hk : 0 < c.userID ∧ k = c.userID
        · rw [if_pos hk] at hl
          by_cases hemp : (mapGet h0.userClients c.userID).erase c = []
          · rw [if_pos hemp] at hl; cases hl
          · rw [if_neg hemp] at hl
            cases hl
            refine ⟨hk.2 ▸ hk.1, fun d hd => ?_⟩
            have hd1 := List.mem_of_mem_erase hd
            cases hv : h0.userClients c.userID with
            | none => simp [mapGet, hv] at hd1
            | some l0 =>
              have hd0 : d ∈ l0 := by simpa [mapGet, hv] using hd1
              rw [hk.2]
              exact (ih _ l0 hv).2 d hd0
        · rw [if_neg hk] at hl
          exact ih k l hl
      · rw [unregisterClient_of_mem_closed h0 c hc ho] at hu
        cases hu
    · rw [unregisterClient_of_not_mem h0 c hc] at hu
      have e : h0 = h1 := by simpa using hu
      rw [← e] at hl
      exact ih k l hl
  | @broadcast h0 h1 m _ hb ih =>
    have hf := (broadcastTo_frame marshal h0 Target.all m).2.1
    simp only [broadcastTo, hb, hubOf] at hf
    rw [hf]
    exact ih
  | @toUser h0 userID m _ ih =>
    have hf := (broadcastTo_frame marshal h0 (Target.user userID) m).2.1
    simp only [broadcastTo] at hf
    rw [hf]
    exact ih
  | @toMatch h0 matchID m _ ih =>
    have hf := (broadcastTo_frame marshal h0 (Target.topic matchID) m).2.1
    simp only [broadcastTo] at hf
    rw [hf]
    exact ih
  | recv c _ ih => exact ih

/-- C15: anonymous clients never receive identity broadcasts.  In every hub
reachable by any sequence of hub calls (also one that registers a client
again), for every integer `userID`, positive or not, and every message,
`BroadcastToUser` leaves the mailbox of every client whose `userID` is not
positive as it was: such a client is in no list of the identity index.  This
holds whether the broadcast returns or panics. -/
theorem BroadcastToUser_skips_anonymous (marshal : Message → Option Frame) (h : Hub)
    (hr : ReachAny marshal h) (userID : Int) (m : Message) (c : Client)
    (hc : c.userID ≤ 0) :
    c ∉ mapGet h.userClients userID ∧
    (hubOf (BroadcastToUser marshal h userID m)).send c = h.send c := by
  have hnot : c ∉ mapGet h.userClients userID := by
    intro hm
    cases hv : h.userClients userID with
    | none => simp [mapGet, hv] at hm
    | some l =>
      have hm0 : c ∈ l := by simpa [mapGet, hv] using hm
      obtain ⟨hk, hall⟩ := reachAny_identity_keys hr userID l hv
      have := hall c hm0
      omega
  refine ⟨hnot, ?_⟩
  unfold BroadcastToUser
  cases marshal m with
  | none => rfl
  | some data => exact dispatch_send_of_not_mem data _ h c hnot

/-- C15 at the hub with client A (user 7) and the anonymous client B
registered: a broadcast to user 7 leaves the mailbox of B as it was. -/
theorem BroadcastToUser_skips_anonymous_witness :
    clientB ∉ mapGet hubAB.userClients 7 ∧
    (hubOf (BroadcastToUser sampleMarshal hubAB 7 msg1)).send clientB = hubAB.send clientB :=
  BroadcastToUser_skips_anonymous sampleMarshal hubAB
    (ReachAny.register clientB (reach_reachAny (reach_hubA sampleMarshal))) 7 msg1 clientB
    (by decide)

/-! ## The inbound pump -/

/-- What the loop body of `readPump` does with a frame, case by case. -/
theorem readStep_cases (d : Decoder) (h : Hub) (c : Client) (raw : Frame) :
    (d.unmarshalMessage (normalize d raw) = none → readStep d h c raw = h) ∧
    (∀ msg, d.unmarshalMessage (normalize d raw) = some msg →
      (msg.type ≠ "subscribe_match" → readStep d h c raw = h) ∧
      (msg.type = "subscribe_match" →
        (d.unmarshalMatchID msg.payload = none → readStep d h c raw = h) ∧
        (∀ n, d.unmarshalMatchID msg.payload = some n →
          (n ≤ 0 → readStep d h c raw = h) ∧
          (0 < n → readStep d h c raw = SubscribeToMatch h c n)))) := by
  refine ⟨fun hn => by simp [readStep, hn], fun msg hm => ⟨fun ht => ?_, fun ht => ⟨?_, ?_⟩⟩⟩
  · simp [readStep, hm, ht]
  · intro hp
    simp [readStep, hm, ht, hp]
  · intro n hp
    refine ⟨fun hn => ?_, fun hn => ?_⟩
    · simp [readStep, hm, ht, hp, not_lt.mpr hn]
    · simp [readStep, hm, ht, hp, hn]

/-- C16 fails on the code: a registered client sends the envelope of type
`subscribe_topic` with payload `{"topicId":5}`; the loop body of `readPump`
compares the type with `subscribe_match`, drops the frame, and the client is
not subscribed to topic 5. -/
theorem readStep_ignores_subscribe_topic :
    clientA ∈ hubA.clients ∧
    sampleDecoder.unmarshalMessage (normalize sampleDecoder frameTopic5) =
      some { type := "subscribe_topic", payload := payloadTopic5 } ∧
    (readStep sampleDecoder hubA clientA frameTopic5).matchSubscriptions 5 = none ∧
    clientA ∉ mapGet (readStep sampleDecoder hubA clientA frameTopic5).matchSubscriptions 5 := by
  refine ⟨by decide, by decide, by decide, by decide⟩

/-- C16 as amended: the recognized envelope has type `subscribe_match` and its
payload carries the key `matchId`.  For every `n > 0`, when the frame decodes
to an envelope of type `subscribe_match` whose payload decodes to match id `n`,
the loop body of `readPump` is the call `SubscribeToMatch(c, n)`, after which
the client is listed under `n`; an envelope of type `subscribe_topic` is
dropped. -/
theorem readStep_subscribe_match (d : Decoder) (h : Hub) (c : Client) (raw : Frame)
    (msg : Message) (n : Int) (hm : d.unmarshalMessage (normalize d raw) = some msg) :
    (msg.type = "subscribe_match" → d.unmarshalMatchID msg.payload = some n → 0 < n →
      readStep d h c raw = SubscribeToMatch h c n ∧
      c ∈ mapGet (readStep d h c raw).matchSubscriptions n) ∧
    (msg.type = "subscribe_topic" → readStep d h c raw = h) := by
  obtain ⟨_, hcases⟩ := readStep_cases d h c raw
  obtain ⟨hother, hsub⟩ := hcases msg hm
  constructor
  · intro ht hp hn
    have he := ((hsub ht).2 n hp).2 hn
    refine ⟨he, ?_⟩
    rw [he]
    simp [SubscribeToMatch, mapSet, mapGet]
  · intro ht
    apply hother
    rw [ht]
    decide

/-- C16 as amended, at the envelope of type `subscribe_match` with payload
`{"matchId":5}` sent by client A. -/
theorem readStep_subscribe_match_witness :
    readStep sampleDecoder hubA clientA frameMatch5 = SubscribeToMatch hubA clientA 5 ∧
    clientA ∈ mapGet (readStep sampleDecoder hubA clientA frameMatch5).matchSubscriptions 5 :=
  (readStep_subscribe_match sampleDecoder hubA clientA frameMatch5
    { type := "subscribe_match", payload := payloadMatch5 } 5 (by decide)).1
    (by decide) (by decide) (by decide)

/-- C17: the loop body of `readPump` changes the hub only for a well-formed
subscribe envelope with a positive match id.  For a frame that does not decode,
or whose type is not `subscribe_match`, or whose payload does not decode, or
whose match id is missing (decoded as 0), zero or negative, the hub is
unchanged and the pump goes on with the next read from the same hub: it does
not end and does not ask for the client to be unregistered.  In the one
remaining case the loop body is the call of `SubscribeToMatch`. -/
theorem readPump_drops_frame (d : Decoder) (h : Hub) (c : Client) (raw : Frame)
    (rest : List ReadResult) :
    ((d.unmarshalMessage (normalize d raw) = none ∨
      (∃ msg, d.unmarshalMessage (normalize d raw) = some msg ∧
        (msg.type ≠ "subscribe_match" ∨ d.unmarshalMatchID msg.payload = none ∨
          ∃ n, d.unmarshalMatchID msg.payload = some n ∧ n ≤ 0))) →
      readStep d h c raw = h ∧
      readPump d c (ReadResult.message raw :: rest) h = readPump d c rest h) ∧
    (readStep d h c raw ≠ h →
      ∃ msg n, d.unmarshalMessage (normalize d raw) = some msg ∧
        msg.type = "subscribe_match" ∧ d.unmarshalMatchID msg.payload = some n ∧ 0 < n ∧
        readStep d h c raw = SubscribeToMatch h c n) := by
  obtain ⟨hnone, hcases⟩ := readStep_cases d h c raw
  have hdrop : (d.unmarshalMessage (normalize d raw) = none ∨
      (∃ msg, d.unmarshalMessage (normalize d raw) = some msg ∧
        (msg.type ≠ "subscribe_match" ∨ d.unmarshalMatchID msg.payload = none ∨
          ∃ n, d.unmarshalMatchID msg.payload = some n ∧ n ≤ 0))) →
      readStep d h c raw = h := by
    rintro (hn | ⟨msg, hm, hbad⟩)
    · exact hnone hn
    · obtain ⟨hother, hsub⟩ := hcases msg hm
      by_cases ht : msg.type = "subscribe_match"
      · rcases hbad with hb | hb | ⟨n, hp, hn⟩
        · exact absurd ht hb
        · exact (hsub ht).1 hb
        · exact ((hsub ht).2 n hp).1 hn
      · exact hother ht
  constructor
  · intro hbad
    have he := hdrop hbad
    refine ⟨he, ?_⟩
    simp only [readPump]
    rw [he]
  · intro hne
    cases hm : d.unmarshalMessage (normalize d raw) with
    | none => exact absurd (hnone hm) hne
    | some msg =>
      obtain ⟨hother, hsub⟩ := hcases msg hm
      by_cases ht : msg.type = "subscribe_match"
      · cases hp : d.unmarshalMatchID msg.payload with
        | none => exact absurd ((hsub ht).1 hp) hne
        | some n =>
          rcases le_or_lt n 0 with hn | hn
          · exact absurd (((hsub ht).2 n hp).1 hn) hne
          · exact ⟨msg, n, rfl, ht, hp, hn, ((hsub ht).2 n hp).2 hn⟩
      · exact absurd (hother ht) hne

/-- C17 at a frame that is not JSON, followed by a subscribe frame: the first
frame is dropped and the pump goes on to the second, which subscribes client A
to match 5. -/
theorem readPump_drops_frame_witness :
    readStep sampleDecoder hubA clientA frameGarbage = hubA ∧
    readPump sampleDecoder clientA
        [ReadResult.message frameGarbage, ReadResult.message frameMatch5] hubA =
      readPump sampleDecoder clientA [ReadResult.message frameMatch5] hubA ∧
    (readPump sampleDecoder clientA
        [ReadResult.message frameGarbage, ReadResult.message frameMatch5]
        hubA).matchSubscriptions 5 = some [clientA] :=
  ⟨((readPump_drops_frame sampleDecoder hubA clientA frameGarbage
      [ReadResult.message frameMatch5]).1 (Or.inl (by decide))).1,
    ((readPump_drops_frame sampleDecoder hubA clientA frameGarbage
      [ReadResult.message frameMatch5]).1 (Or.inl (by decide))).2,
    by decide⟩

/-! ## Match notifications -/

/-- A sequence of broadcasts to one topic whose subscribers all have open
mailboxes returns; a client listed once gets the frames in order at the tail
of its mailbox, as many as it had room for, and a client that is not listed
gets nothing. -/
theorem broadcastSeq_spec (marshal : Message → Option Frame) (t : Int) (msgs : List Message) :
    ∀ (frames : List Frame) (h : Hub), msgs.map marshal = frames.map some →
      (∀ c ∈ mapGet h.matchSubscriptions t, (h.send c).closed = false) →
      ∃ h1, broadcastSeq marshal t msgs h = .ok h1 ∧
        h1.matchSubscriptions = h.matchSubscriptions ∧
        (∀ c, (h1.send c).closed = (h.send c).closed ∧ (h1.send c).cap = (h.send c).cap) ∧
        (∀ c, (mapGet h.matchSubscriptions t).count c = 1 →
          (h1.send c).buf =
            (h.send c).buf ++ frames.take ((h.send c).cap - (h.send c).buf.length)) ∧
        (∀ c, c ∉ mapGet h.matchSubscriptions t → h1.send c = h.send c) := by
  induction msgs with
  | nil =>
    intro frames h hmf _
    have hf : frames = [] := by
      cases frames with
      | nil => rfl
      | cons d fs => simp at hmf
    subst hf
    exact ⟨h, rfl, rfl, fun c => ⟨rfl, rfl⟩, fun c _ => by simp, fun c _ => rfl⟩
  | cons m ms ih =>
    intro frames h hmf hopen
    cases frames with
    | nil => simp at hmf
    | cons d fs =>
      simp only [List.map_cons, List.cons.injEq] at hmf
      obtain ⟨hm, hrest⟩ := hmf
      obtain ⟨h1, hb, _, _, e3, e4, hbuf, _⟩ :=
        broadcastTo_spec marshal h (Target.topic t) m d hm hopen
      have hb1 : BroadcastToMatch marshal h t m = .ok h1 := hb
      have hopen1 : ∀ c ∈ mapGet h1.matchSubscriptions t, (h1.send c).closed = false := by
        intro c hc
        rw [e3] at hc
        rw [(e4 c).1]
        exact hopen c hc
      obtain ⟨h2, hrun, f3, f4, hin, hout⟩ := ih fs h1 hrest hopen1
      simp only [targets] at hbuf
      refine ⟨h2, ?_, f3.trans e3, ?_, ?_, ?_⟩
      · simp only [broadcastSeq, hb1]
        exact hrun
      · intro c
        exact ⟨(f4 c).1.trans (e4 c).1, (f4 c).2.trans (e4 c).2⟩
      · intro c hone
        have hb2 := hin c (by rw [e3]; exact hone)
        have hlen1 : (h1.send c).buf.length =
            (h.send c).buf.length + min 1 ((h.send c).cap - (h.send c).buf.length) := by
          rw [hbuf c, hone]; simp
        rw [hb2, (e4 c).2, hlen1, hbuf c, hone]
        rcases Nat.eq_zero_or_pos ((h.send c).cap - (h.send c).buf.length) with h0 | h0
        · rw [h0]
          have : (h.send c).cap - ((h.send c).buf.length + min 1 0) = 0 := by omega
          rw [this]
          simp
        · obtain ⟨r, hr⟩ : ∃ r, (h.send c).cap - (h.send c).buf.length = r + 1 :=
            ⟨(h.send c).cap - (h.send c).buf.length - 1, by omega⟩
          have h1' : min 1 (r + 1) = 1 := by omega
          have h2' : (h.send c).cap - ((h.send c).buf.length + 1) = r := by omega
          rw [hr, h1', h2', List.take_succ_cons]
          simp
      · intro c hc
        rw [hout c (by rw [e3]; exact hc)]
        apply chan_ext _ _ _ (e4 c).2 (e4 c).1
        rw [hbuf c, List.count_eq_zero.mpr hc]
        simp

theorem notifyMatchUpdated_finished (marshal : Message → Option Frame)
    (marshalMatch : Match → List Nat) (h : Hub) (m : Match)
    (hs : m.Status ≠ MatchStatusPending ∧ m.Status ≠ MatchStatusInProgress) :
    notifyMatchUpdated marshal marshalMatch h m =
      broadcastSeq marshal m.ID
        [{ type := "match_updated", payload := marshalMatch m },
         { type := "match_" ++ m.Status, payload := marshalMatch m }] h := by
  unfold notifyMatchUpdated
  simp only [broadcastSeq]
  cases BroadcastToMatch marshal h m.ID { type := "match_updated", payload := marshalMatch m } with
  | error e => rfl
  | ok h1 =>
    simp only [if_pos hs]
    cases BroadcastToMatch marshal h1 m.ID
      { type := "match_" ++ m.Status, payload := marshalMatch m } <;> rfl

theorem notifyMatchUpdated_running (marshal : Message → Option Frame)
    (marshalMatch : Match → List Nat) (h : Hub) (m : Match)
    (hs : m.Status = MatchStatusPending ∨ m.Status = MatchStatusInProgress) :
    notifyMatchUpdated marshal marshalMatch h m =
      broadcastSeq marshal m.ID [{ type := "match_updated", payload := marshalMatch m }] h := by
  unfold notifyMatchUpdated
  simp only [broadcastSeq]
  have hn : ¬ (m.Status ≠ MatchStatusPending ∧ m.Status ≠ MatchStatusInProgress) := by
    rintro ⟨h1, h2⟩
    rcases hs with hs | hs
    · exact h1 hs
    · exact h2 hs
  cases BroadcastToMatch marshal h m.ID { type := "match_updated", payload := marshalMatch m } with
  | error e => rfl
  | ok h1 => simp only [if_neg hn]

/-- C18: `notifyMatchUpdated` sends to the topic of the match, with
`BroadcastToMatch` and in this order, the message `match_updated` and then the
message `match_<status>` when the status is `white_won`, `black_won`, `draw` or
`aborted`, and the message `match_updated` alone when the status is `pending`
or `in_progress`; all messages carry the same payload.  When the messages
marshal to `frames` and the subscribers of the topic have open mailboxes, the
call returns, a subscriber listed once with room for the frames gets exactly
`frames` at the tail of its mailbox, and a client that is not a subscriber gets
nothing. -/
theorem notifyMatchUpdated_frames (marshal : Message → Option Frame)
    (marshalMatch : Match → List Nat) (h : Hub) (m : Match) :
    (m.Status = "white_won" →
      notifyMatchUpdated marshal marshalMatch h m =
        broadcastSeq marshal m.ID
          [{ type := "match_updated", payload := marshalMatch m },
           { type := "match_white_won", payload := marshalMatch m }] h) ∧
    (m.Status = "black_won" →
      notifyMatchUpdated marshal marshalMatch h m =
        broadcastSeq marshal m.ID
          [{ type := "match_updated", payload := marshalMatch m },
           { type := "match_black_won", payload := marshalMatch m }] h) ∧
    (m.Status = "draw" →
      notifyMatchUpdated marshal marshalMatch h m =
        broadcastSeq marshal m.ID
          [{ type := "match_updated", payload := marshalMatch m },
           { type := "match_draw", payload := marshalMatch m }] h) ∧
    (m.Status = "aborted" →
      notifyMatchUpdated marshal marshalMatch h m =
        broadcastSeq marshal m.ID
          [{ type := "match_updated", payload := marshalMatch m },
           { type := "match_aborted", payload := marshalMatch m }] h) ∧
    (m.Status = "pending" ∨ m.Status = "in_progress" →
      notifyMatchUpdated marshal marshalMatch h m =
        broadcastSeq marshal m.ID
          [{ type := "match_updated", payload := marshalMatch m }] h) ∧
    (∀ (msgs : List Message) (frames : List Frame),
      notifyMatchUpdated marshal marshalMatch h m = broadcastSeq marshal m.ID msgs h →
      msgs.map marshal = frames.map some →
      (∀ c ∈ mapGet h.matchSubscriptions m.ID, (h.send c).closed = false) →
      ∃ h1, notifyMatchUpdated marshal marshalMatch h m = .ok h1 ∧
        (∀ c, (mapGet h.matchSubscriptions m.ID).count c = 1 →
          (h.send c).buf.length + frames.length ≤ (h.send c).cap →
          (h1.send c).buf = (h.send c).buf ++ frames) ∧
        (∀ c, c ∉ mapGet h.matchSubscriptions m.ID → h1.send c = h.send c)) := by
  have hfin : ∀ s : String, s ≠ MatchStatusPending ∧ s ≠ MatchStatusInProgress →
      m.Status = s →
      notifyMatchUpdated marshal marshalMatch h m =
        broadcastSeq marshal m.ID
          [{ type := "match_updated", payload := marshalMatch m },
           { type := "match_" ++ s, payload := marshalMatch m }] h := by
    intro s hs he
    have := notifyMatchUpdated_finished marshal marshalMatch h m (he ▸ hs)
    rw [he] at this
    exact this
  refine ⟨hfin "white_won" (by decide), hfin "black_won" (by decide), hfin "draw" (by decide),
    hfin "aborted" (by decide), notifyMatchUpdated_running marshal marshalMatch h m, ?_⟩
  intro msgs frames he hmf hopen
  obtain ⟨h1, hrun, _, _, hin, hout⟩ := broadcastSeq_spec marshal m.ID msgs frames h hmf hopen
  refine ⟨h1, he.trans hrun, ?_, hout⟩
  intro c hone hroom
  rw [hin c hone, List.take_of_length_le (by omega)]

/-- C18 at a match that white has won, with client A subscribed once to its
topic: A gets the frame of `match_updated` and then the frame of
`match_white_won`, which carry the same payload. -/
theorem notifyMatchUpdated_frames_witness :
    ∃ h1, notifyMatchUpdated sampleMarshalTyped sampleMarshalMatch hubOnce matchWon = .ok h1 ∧
      (h1.send clientA).buf = (hubOnce.send clientA).buf ++ [[13, 42], [15, 42]] := by
  have hseq := (notifyMatchUpdated_frames sampleMarshalTyped sampleMarshalMatch hubOnce
    matchWon).1 rfl
  obtain ⟨h1, hok, hin, _⟩ :=
    (notifyMatchUpdated_frames sampleMarshalTyped sampleMarshalMatch hubOnce
      matchWon).2.2.2.2.2 _ [[13, 42], [15, 42]] hseq (by decide)
      (by
        intro c hc
        have hcA : c = clientA := by
          have hl : mapGet hubOnce.matchSubscriptions matchWon.ID = [clientA] := by decide
          rw [hl] at hc
          simpa using hc
        subst hcA
        decide)
  exact ⟨h1, hok, hin clientA (by decide) (by decide)⟩

/-- `BroadcastToUser` in a hub that satisfies the invariant, for a message that
marshals: it returns; the registered clients with that identity whose mailbox
is not full get the frame once at the tail; every other mailbox is unchanged. -/
theorem toUser_spec (marshal : Message → Option Frame) {cs : List Client} (h : Hub)
    (hi : Inv cs h) (userID : Int) (m : Message) (data : Frame)
    (hm : marshal m = some data) :
    ∃ h1, BroadcastToUser marshal h userID m = .ok h1 ∧ Inv cs h1 ∧
      h1.clients = h.clients ∧ h1.userClients = h.userClients ∧
      h1.matchSubscriptions = h.matchSubscriptions ∧
      (∀ c ∈ h.clients, 0 < c.userID → c.userID = userID → (h.send c).full = false →
        (h1.send c).buf = (h.send c).buf ++ [data]) ∧
      (∀ c, ¬ (c ∈ h.clients ∧ 0 < c.userID ∧ c.userID = userID) → h1.send c = h.send c) := by
  have hmem : ∀ c ∈ mapGet h.userClients userID,
      c ∈ h.clients ∧ c.userID = userID ∧ 0 < userID := by
    unfold mapGet
    cases hv : h.userClients userID with
    | none => simp
    | some l =>
      intro c hc
      have hc0 : c ∈ l := by simpa using hc
      exact ⟨(hi.user_mem _ l hv c hc0).1, (hi.user_mem _ l hv c hc0).2, hi.user_pos _ l hv⟩
  have hnd : (mapGet h.userClients userID).Nodup := by
    unfold mapGet
    cases hv : h.userClients userID with
    | none => simp
    | some l => simpa using hi.user_nodup _ l hv
  obtain ⟨h1, hb, e1, e2, e3, e4, hbuf, _⟩ :=
    broadcastTo_spec marshal h (Target.user userID) m data hm
      (fun c hc => hi.clients_open c (hmem c hc).1)
  have hb1 : BroadcastToUser marshal h userID m = .ok h1 := hb
  have hi1 : Inv cs h1 := inv_of_frame hi e1 e2 e3 e4
  simp only [targets] at hbuf
  refine ⟨h1, hb1, hi1, e1, e2, e3, ?_, ?_⟩
  · intro c hc hpos hcu hfull
    have hin : c ∈ mapGet h.userClients userID := by
      have := hi.user_complete c hc hpos
      rw [hcu] at this
      exact this
    have hroom : (h.send c).buf.length < (h.send c).cap := by
      simpa [Chan.full] using hfull
    rw [hbuf c, List.count_eq_one_of_mem hnd hin]
    have : min 1 ((h.send c).cap - (h.send c).buf.length) = 1 := by omega
    rw [this]
    rfl
  · intro c hc
    have hnot : c ∉ mapGet h.userClients userID := by
      intro hin
      obtain ⟨a1, a2, a3⟩ := hmem c hin
      exact hc ⟨a1, a2 ▸ a3, a2⟩
    apply chan_ext _ _ _ (e4 c).2 (e4 c).1
    rw [hbuf c, List.count_eq_zero.mpr hnot]
    simp

/-- C19: for a match with distinct `WhiteID` and `BlackID`, in a reachable hub
whose registered clients have no full mailbox, when the `match_created`
message marshals to `data`: `notifyMatchCreated` returns, queues `data` exactly
once for every registered client whose identity is `WhiteID` or `BlackID`, and
leaves every other mailbox as it was, whatever topics its client is subscribed
to.  The registry is unchanged. -/
theorem notifyMatchCreated_delivers (marshal : Message → Option Frame)
    (marshalMatch : Match → List Nat) (h : Hub) (hr : Reachable marshal h)
    (hfull : ∀ c ∈ h.clients, (h.send c).full = false) (m : Match)
    (hdistinct : m.WhiteID ≠ m.BlackID) (data : Frame)
    (hm : marshal { type := "match_created", payload := marshalMatch m } = some data) :
    ∃ h2, notifyMatchCreated marshal marshalMatch h m = .ok h2 ∧
      (∀ c ∈ h.clients, 0 < c.userID → (c.userID = m.WhiteID ∨ c.userID = m.BlackID) →
        (h2.send c).buf = (h.send c).buf ++ [data]) ∧
      (∀ c, ¬ (c ∈ h.clients ∧ 0 < c.userID ∧ (c.userID = m.WhiteID ∨ c.userID = m.BlackID)) →
        h2.send c = h.send c) ∧
      h2.clients = h.clients ∧ h2.userClients = h.userClients ∧
      h2.matchSubscriptions = h.matchSubscriptions := by
  obtain ⟨cs, hreach⟩ := hr
  have hi := reach_inv hreach
  obtain ⟨h1, hb1, hi1, e1, e2, e3, hin1, hout1⟩ :=
    toUser_spec marshal h hi m.WhiteID _ data hm
  obtain ⟨h2, hb2, _, f1, f2, f3, hin2, hout2⟩ :=
    toUser_spec marshal h1 hi1 m.BlackID _ data hm
  refine ⟨h2, ?_, ?_, ?_, f1.trans e1, f2.trans e2, f3.trans e3⟩
  · simp only [notifyMatchCreated, hb1]
    exact hb2
  · intro c hc hpos hwb
    rcases hwb with hw | hbk
    · have hnb : ¬ (c ∈ h1.clients ∧ 0 < c.userID ∧ c.userID = m.BlackID) := by
        rintro ⟨_, _, hcb⟩
        exact hdistinct (hw.symm.trans hcb)
      rw [hout2 c hnb]
      exact hin1 c hc hpos hw (hfull c hc)
    · have hnw : ¬ (c ∈ h.clients ∧ 0 < c.userID ∧ c.userID = m.WhiteID) := by
        rintro ⟨_, _, hcw⟩
        exact hdistinct (hcw.symm.trans hbk)
      have hsame := hout1 c hnw
      rw [hin2 c (by rw [e1]; exact hc) hpos hbk (by rw [hsame]; exact hfull c hc), hsame]
  · intro c hc
    have hnw : ¬ (c ∈ h.clients ∧ 0 < c.userID ∧ c.userID = m.WhiteID) :=
      fun ⟨a1, a2, a3⟩ => hc ⟨a1, a2, Or.inl a3⟩
    have hnb : ¬ (c ∈ h1.clients ∧ 0 < c.userID ∧ c.userID = m.BlackID) := by
      rintro ⟨a1, a2, a3⟩
      rw [e1] at a1
      exact hc ⟨a1, a2, Or.inr a3⟩
    rw [hout2 c hnb, hout1 c hnw]

/-- C19 at the match of users 7 and 8 with topic 42, in the hub where A (user 7),
C (user 8) and the anonymous B are registered and B is subscribed to topic 42:
A and C get the frame, B gets nothing. -/
theorem notifyMatchCreated_delivers_witness :
    ∃ h2, notifyMatchCreated sampleMarshal sampleMarshalMatch hubABC matchWon = .ok h2 ∧
      (h2.send clientA).buf = (hubABC.send clientA).buf ++ [[42]] ∧
      (h2.send clientC).buf = (hubABC.send clientC).buf ++ [[42]] ∧
      h2.send clientB = hubABC.send clientB ∧
      clientB ∈ mapGet hubABC.matchSubscriptions matchWon.ID := by
  obtain ⟨h2, hok, hin, hout, _⟩ :=
    notifyMatchCreated_delivers sampleMarshal sampleMarshalMatch hubABC
      ⟨[clientC, clientB, clientA],
        Reach.subscribe clientB 42
          (Reach.register clientC
            (Reach.register clientB (reach_hubA sampleMarshal) (by decide)) (by decide))⟩
      (fun _ _ => rfl) matchWon (by decide) [42] rfl
  exact ⟨h2, hok, hin clientA (by decide) (by decide) (Or.inl (by decide)),
    hin clientC (by decide) (by decide) (Or.inr (by decide)),
    hout clientB (by decide), by decide⟩

/-! ## The outbound pump -/

theorem intercalate_cons (sep : Frame) (f : Frame) (fs : List Frame) :
    sep.intercalate (f :: fs) = f ++ (fs.map (fun g => sep ++ g)).flatten := by
  induction fs generalizing f with
  | nil => simp [List.intercalate]
  | cons g rest ih =>
    have h2 := ih g
    simp only [List.intercalate, List.intersperse, List.flatten_cons, List.map_cons] at h2 ⊢
    rw [h2]
    simp

theorem drainQueued_all (fs : List Frame) :
    ∀ (w : Frame) (k : Nat) (ch : Chan), ch.buf = fs →
      drainQueued fs.length w k ch =
        (w ++ (fs.map (fun g => [newline] ++ g)).flatten, k + fs.length, { ch with buf := [] }) := by
  induction fs with
  | nil =>
    intro w k ch hb
    cases ch
    simp only at hb
    subst hb
    simp [drainQueued]
  | cons f rest ih =>
    intro w k ch hb
    simp only [List.length_cons, drainQueued, hb]
    rw [ih (w ++ [newline] ++ f) (k + 1) { ch with buf := rest } rfl]
    simp only [List.map_cons, List.flatten_cons, List.append_assoc, Prod.mk.injEq, and_true]
    exact ⟨trivial, by omega⟩

/-- C20: outbound coalescing.  For a mailbox that holds `f1` followed by `fs`
(`k` frames with `k = fs.length + 1`), one pass of the outbound pump, when the
transport gives a writer, writes the single message `f1`, newline, `f2`,
newline, ..., `fk`: the frames in queue order with one newline byte between
them.  After the receive of `f1` it samples the length once and does exactly
`k - 1` more receives, and it leaves the mailbox empty. -/
theorem writePump_coalesces (ch : Chan) (f1 : Frame) (fs : List Frame)
    (hb : ch.buf = f1 :: fs) :
    writePumpStep true ch =
      PumpStep.wrote ([newline].intercalate (f1 :: fs)) ((f1 :: fs).length - 1)
        { ch with buf := [] } := by
  have hd := drainQueued_all fs f1 0 { ch with buf := fs } rfl
  simp only [writePumpStep, hb, if_true, hd, intercalate_cons]
  simp

/-- C20 at a mailbox with the three frames `[1, 2]`, `[3]`, `[4, 5]`: one message
with two newlines, two more receives, an empty mailbox. -/
theorem writePump_coalesces_witness :
    writePumpStep true mailbox3 =
      PumpStep.wrote [1, 2, 10, 3, 10, 4, 5] 2 { mailbox3 with buf := [] } :=
  writePump_coalesces mailbox3 [1, 2] [[3], [4, 5]] rfl

/-! ## Frame conditions of the hub operations -/

/-- C21: dispatch never mutates the registry.  For every hub, message and
argument, `broadcastMessage`, `BroadcastToUser` and `BroadcastToMatch` leave the
global set, the identity index and the topic index exactly as they were,
whether they return or panic; so does a receive by an outbound pump.  What
they change is the content of mailboxes and the list of started evictions. -/
theorem dispatch_never_mutates_registry (marshal : Message → Option Frame) (h : Hub)
    (m : Message) (userID matchID : Int) (c : Client) :
    ((hubOf (broadcastMessage marshal h m)).clients = h.clients ∧
      (hubOf (broadcastMessage marshal h m)).userClients = h.userClients ∧
      (hubOf (broadcastMessage marshal h m)).matchSubscriptions = h.matchSubscriptions) ∧
    ((hubOf (BroadcastToUser marshal h userID m)).clients = h.clients ∧
      (hubOf (BroadcastToUser marshal h userID m)).userClients = h.userClients ∧
      (hubOf (BroadcastToUser marshal h userID m)).matchSubscriptions =
        h.matchSubscriptions) ∧
    ((hubOf (BroadcastToMatch marshal h matchID m)).clients = h.clients ∧
      (hubOf (BroadcastToMatch marshal h matchID m)).userClients = h.userClients ∧
      (hubOf (BroadcastToMatch marshal h matchID m)).matchSubscriptions =
        h.matchSubscriptions) ∧
    ((recvFrame h c).clients = h.clients ∧ (recvFrame h c).userClients = h.userClients ∧
      (recvFrame h c).matchSubscriptions = h.matchSubscriptions) := by
  have h1 := broadcastTo_frame marshal h Target.all m
  have h2 := broadcastTo_frame marshal h (Target.user userID) m
  have h3 := broadcastTo_frame marshal h (Target.topic matchID) m
  simp only [broadcastTo] at h1 h2 h3
  exact ⟨⟨h1.1, h1.2.1, h1.2.2.1⟩, ⟨h2.1, h2.2.1, h2.2.2.1⟩, ⟨h3.1, h3.2.1, h3.2.2.1⟩,
    rfl, rfl, rfl⟩

/-- C23: the keepalive constants.  `pingPeriod` is 54 seconds for a `pongWait` of
60 seconds; it is exactly nine tenths of `pongWait` (the integer division
leaves no remainder, and the product fits in 64 bits); it is strictly less than
`pongWait`; the read limit is 512 bytes and the mailbox capacity is 256
frames. -/
theorem keepalive_constants :
    pongWait = 60 * second ∧ pingPeriod = 54 * second ∧
    pingPeriod * 10 = pongWait * 9 ∧ (pongWait * 9) % 10 = 0 ∧ pongWait * 9 < 2 ^ 63 ∧
    pingPeriod < pongWait ∧
    maxMessageSize = 512 ∧ mailboxCapacity = 256 ∧ newMailbox.cap = 256 := by
  decide

/-- C29: no index key maps to an empty list.  In every hub reachable from
`NewHub` by any sequence of hub calls (register, `SubscribeToMatch`, unregister,
and the broadcasts and receives as well), every key present in the identity
index and every key present in the topic index has a non-empty list. -/
theorem index_lists_nonempty (marshal : Message → Option Frame) (h : Hub)
    (hr : ReachAny marshal h) :
    (∀ k l, h.userClients k = some l → l ≠ []) ∧
    (∀ k l, h.matchSubscriptions k = some l → l ≠ []) := by
  induction hr with
  | init => exact ⟨fun k l hl => (by cases hl), fun k l hl => (by cases hl)⟩
  | @register h0 c _ ih =>
    refine ⟨fun k l hl => ?_, fun k l hl => ?_⟩
    · rw [registerClient_userClients] at hl
      by_cases hu : 0 < c.userID
      · rw [if_pos hu] at hl
        by_cases hk : k = c.userID
        · subst hk
          simp only [mapSet, Function.update_same, Option.some.injEq] at hl
          subst hl
          simp
        · simp only [mapSet, Function.update_noteq hk] at hl
          exact ih.1 k l hl
      · rw [if_neg hu] at hl
        exact ih.1 k l hl
    · rw [(registerClient_rest h0 c).1] at hl
      exact ih.2 k l hl
  | @subscribe h0 c matchID _ ih =>
    refine ⟨ih.1, fun k l hl => ?_⟩
    by_cases hk : k = matchID
    · subst hk
      simp only [SubscribeToMatch, mapSet, Function.update_same, Option.some.injEq] at hl
      subst hl
      simp
    · simp only [SubscribeToMatch, mapSet, Function.update_noteq hk] at hl
      exact ih.2 k l hl
  | @unregister h0 h1 c _ hu ih =>
    by_cases hc : c ∈ h0.clients
    · cases ho : (h0.send c).closed
      · obtain ⟨h2, he, _, _, _, huc, hms⟩ := unregisterClient_of_mem_open h0 c hc ho
        rw [he] at hu
        have e21 : h2 = h1 := by simpa using hu
        rw [← e21]
        refine ⟨fun k l hl => ?_, fun k l hl => ?_⟩
        · rw [huc k] at hl
          by_cases hk : 0 < c.userID ∧ k = c.userID
          · rw [if_pos hk] at hl
            by_cases hemp : (mapGet h0.userClients c.userID).erase c = []
            · rw [if_pos hemp] at hl; cases hl
            · rw [if_neg hemp] at hl
              cases hl
              exact hemp
          · rw [if_neg hk] at hl
            exact ih.1 k l hl
        · rw [hms k] at hl
          cases hv : h0.matchSubscriptions k with
          | none => rw [hv] at hl; cases hl
          | some l0 =>
            rw [hv] at hl
            simp only [Option.some_bind] at hl
            by_cases hemp : l0.erase c = []
            · rw [if_pos hemp] at hl; cases hl
            · rw [if_neg hemp] at hl
              cases hl
              exact hemp
      · rw [unregisterClient_of_mem_closed h0 c hc ho] at hu
        cases hu
    · rw [unregisterClient_of_not_mem h0 c hc] at hu
      have e : h0 = h1 := by simpa using hu
      rw [← e]
      exact ih
  | @broadcast h0 h1 m _ hb ih =>
    have hf := broadcastTo_frame marshal h0 Target.all m
    simp only [broadcastTo, hb, hubOf] at hf
    rw [hf.2.1, hf.2.2.1]
    exact ih
  | @toUser h0 userID m _ ih =>
    have hf := broadcastTo_frame marshal h0 (Target.user userID) m
    simp only [broadcastTo] at hf
    rw [hf.2.1, hf.2.2.1]
    exact ih
  | @toMatch h0 matchID m _ ih =>
    have hf := broadcastTo_frame marshal h0 (Target.topic matchID) m
    simp only [broadcastTo] at hf
    rw [hf.2.1, hf.2.2.1]
    exact ih
  | recv c _ ih => exact ih

/-- C29 at the hub left by register A, subscribe A to 42 twice, unregister A:
the list of topic 42 still has an entry, and the identity index has no key. -/
theorem index_lists_nonempty_witness :
    ((∀ k l, hubStale.userClients k = some l → l ≠ []) ∧
      (∀ k l, hubStale.matchSubscriptions k = some l → l ≠ [])) ∧
    hubStale.userClients 7 = none ∧ hubStale.matchSubscriptions 42 = some [clientA] :=
  ⟨index_lists_nonempty sampleMarshal hubStale (reach_reachAny (reach_hubStale sampleMarshal)),
    by decide, by decide⟩

theorem filter_ne_erase (c : Client) (l : List Client) :
    (l.erase c).filter (fun x => x != c) = l.filter (fun x => x != c) := by
  induction l with
  | nil => rfl
  | cons x rest ih =>
    by_cases hx : x = c
    · subst hx
      simp
    · have hne : (x == c) = false := by simpa using hx
      rw [List.erase_cons, hne]
      simp only [Bool.false_eq_true, if_false, List.filter_cons, ih]

/-- What `unregisterClient` leaves behind, in every case (no-op, teardown, or
panic on a closed mailbox): the global set without the client, every other
mailbox as it was, and every index list either as it was or without the first
entry of the client. -/
theorem unregisterClient_hubOf (h : Hub) (c : Client) :
    (hubOf (unregisterClient h c)).clients = h.clients.filter (fun x => x != c) ∧
    (∀ d, d ≠ c → (hubOf (unregisterClient h c)).send d = h.send d) ∧
    (hubOf (unregisterClient h c)).unregister = h.unregister ∧
    (∀ k, mapGet (hubOf (unregisterClient h c)).userClients k = mapGet h.userClients k ∨
      mapGet (hubOf (unregisterClient h c)).userClients k = (mapGet h.userClients k).erase c) ∧
    (∀ k, mapGet (hubOf (unregisterClient h c)).matchSubscriptions k =
        mapGet h.matchSubscriptions k ∨
      mapGet (hubOf (unregisterClient h c)).matchSubscriptions k =
        (mapGet h.matchSubscriptions k).erase c) := by
  by_cases hc : c ∈ h.clients
  · cases ho : (h.send c).closed
    · obtain ⟨h1, he, hcl, hsend, hun, huc, hms⟩ := unregisterClient_of_mem_open h c hc ho
      rw [he]
      simp only [hubOf]
      refine ⟨hcl, fun d hd => by rw [hsend, Function.update_noteq hd], hun, fun k => ?_,
        fun k => ?_⟩
      · unfold mapGet
        rw [huc k]
        by_cases hk : 0 < c.userID ∧ k = c.userID
        · rw [if_pos hk, hk.2]
          right
          by_cases hemp : (mapGet h.userClients c.userID).erase c = []
          · rw [if_pos hemp]
            unfold mapGet at hemp
            rw [hemp]
            rfl
          · rw [if_neg hemp]
            rfl
        · rw [if_neg hk]
          exact Or.inl rfl
      · unfold mapGet
        rw [hms k]
        cases hv : h.matchSubscriptions k with
        | none => exact Or.inl rfl
        | some l0 =>
          right
          simp only [Option.some_bind, Option.getD_some]
          by_cases hemp : l0.erase c = []
          · rw [if_pos hemp, hemp]; rfl
          · rw [if_neg hemp]; rfl
    · rw [unregisterClient_of_mem_closed h c hc ho]
      exact ⟨rfl, fun d _ => rfl, rfl, fun k => Or.inl rfl, fun k => Or.inl rfl⟩
  · rw [unregisterClient_of_not_mem h c hc]
    refine ⟨?_, fun d _ => rfl, rfl, fun k => Or.inl rfl, fun k => Or.inl rfl⟩
    show h.clients = _
    symm
    rw [List.filter_eq_self]
    intro a ha
    have : a ≠ c := fun e1 => hc (e1 ▸ ha)
    simpa using this

/-- C30: `unregisterClient(c)` affects only `c`.  For every hub and every client
`d` other than `c`, in every outcome of the call: `d` is in the global set
afterwards exactly when it was before; `d` has as many entries as before in
every list of the identity index and of the topic index; every such list is a
sublist of what it was and holds the clients other than `c` in the same order;
and the mailbox of `d` is unchanged. -/
theorem unregisterClient_affects_only_client (h : Hub) (c d : Client) (hd : d ≠ c) :
    (d ∈ (hubOf (unregisterClient h c)).clients ↔ d ∈ h.clients) ∧
    (hubOf (unregisterClient h c)).clients.filter (fun x => x != c) =
      h.clients.filter (fun x => x != c) ∧
    (∀ k, (mapGet (hubOf (unregisterClient h c)).userClients k).count d =
        (mapGet h.userClients k).count d ∧
      (mapGet (hubOf (unregisterClient h c)).userClients k).filter (fun x => x != c) =
        (mapGet h.userClients k).filter (fun x => x != c) ∧
      List.Sublist (mapGet (hubOf (unregisterClient h c)).userClients k)
        (mapGet h.userClients k)) ∧
    (∀ k, (mapGet (hubOf (unregisterClient h c)).matchSubscriptions k).count d =
        (mapGet h.matchSubscriptions k).count d ∧
      (mapGet (hubOf (unregisterClient h c)).matchSubscriptions k).filter (fun x => x != c) =
        (mapGet h.matchSubscriptions k).filter (fun x => x != c) ∧
      List.Sublist (mapGet (hubOf (unregisterClient h c)).matchSubscriptions k)
        (mapGet h.matchSubscriptions k)) ∧
    (hubOf (unregisterClient h c)).send d = h.send d := by
  obtain ⟨hcl, hsend, _, huc, hms⟩ := unregisterClient_hubOf h c
  have hlist : ∀ l1 l : List Client, (l1 = l ∨ l1 = l.erase c) →
      l1.count d = l.count d ∧
      l1.filter (fun x => x != c) = l.filter (fun x => x != c) ∧ List.Sublist l1 l := by
    intro l1 l hl
    rcases hl with e | e
    · rw [e]
      exact ⟨rfl, rfl, List.Sublist.refl l⟩
    · rw [e]
      exact ⟨List.count_erase_of_ne hd l, filter_ne_erase c l, List.erase_sublist c l⟩
  refine ⟨?_, ?_, fun k => hlist _ _ (huc k), fun k => hlist _ _ (hms k), hsend d hd⟩
  · rw [hcl, List.mem_filter]
    constructor
    · exact fun hm => hm.1
    · exact fun hm => ⟨hm, by simpa using hd⟩
  · rw [hcl, List.filter_filter]
    simp

/-- C30 at the hub with A (user 7), B and C (user 8) registered and B subscribed
to topic 42: unregistering A leaves C registered, listed under identity 8, and
with its mailbox as it was. -/
theorem unregisterClient_affects_only_client_witness :
    (clientC ∈ (hubOf (unregisterClient hubABC clientA)).clients ↔ clientC ∈ hubABC.clients) ∧
    (mapGet (hubOf (unregisterClient hubABC clientA)).userClients 8).count clientC =
      (mapGet hubABC.userClients 8).count clientC ∧
    (hubOf (unregisterClient hubABC clientA)).send clientC = hubABC.send clientC ∧
    clientA ∉ (hubOf (unregisterClient hubABC clientA)).clients :=
  ⟨(unregisterClient_affects_only_client hubABC clientA clientC (by decide)).1,
    ((unregisterClient_affects_only_client hubABC clientA clientC (by decide)).2.2.1 8).1,
    (unregisterClient_affects_only_client hubABC clientA clientC (by decide)).2.2.2.2,
    by decide⟩

/-! ## The match service -/

/-- C24: `MakeMove` records moves as opaque strings.  For a stored match `m` with
move list `M` and any move string `v`: when `m` is in progress, every
successful call has stored `v` alone if `M` was empty and `M`, one space and
`v` otherwise, so the new move list starts with `M`, and it returns the stored
match; without database faults the call is successful.  When `m` is not in
progress the call returns an error and the table is unchanged. -/
theorem MakeMove_appends (f : DbFaults) (t : MatchTable) (id : Int) (move : String)
    (m : Match) (hrow : t id = some m) :
    (m.Status = MatchStatusInProgress →
      (∀ m1, (MakeMove f t id move).1 = .ok m1 →
        ∃ row, (MakeMove f t id move).2 id = some row ∧
          row.Moves = (if m.Moves = "" then move else m.Moves ++ " " ++ move) ∧
          (∃ s, row.Moves = m.Moves ++ s) ∧ m1 = row ∧
          ∀ k, k ≠ id → (MakeMove f t id move).2 k = t k) ∧
      (f = noFaults → ∃ m1, (MakeMove f t id move).1 = .ok m1)) ∧
    (m.Status ≠ MatchStatusInProgress →
      (∃ e, (MakeMove f t id move).1 = .error e) ∧ (MakeMove f t id move).2 = t) := by
  have hstart : ∃ s, (if m.Moves = "" then move else m.Moves ++ " " ++ move) = m.Moves ++ s := by
    by_cases he : m.Moves = ""
    · rw [if_pos he, he]
      exact ⟨move, (String.empty_append move).symm⟩
    · rw [if_neg he]
      exact ⟨" " ++ move, String.append_assoc _ _ _⟩
  refine ⟨fun hs => ⟨fun m1 hok => ?_, fun hf => ?_⟩, fun hs => ?_⟩
  · obtain ⟨find, update, players⟩ := f
    cases find <;> cases update <;> cases players <;>
      simp [MakeMove, FindByID, Update, FindWithPlayers, hrow, hs] at hok ⊢
    refine ⟨hstart, hok.symm, fun k hk => ?_⟩
    simp [Function.update_noteq hk]
  · subst hf
    simp [MakeMove, FindByID, Update, FindWithPlayers, hrow, hs, noFaults]
  · obtain ⟨find, update, players⟩ := f
    cases find <;> simp [MakeMove, FindByID, hrow, hs]

/-- C24 at the match of users 7 and 8 in progress with the move list `e4`, and
the move `e5`: the call is successful and stores `e4 e5`. -/
theorem MakeMove_appends_witness :
    (∃ m1, (MakeMove noFaults (tableOf (matchRunning "e4")) 42 "e5").1 = .ok m1) ∧
    ((MakeMove noFaults (tableOf (matchRunning "e4")) 42 "e5").2 42).map (fun r => r.Moves) =
      some "e4 e5" :=
  ⟨((MakeMove_appends noFaults (tableOf (matchRunning "e4")) 42 "e5" (matchRunning "e4")
      (by decide)).1 rfl).2 rfl,
    by decide⟩

/-- C27: terminal match statuses are absorbing.  For a stored match whose status
is `white_won`, `black_won`, `draw` or `aborted`, each of `StartMatch`,
`MakeMove` and `AbortMatch` returns an error and leaves the table as it was.
A successful `StartMatch` found the match `pending`, and a successful `MakeMove`
found it `in_progress`; from those statuses, without database faults, the two
calls are successful. -/
theorem finished_match_is_absorbing (f : DbFaults) (t : MatchTable) (id : Int) :
    (∀ m, t id = some m →
      (m.Status = "white_won" ∨ m.Status = "black_won" ∨ m.Status = "draw" ∨
        m.Status = "aborted") →
      ((∃ e, (StartMatch f t id).1 = .error e) ∧ (StartMatch f t id).2 = t) ∧
      (∀ move, (∃ e, (MakeMove f t id move).1 = .error e) ∧ (MakeMove f t id move).2 = t) ∧
      ((∃ e, (AbortMatch f t id).1 = .error e) ∧ (AbortMatch f t id).2 = t)) ∧
    (∀ m1, (StartMatch f t id).1 = .ok m1 →
      ∃ m, t id = some m ∧ m.Status = MatchStatusPending) ∧
    (∀ move m1, (MakeMove f t id move).1 = .ok m1 →
      ∃ m, t id = some m ∧ m.Status = MatchStatusInProgress) ∧
    (∀ m, t id = some m → m.Status = MatchStatusPending → f = noFaults →
      ∃ m1, (StartMatch f t id).1 = .ok m1 ∧ m1.Status = MatchStatusInProgress) ∧
    (∀ m move, t id = some m → m.Status = MatchStatusInProgress → f = noFaults →
      ∃ m1, (MakeMove f t id move).1 = .ok m1) := by
  obtain ⟨find, update, players⟩ := f
  refine ⟨fun m hrow hfin => ?_, fun m1 hok => ?_, fun move m1 hok => ?_,
    fun m hrow hs hf => ?_, fun m move hrow hs hf => ?_⟩
  · have hne : m.Status ≠ MatchStatusPending ∧ m.Status ≠ MatchStatusInProgress := by
      rcases hfin with h | h | h | h <;> rw [h] <;> decide
    refine ⟨?_, fun move => ?_, ?_⟩
    · cases find <;> simp [StartMatch, FindByID, hrow, hne.1]
    · cases find <;> simp [MakeMove, FindByID, hrow, hne.2]
    · cases find <;> simp [AbortMatch, FindByID, hrow, hne.1, hne.2]
  · cases hrow : t id with
    | none => cases find <;> simp [StartMatch, FindByID, hrow] at hok
    | some m =>
      refine ⟨m, rfl, ?_⟩
      by_contra hs
      cases find <;> simp [StartMatch, FindByID, hrow, hs] at hok
  · cases hrow : t id with
    | none => cases find <;> simp [MakeMove, FindByID, hrow] at hok
    | some m =>
      refine ⟨m, rfl, ?_⟩
      by_contra hs
      cases find <;> simp [MakeMove, FindByID, hrow, hs] at hok
  · simp only [noFaults, DbFaults.mk.injEq] at hf
    obtain ⟨h1, h2, h3⟩ := hf
    subst h1 h2 h3
    simp [StartMatch, FindByID, Update, FindWithPlayers, hrow, hs]
  · simp only [noFaults, DbFaults.mk.injEq] at hf
    obtain ⟨h1, h2, h3⟩ := hf
    subst h1 h2 h3
    simp [MakeMove, FindByID, Update, FindWithPlayers, hrow, hs]

/-- C27 at the match that white has won: `StartMatch` returns an error and
changes nothing. -/
theorem finished_match_is_absorbing_witness :
    (∃ e, (StartMatch noFaults (tableOf matchWon) 42).1 = .error e) ∧
    (StartMatch noFaults (tableOf matchWon) 42).2 = tableOf matchWon :=
  (((finished_match_is_absorbing noFaults (tableOf matchWon) 42).1 matchWon (by decide)
    (Or.inl (by decide)))).1

/-! ## The turn check -/

theorem splitSpaces_token_space (w r : List Char) (hw : ' ' ∉ w) :
    splitSpaces (w ++ ' ' :: r) = w :: splitSpaces r := by
  induction w with
  | nil => simp [splitSpaces]
  | cons c w ih =>
    have hc : c ≠ ' ' := fun e => hw (e ▸ List.mem_cons_self c w)
    have hw1 : ' ' ∉ w := fun hm => hw (List.mem_cons_of_mem c hm)
    have ih1 := ih hw1
    show splitSpaces (c :: (w ++ ' ' :: r)) = (c :: w) :: splitSpaces r
    simp only [splitSpaces, if_neg hc, ih1]

theorem splitSpaces_token (w : List Char) (hw : ' ' ∉ w) : splitSpaces w = [w] := by
  induction w with
  | nil => rfl
  | cons c w ih =>
    have hc : c ≠ ' ' := fun e => hw (e ▸ List.mem_cons_self c w)
    have hw1 : ' ' ∉ w := fun hm => hw (List.mem_cons_of_mem c hm)
    simp only [splitSpaces, if_neg hc, ih hw1]

/-- For a move list made of `k ≥ 1` moves without spaces, joined by single
spaces, the count `len(strings.Split(match.Moves, " "))` is `k`. -/
theorem moveCountOf_join (tokens : List String) (hne : tokens ≠ [])
    (hw : ∀ w ∈ tokens, ' ' ∉ w.toList) :
    moveCountOf (strJoin tokens " ") = tokens.length := by
  have key : ∀ tokens : List String, tokens ≠ [] → (∀ w ∈ tokens, ' ' ∉ w.toList) →
      splitSpaces (strJoin tokens " ").toList = tokens.map String.toList := by
    intro tokens
    induction tokens with
    | nil => intro h; exact absurd rfl h
    | cons a rest ih =>
      intro _ hall
      cases rest with
      | nil =>
        simp only [strJoin, List.map_cons, List.map_nil]
        exact splitSpaces_token _ (hall a (List.mem_cons_self a []))
      | cons b rest2 =>
        have hrec := ih (List.cons_ne_nil b rest2)
          (fun w hm => hall w (List.mem_cons_of_mem a hm))
        have hl : (strJoin (a :: b :: rest2) " ").toList =
            a.toList ++ ' ' :: (strJoin (b :: rest2) " ").toList := by
          simp only [strJoin, String.toList, String.data_append, List.append_assoc]
          rfl
        rw [hl, splitSpaces_token_space _ _ (hall a (List.mem_cons_self a _)), hrec]
        rfl
  unfold moveCountOf
  rw [key tokens hne hw, List.length_map]

/-- C25, evaluated at the failing input: a match of users 7 (white) and 8 (black)
that is in progress with no move recorded.  `strings.Split` of the empty move
list has one piece, so the move count is 1, an odd number: the turn check
rejects the white player and admits the black player.  It does the same after
the first move, and admits white only when two moves are recorded. -/
theorem makeMove_first_turn_is_black :
    (matchRunning "").Moves = "" ∧ moveCountOf (matchRunning "").Moves = 1 ∧
    notYourTurn (matchRunning "") (matchRunning "").WhiteID = true ∧
    notYourTurn (matchRunning "") (matchRunning "").BlackID = false ∧
    notYourTurn (matchRunning "e7e5") (matchRunning "e7e5").WhiteID = true ∧
    notYourTurn (matchRunning "e7e5") (matchRunning "e7e5").BlackID = false ∧
    notYourTurn (matchRunning "e7e5 e2e4") (matchRunning "e7e5 e2e4").WhiteID = false ∧
    notYourTurn (matchRunning "e7e5 e2e4") (matchRunning "e7e5 e2e4").BlackID = true := by
  decide

/-- The part of the turn order that the code gets right: with `k ≥ 1` recorded
moves the turn check admits white and rejects black when `k` is even, and
admits black and rejects white when `k` is odd (white and black being
different users). -/
theorem notYourTurn_recorded_moves (m : Match) (tokens : List String) (hne : tokens ≠ [])
    (hw : ∀ w ∈ tokens, ' ' ∉ w.toList) (hm : m.Moves = strJoin tokens " ")
    (hdistinct : m.WhiteID ≠ m.BlackID) :
    (tokens.length % 2 = 0 →
      notYourTurn m m.WhiteID = false ∧ notYourTurn m m.BlackID = true) ∧
    (tokens.length % 2 = 1 →
      notYourTurn m m.BlackID = false ∧ notYourTurn m m.WhiteID = true) := by
  have hcount : moveCountOf m.Moves = tokens.length := by
    rw [hm]; exact moveCountOf_join tokens hne hw
  have hd2 : m.BlackID ≠ m.WhiteID := fun e => hdistinct e.symm
  constructor
  · intro hk
    simp [notYourTurn, hcount, hk, hdistinct, hd2]
  · intro hk
    simp [notYourTurn, hcount, hk, hdistinct, hd2]

/-! ## The start handler -/

/-- C26, evaluated at the failing input: match 42 of users 7 and 8 is stored as
`pending`, client A is subscribed to its topic, and user 9, who plays in
neither colour, posts the start request.  The answer is 403 and nothing is
broadcast, but the stored status is now `in_progress`: `startMatch` calls
`StartMatch` before it checks the player. -/
theorem startMatch_forbidden_after_update :
    (tableOf matchFresh 42).map (fun r => r.Status) = some "pending" ∧
    claimsOther.UserID ≠ matchFresh.WhiteID ∧ claimsOther.UserID ≠ matchFresh.BlackID ∧
    (startMatch sampleMarshal sampleMarshalMatch noFaults (tableOf matchFresh) hubOnce "POST"
      (some claimsOther) 42).1 = 403 ∧
    ((startMatch sampleMarshal sampleMarshalMatch noFaults (tableOf matchFresh) hubOnce "POST"
      (some claimsOther) 42).2.1 42).map (fun r => r.Status) = some "in_progress" ∧
    (startMatch sampleMarshal sampleMarshalMatch noFaults (tableOf matchFresh) hubOnce "POST"
      (some claimsOther) 42).2.2 = .ok hubOnce :=
  ⟨by decide, by decide, by decide, by decide, by decide, rfl⟩

/-! ## The admin check -/

theorem HasRole_iff_mem (roles : List String) (role : String) :
    HasRole roles role = true ↔ role ∈ roles := by
  induction roles with
  | nil => simp [HasRole]
  | cons r rest ih =>
    by_cases hr : r = role
    · simp [HasRole, hr]
    · have hr2 : role ≠ r := fun e => hr e.symm
      simp [HasRole, hr, hr2, ih]

theorem isAdmin_eq_HasRole (roles : List String) : isAdmin roles = HasRole roles "admin" := by
  induction roles with
  | nil => rfl
  | cons r rest ih => simp only [isAdmin, HasRole, ih]

theorem containsChars_of_starts (sub l : List Char) (hs : sub.isPrefixOf l = true) :
    containsChars sub l = true := by
  cases l with
  | nil =>
    cases sub with
    | nil => rfl
    | cons c cs => simp [List.isPrefixOf] at hs
  | cons c cs => simp [containsChars, hs]

theorem containsChars_append (sub a l : List Char) (hl : containsChars sub l = true) :
    containsChars sub (a ++ l) = true := by
  induction a with
  | nil => exact hl
  | cons c a ih => simp [containsChars, ih]

theorem strJoin_holds_element (roles : List String) (sep role : String) (hr : role ∈ roles) :
    ∃ a b, (strJoin roles sep).toList = a ++ (role.toList ++ b) := by
  induction roles with
  | nil => cases hr
  | cons r rest ih =>
    cases rest with
    | nil =>
      have : role = r := by simpa using hr
      exact ⟨[], [], by simp [strJoin, this]⟩
    | cons r2 rest2 =>
      have hl : (strJoin (r :: r2 :: rest2) sep).toList =
          r.toList ++ (sep.toList ++ (strJoin (r2 :: rest2) sep).toList) := by
        simp only [strJoin, String.toList, String.data_append, List.append_assoc]
      rcases List.mem_cons.mp hr with e | hm
      · exact ⟨[], sep.toList ++ (strJoin (r2 :: rest2) sep).toList, by rw [hl, e]; rfl⟩
      · obtain ⟨a, b, hab⟩ := ih hm
        exact ⟨r.toList ++ (sep.toList ++ a), b, by rw [hl, hab]; simp⟩

/-- The direction in which the two checks agree: a caller that `HasRole` accepts
as `admin` passes the substring check as well; and the loop of `abortMatch` is
`HasRole`. -/
theorem adminCheck_of_HasRole (roles : List String) (h : HasRole roles "admin" = true) :
    adminCheck roles = true ∧ isAdmin roles = true := by
  refine ⟨?_, by rw [isAdmin_eq_HasRole]; exact h⟩
  obtain ⟨a, b, hab⟩ := strJoin_holds_element roles "," "admin" ((HasRole_iff_mem _ _).mp h)
  unfold adminCheck strContains
  rw [hab]
  apply containsChars_append
  apply containsChars_of_starts
  rw [List.isPrefixOf_iff_prefix]
  exact List.prefix_append _ _

/-- C28, evaluated at the failing input: for the single role `superadmin` the
check of `listUsers` and `deleteUser` (a substring search in the joined roles)
accepts the caller, while `HasRole(roles, "admin")` and the loop of `abortMatch`
reject it.  The same happens for the role `administrator`. -/
theorem adminCheck_accepts_superadmin :
    adminCheck ["superadmin"] = true ∧ HasRole ["superadmin"] "admin" = false ∧
    isAdmin ["superadmin"] = false ∧
    adminCheck ["user", "administrator"] = true ∧
    HasRole ["user", "administrator"] "admin" = false := by
  decide

end ChessArena
